import Mathlib

/-!
SKIDExtractor: a shallow embedding of `SKIDExtractor.cpp`.

The program reads two Lua data files, `skillid.lub` (the `SKID` enumeration
table) and `skillinfolist.lub` (the per-skill records), and writes two text
listings.  The text-level functions of the program are embedded here as
executable Lean functions, and properties of the program are proved about
them.

Modelling conventions.
* A `std::string` is a `List Char`; every `Char` stands for one byte.
* A `size_t` position is a `Nat`; `string::npos` is `none`.
* `long long` values are `Int`; `strtoll` saturates at `LLONG_MIN` and
  `LLONG_MAX` exactly as the C library does.
* The `int depth` of the brace scans is an unbounded `Int`: a text with fewer
  than `2^31` braces never overflows the C++ counter.
* An `unordered_map` is an association list with pairwise distinct keys,
  updated by `umap_set` (`m[k] = v`) and read by `umap_find`.  The iteration
  order of the container is the order of the list, which no theorem below
  depends on.
* `while` loops whose index jumps forward are given a fuel argument; the
  callers pass more fuel than the loop can use.
-/

namespace SKIDExtractor

/-- A `std::string`, as the list of its bytes. -/
abbrev Str := List Char

/-! ## Strings: the `std::string` members used by the program -/

/-- Scan of `string::find(char, pos)` over the suffix that starts at index `k`. -/
def find_char_aux (c : Char) : Str → Nat → Option Nat
  | [], _ => none
  | d :: r, k => if d = c then some k else find_char_aux c r (k + 1)

/-- The call `s.find(c, pos)`: the first index `i ≥ pos` with `s[i] = c`. -/
def find_char (s : Str) (c : Char) (pos : Nat) : Option Nat :=
  find_char_aux c (s.drop pos) pos

/-- Scan of `string::find(const char*, pos)` over the suffix that starts at index `k`. -/
def find_str_aux (pat : Str) : Str → Nat → Option Nat
  | [], k => if pat = [] then some k else none
  | d :: r, k => if pat.isPrefixOf (d :: r) then some k else find_str_aux pat r (k + 1)

/-- The call `s.find(pat, pos)`: the first index `i ≥ pos` at which `pat` occurs. -/
def find_str (s pat : Str) (pos : Nat) : Option Nat :=
  if s.length < pos then none else find_str_aux pat (s.drop pos) pos

/-- The call `s.rfind(c)`: the last index `i` with `s[i] = c`. -/
def rfind_char (s : Str) (c : Char) : Option Nat :=
  match find_char_aux c s.reverse 0 with
  | none => none
  | some k => some (s.length - 1 - k)

/-- The call `s.substr(pos, n)`. -/
def substr (s : Str) (pos n : Nat) : Str := (s.drop pos).take n

/-- The call `s.substr(pos)`. -/
def substr_from (s : Str) (pos : Nat) : Str := s.drop pos

/-- The characters `" \t\r\n"` that `trim` cuts. -/
def is_trim_char (c : Char) : Bool :=
  c = ' ' || c = '\t' || c = '\r' || c = '\n'

/-- The function `trim`: cut spaces, tabs, carriage returns and newlines from both
ends.  The source keeps `x.substr(a, b - a + 1)` for the first and last positions
`a`, `b` not in `" \t\r\n"`, and clears `x` when there is none. -/
def trim (x : Str) : Str :=
  ((x.dropWhile is_trim_char).reverse.dropWhile is_trim_char).reverse

/-- The C function `isspace` in the "C" locale. -/
def is_space (c : Char) : Bool :=
  c = ' ' || c = '\t' || c = '\n' || c = '\x0b' || c = '\x0c' || c = '\r'

/-- The C function `isdigit`. -/
def is_digit (c : Char) : Bool := '0' ≤ c && c ≤ '9'

/-- The C function `isalnum` in the "C" locale. -/
def is_alnum (c : Char) : Bool :=
  ('0' ≤ c && c ≤ '9') || ('a' ≤ c && c ≤ 'z') || ('A' ≤ c && c ≤ 'Z')

/-! ## `strtoll` -/

/-- The largest `long long`. -/
def LLONG_MAX : Int := 9223372036854775807

/-- The smallest `long long`. -/
def LLONG_MIN : Int := -9223372036854775808

/-- Value of a character as a digit (`0-9`, then letters for 10 to 35). -/
def digit_value (c : Char) : Option Nat :=
  if '0' ≤ c ∧ c ≤ '9' then some (c.toNat - 48)
  else if 'a' ≤ c ∧ c ≤ 'z' then some (c.toNat - 87)
  else if 'A' ≤ c ∧ c ≤ 'Z' then some (c.toNat - 55)
  else none

/-- Whether `c` is a digit of the given base. -/
def is_digit_in (base : Nat) (c : Char) : Bool :=
  match digit_value c with
  | some d => decide (d < base)
  | none => false

/-- Magnitude of a digit string read left to right in the given base. -/
def digits_value (base : Nat) (ds : Str) : Nat :=
  ds.foldl (fun a c => a * base + (digit_value c).getD 0) 0

/-- The optional sign of the subject sequence: `(negative, rest)`. -/
def strtoll_sign : Str → Bool × Str
  | '-' :: r => (true, r)
  | '+' :: r => (false, r)
  | s => (false, s)

/-- Base selection and prefix skipping: with base 0 or 16 a `0x`/`0X` followed by a
hexadecimal digit selects base 16 and is skipped; with base 0 a leading `0` selects
base 8, anything else base 10. -/
def strtoll_base (base : Nat) (s : Str) : Nat × Str :=
  match s with
  | '0' :: x :: d :: r =>
    if (base = 0 ∨ base = 16) ∧ (x = 'x' ∨ x = 'X') ∧ is_digit_in 16 d = true then (16, d :: r)
    else if base = 0 then (8, s) else (base, s)
  | '0' :: _ => if base = 0 then (8, s) else (base, s)
  | _ => if base = 0 then (10, s) else (base, s)

/-- The C function `strtoll(s, &endp, base)`.  The result is `none` when no
conversion is performed (`endp == s`), and otherwise the converted value, saturated
to the `long long` range. -/
def strtoll (s : Str) (base : Nat) : Option Int :=
  let s1 := s.dropWhile is_space
  let (neg, s2) := strtoll_sign s1
  let (b, s3) := strtoll_base base s2
  let ds := s3.takeWhile (is_digit_in b)
  if ds = [] then none
  else
    let v : Int := (digits_value b ds : Nat)
    if neg then some (if -v < LLONG_MIN then LLONG_MIN else -v)
    else some (if LLONG_MAX < v then LLONG_MAX else v)

/-! ## `unordered_map` -/

/-- The assignment `m[k] = v`. -/
def umap_set {K V : Type} [DecidableEq K] : List (K × V) → K → V → List (K × V)
  | [], k, v => [(k, v)]
  | (k1, v1) :: r, k, v => if k1 = k then (k1, v) :: r else (k1, v1) :: umap_set r k v

/-- The lookup `m.find(k)`. -/
def umap_find {K V : Type} [DecidableEq K] : List (K × V) → K → Option V
  | [], _ => none
  | (k1, v1) :: r, k => if k1 = k then some v1 else umap_find r k

/-- The map `unordered_map<string, long long> handle_to_id`. -/
abbrev HandleMap := List (Str × Int)

/-- The maps `unordered_map<long long, string>` (`id_to_handle`, `id_to_name`). -/
abbrev IdMap := List (Int × Str)

/-! ## `strip_lua_comments` -/

/-- What a character inside a block comment is replaced with. -/
def blank (c : Char) : Char := if c = '\n' then '\n' else ' '

/-- First loop of `strip_lua_comments`.  The flag tells whether the scan is inside
the inner `while` (after an open marker `--[[`).  Outside, four characters
`--[[` enter the inner loop and are not copied; inside, `]]` is replaced by two
spaces and leaves it, any other character with at least one character after it is
blanked, and a single last character falls back to the outer loop, which copies it. -/
def strip_block_comments : Bool → Str → Str
  | _, [] => []
  | false, a :: b :: c :: d :: r =>
    if a = '-' ∧ b = '-' ∧ c = '[' ∧ d = '[' then strip_block_comments true r
    else a :: strip_block_comments false (b :: c :: d :: r)
  | false, a :: r => a :: strip_block_comments false r
  | true, [a] => [a]
  | true, a :: b :: r =>
    if a = ']' ∧ b = ']' then ' ' :: ' ' :: strip_block_comments false r
    else blank a :: strip_block_comments true (b :: r)

/-- Second loop of `strip_lua_comments`.  The flag tells whether the scan is inside
the inner `while` that skips to the end of the line: a `--` emits one newline and
enters it, and the newline that ends the comment is skipped. -/
def strip_line_comments : Bool → Str → Str
  | _, [] => []
  | false, [a] => [a]
  | false, a :: b :: r =>
    if a = '-' ∧ b = '-' then '\n' :: strip_line_comments true (b :: r)
    else a :: strip_line_comments false (b :: r)
  | true, a :: r => if a = '\n' then strip_line_comments false r else strip_line_comments true r

/-- The function `strip_lua_comments`. -/
def strip_lua_comments (s : Str) : Str :=
  strip_line_comments false (strip_block_comments false s)

/-- The function `is_digit_string`: non-empty and only decimal digits. -/
def is_digit_string (s : Str) : Bool := !s.isEmpty && s.all is_digit

/-! ## Brace matching -/

/-- The depth-counting `for` loop shared by `parse_skid_block` and the record
scanner, over the suffix that starts at index `i` with the current `depth`: a
`\x7b` increments the depth, a `\x7d` decrements it and ends the scan at this
index when the depth reaches zero. -/
def scan_depth : Str → Int → Nat → Option Nat
  | [], _, _ => none
  | c :: r, depth, i =>
    if c = '\x7b' then scan_depth r (depth + 1) (i + 1)
    else if c = '\x7d' then
      if depth - 1 = 0 then some i else scan_depth r (depth - 1) (i + 1)
    else scan_depth r depth (i + 1)

/-- The loop `for (i = lb; i < text.size(); ++i)` started with `depth = 0`: the
index of the brace that closes the block opened at `lb`, if any. -/
def match_brace (text : Str) (lb : Nat) : Option Nat :=
  scan_depth (text.drop lb) 0 lb

/-- First part of `parse_skid_block`: the body of the first brace block of `text`,
or `none` where the function returns 0 early. -/
def locate_block (text : Str) : Option Str :=
  match find_char text '\x7b' 0 with
  | none => none
  | some lb =>
    match match_brace text lb with
    | none => none
    | some rb => some (substr text (lb + 1) (rb - lb - 1))

/-! ## `parse_skid_block` -/

/-- The comma-splitting loop of `parse_skid_block`, with the current chunk `cur`
and the `entries` collected so far; the last line of the loop handles the chunk
after the last comma. -/
def split_entries : Str → Str → List Str → List Str
  | [], cur, entries =>
    let e := trim cur
    if e = [] then entries else entries ++ [e]
  | c :: r, cur, entries =>
    if c = ',' then
      let e := trim cur
      split_entries r [] (if e = [] then entries else entries ++ [e])
    else split_entries r (cur ++ [c]) entries

/-- What one entry `NAME = VALUE` yields: `none` where the loop body hits a
`continue`, otherwise the handle and its id. -/
def parse_entry (e : Str) : Option (Str × Int) :=
  match find_char e '=' 0 with
  | none => none
  | some eq =>
    let name := trim (substr e 0 eq)
    let val := trim (substr_from e (eq + 1))
    if name = [] ∨ val = [] then none
    else
      let val1 := match find_char val ';' 0 with
        | some semi => val.take semi
        | none => val
      let val2 := trim val1
      match strtoll val2 0 with
      | none => none
      | some id => some (name, id)

/-- State of the entry loop: `added`, `handle_to_id`, `id_to_handle`. -/
abbrev SkidState := Nat × HandleMap × IdMap

/-- One iteration of the entry loop of `parse_skid_block`. -/
def process_entry (st : SkidState) (e : Str) : SkidState :=
  match parse_entry e with
  | none => st
  | some (name, id) => (st.1 + 1, umap_set st.2.1 name id, umap_set st.2.2 id name)

/-- The function `parse_skid_block`: the returned count and the two maps after
the call. -/
def parse_skid_block (text : Str) (handle_to_id : HandleMap) (id_to_handle : IdMap) :
    SkidState :=
  match locate_block text with
  | none => (0, handle_to_id, id_to_handle)
  | some body => (split_entries body [] []).foldl process_entry (0, handle_to_id, id_to_handle)

/-- The marker `SKID` that `load_ids_from_lub` searches for. -/
def SKID_marker : Str := "SKID".toList

/-- The function `load_ids_from_lub` after a successful `read_file`, on the file
content `raw`: the returned flag and the two maps after the call. -/
def load_ids_from_lub (raw : Str) (handle_to_id : HandleMap) (id_to_handle : IdMap) :
    Bool × HandleMap × IdMap :=
  let t := strip_lua_comments raw
  match find_str t SKID_marker 0 with
  | none => (false, handle_to_id, id_to_handle)
  | some p =>
    match find_char t '\x7b' p with
    | none => (false, handle_to_id, id_to_handle)
    | some brace =>
      let r := parse_skid_block (substr_from t brace) handle_to_id id_to_handle
      (decide (0 < r.1), r.2.1, r.2.2)

/-! ## `find_field_string` -/

/-- Result of one iteration of the `while (true)` loop of `find_field_string`. -/
inductive FieldStep where
  | done (value : Str)
  | again (p : Nat)
deriving DecidableEq, Repr

/-- One iteration of the loop of `find_field_string` at search offset `p`. -/
def find_field_step (body field : Str) (p : Nat) : FieldStep :=
  match find_str body field p with
  | none => .done []
  | some p =>
    let flen := field.length
    let left_ok : Bool := decide (p = 0) || (match body.get? (p - 1) with
      | some c => !is_alnum c
      | none => true)
    let right_ok : Bool := decide (body.length ≤ p + flen) || (match body.get? (p + flen) with
      | some c => !is_alnum c
      | none => true)
    if !left_ok || !right_ok then .again (p + flen)
    else
      match find_char body '=' (p + flen) with
      | none => .done []
      | some eq =>
        match find_char body '"' (eq + 1) with
        | none => .again (eq + 1)
        | some q1 =>
          match find_char body '"' (q1 + 1) with
          | none => .done []
          | some q2 => .done (substr body (q1 + 1) (q2 - (q1 + 1)))

/-- The loop of `find_field_string`, run for at most `fuel` iterations. -/
def find_field_loop (body field : Str) : Nat → Nat → Str
  | 0, _ => []
  | fuel + 1, p =>
    match find_field_step body field p with
    | .done v => v
    | .again p1 => find_field_loop body field fuel p1

/-- The function `find_field_string`.  Every iteration that continues moves the
offset forward, so `body.length + 1` iterations are never used up. -/
def find_field_string (body field : Str) : Str :=
  find_field_loop body field (body.length + 1) 0

/-! ## `load_names_from_skillinfolist_lub` -/

/-- Resolution of a record key to `skill_id`; `-1` when the key is unknown. -/
def resolve_key (handle_to_id : HandleMap) (key : Str) : Int :=
  if is_digit_string key then (strtoll key 10).getD 0
  else
    let handle0 := match rfind_char key '.' with
      | none => key
      | some dot => substr_from key (dot + 1)
    let handle := (trim handle0).filter (fun c => !is_space c)
    if handle = [] then -1
    else
      match umap_find handle_to_id handle with
      | some id => id
      | none => -1

/-- Result of the first half of one iteration of the record loop. -/
inductive RecordStep where
  | stop
  | skip (i : Nat)
  | record (key body : Str) (i : Nat)
deriving DecidableEq, Repr

/-- One iteration of the record loop at scan offset `i`, up to the extraction of
the key and the body: `stop` for the two `break`s before the body is found and
the one after the brace scan, `skip` for the two `continue`s. -/
def record_step (t : Str) (i : Nat) : RecordStep :=
  match find_char t '[' i with
  | none => .stop
  | some lb =>
    match find_char t ']' (lb + 1) with
    | none => .stop
    | some rb =>
      let key := trim (substr t (lb + 1) (rb - lb - 1))
      match find_char t '=' (rb + 1) with
      | none => .skip (rb + 1)
      | some eq =>
        match find_char t '\x7b' (eq + 1) with
        | none => .skip (rb + 1)
        | some ob =>
          match match_brace t ob with
          | none => .stop
          | some cb => .record key (substr t (ob + 1) (cb - ob - 1)) (cb + 1)

/-- Second half of an iteration: resolve the key, extract `SkillName`, and record
the pair when the name is non-empty and the id is not negative. -/
def record_entry (handle_to_id : HandleMap) (id_to_name : IdMap) (key body : Str) : IdMap :=
  let skill_id := resolve_key handle_to_id key
  let skill_name := find_field_string body "SkillName".toList
  if skill_name ≠ [] ∧ 0 ≤ skill_id then umap_set id_to_name skill_id skill_name
  else id_to_name

/-- The record loop of `load_names_from_skillinfolist_lub`, run for at most `fuel`
iterations from scan offset `i`. -/
def scan_records (t : Str) (handle_to_id : HandleMap) : Nat → Nat → IdMap → IdMap
  | 0, _, id_to_name => id_to_name
  | fuel + 1, i, id_to_name =>
    match record_step t i with
    | .stop => id_to_name
    | .skip i1 => scan_records t handle_to_id fuel i1 id_to_name
    | .record key body i1 =>
      scan_records t handle_to_id fuel i1 (record_entry handle_to_id id_to_name key body)

/-- The function `load_names_from_skillinfolist_lub` after a successful
`read_file`, on the file content `raw`: the map `id_to_name` after the call (the
function then returns `true`).  Every iteration that continues moves the offset
forward, so `t.length + 1` iterations are never used up. -/
def load_names_from_skillinfolist_lub (raw : Str) (handle_to_id : HandleMap)
    (id_to_name : IdMap) : IdMap :=
  let t := strip_lua_comments raw
  scan_records t handle_to_id (t.length + 1) 0 id_to_name

/-! ## `main` -/

/-- Insertion of one pair into a vector sorted by the comparator
`a.first < b.first`. -/
def sort_insert (x : Int × Str) : List (Int × Str) → List (Int × Str)
  | [] => [x]
  | y :: r => if x.1 < y.1 then x :: y :: r else y :: sort_insert x r

/-- The call `sort(id_handle_vec.begin(), id_handle_vec.end(), cmp)` with
`cmp(a, b) = a.first < b.first`.  The keys of an `unordered_map` are pairwise
distinct, so the comparator orders the vector totally and every sorting algorithm
returns the same vector. -/
def sort_by_id (v : List (Int × Str)) : List (Int × Str) :=
  v.foldr sort_insert []

/-- The text `out << n` writes for a `long long`. -/
def show_int (n : Int) : Str :=
  match n with
  | Int.ofNat k => Nat.toDigits 10 k
  | Int.negSucc k => '-' :: Nat.toDigits 10 (k + 1)

/-- The vector `id_handle_vec` of `main` after the sort. -/
def id_handle_vec (id_to_handle : IdMap) : List (Int × Str) :=
  sort_by_id id_to_handle

/-- One line `<id> <handle>` of `SKILL_id_handle.txt`, without its newline. -/
def id_handle_line (p : Int × Str) : Str := show_int p.1 ++ ' ' :: p.2

/-- The lines written to `SKILL_id_handle.txt`, one per loop iteration. -/
def id_handle_listing (id_to_handle : IdMap) : List Str :=
  (id_handle_vec id_to_handle).map id_handle_line

/-- One line `<handle>#<name>#` of `skillnametable.txt`, without its newline. -/
def name_table_line (handle name : Str) : Str := handle ++ '#' :: name ++ ['#']

/-- The loop that writes `skillnametable.txt`: one line `<handle>#<name>#` per
pair of `id_handle_vec` whose id has a name, the others being skipped. -/
def name_table_lines (id_to_skillname : IdMap) : List (Int × Str) → List Str
  | [] => []
  | (id, handle) :: r =>
    match umap_find id_to_skillname id with
    | none => name_table_lines id_to_skillname r
    | some name => name_table_line handle name :: name_table_lines id_to_skillname r

/-- The lines written to `skillnametable.txt`. -/
def name_table_listing (id_to_handle id_to_skillname : IdMap) : List Str :=
  name_table_lines id_to_skillname (id_handle_vec id_to_handle)

/-- The content of a file written line by line, each line followed by a newline. -/
def file_text (lines : List Str) : Str :=
  (lines.map (fun l => l ++ ['\n'])).flatten

/-- The function `main` on the contents of `skillid.lub` and `skillinfolist.lub`,
both read and both output files opened successfully: `none` for the early
`return 1`, otherwise the lines of `SKILL_id_handle.txt` and of
`skillnametable.txt`. -/
def main (skillid skillinfolist : Str) : Option (List Str × List Str) :=
  match load_ids_from_lub skillid [] [] with
  | (false, _, _) => none
  | (true, handle_to_id, id_to_handle) =>
    let id_to_skillname := load_names_from_skillinfolist_lub skillinfolist handle_to_id []
    some (id_handle_listing id_to_handle, name_table_listing id_to_handle id_to_skillname)

/-! ## Specification-level notions used by the statements -/

/-- Example enumeration text: the table body is `NV_BASIC = 1, NV_FIRSTAID = 2,`. -/
def example_skillid : Str := "SKID = \x7bNV_BASIC = 1, NV_FIRSTAID = 2,\x7d".toList

/-- Example info-list text with the two records of the example. -/
def example_skillinfolist : Str :=
  "[1] = \x7b SkillName = \"Basic Skill\" \x7d\n[SKID.NV_FIRSTAID] = \x7b SkillName = \"First Aid\" \x7d".toList

/-- The example enumeration text laid out as in a data file, with a comment. -/
def example_skillid_file : Str :=
  "\x2d\x2d skill ids\nSKID = \x7b\n\tNV_BASIC = 1, NV_FIRSTAID = 2,\n\x7d\n".toList

/-- The example info-list text laid out as in a data file, inside a table and with
a block comment. -/
def example_skillinfolist_file : Str :=
  "SKILL_INFO_LIST = \x7b\n\t[1] = \x7b SkillName = \"Basic Skill\" \x7d,\n\t\x2d\x2d[[ first aid ]]\n\t[SKID.NV_FIRSTAID] = \x7b SkillName = \"First Aid\" \x7d\n\x7d\n".toList

/-- The two-character sequence `--`. -/
def dashes : Str := ['-', '-']

/-- Decimal digit strings: what `Nat.toDigits 10` produces. -/
structure IsDecimalOf (ds : Str) (n : Nat) : Prop where
  ne_nil : ds ≠ []
  all_digit : ∀ c ∈ ds, is_digit c = true
  value : digits_value 10 ds = n
  no_leading_zero : n ≠ 0 → ds.head? ≠ some '0'

/-- The invariant of an `unordered_map`: its keys are pairwise distinct. -/
def umap_wf {K V : Type} (m : List (K × V)) : Prop := (m.map Prod.fst).Nodup

instance umap_wf_decidable {K V : Type} [DecidableEq K] (m : List (K × V)) :
    Decidable (umap_wf m) := by
  unfold umap_wf
  infer_instance

/-- Position `b` holds the first `c` at or after position `p`. -/
def first_char_from (t : Str) (c : Char) (p b : Nat) : Prop :=
  p ≤ b ∧ t[b]? = some c ∧ ∀ i, p ≤ i → i < b → t[i]? ≠ some c

/-- Depth after reading `s`: `+1` per opening brace and `-1` per closing brace. -/
def brace_depth (s : Str) : Int := (s.count '\x7b' : Int) - (s.count '\x7d' : Int)

/-- Depth counted from position `lb`, after reading position `j`. -/
def depth_at (t : Str) (lb j : Nat) : Int := brace_depth ((t.drop lb).take (j + 1 - lb))

/-- Position `rb` is the smallest position after `lb` that brings the depth counted
from `lb` back to zero. -/
def closes_at (t : Str) (lb rb : Nat) : Prop :=
  lb < rb ∧ rb < t.length ∧ depth_at t lb rb = 0 ∧
    ∀ i, lb < i → i < rb → depth_at t lb i ≠ 0

/-- A brace-balanced text: as many opening as closing braces, and no prefix with
more closing than opening braces. -/
def brace_balanced (s : Str) : Prop :=
  s.count '\x7b' = s.count '\x7d' ∧ ∀ p, p <+: s → p.count '\x7d' ≤ p.count '\x7b'

/-- Position `p` is the first position at which `pat` occurs in `t`. -/
def first_occurrence (t pat : Str) (p : Nat) : Prop :=
  p ≤ t.length ∧ pat <+: t.drop p ∧ ∀ q, q < p → ¬ pat <+: t.drop q

/-- An identifier: non-empty, made of letters, digits and underscores. -/
def is_identifier (h : Str) : Prop := h ≠ [] ∧ ∀ c ∈ h, is_alnum c = true ∨ c = '_'

instance is_identifier_decidable (h : Str) : Decidable (is_identifier h) := by
  unfold is_identifier
  infer_instance

/-- The text `h = n` of one table entry. -/
def entry_text (e : Str × Int) : Str := e.1 ++ " = ".toList ++ show_int e.2

/-- The text `\x7b h_1 = n_1, ..., h_k = n_k \x7d` of a table with the given entries. -/
def block_text (es : List (Str × Int)) : Str :=
  "\x7b ".toList ++ ", ".toList.intercalate (es.map entry_text) ++ " \x7d".toList

/-- The value paired with the last occurrence of the key `k` in a list of pairs. -/
def last_assoc {K V : Type} [DecidableEq K] : List (K × V) → K → Option V
  | [], _ => none
  | (k1, v1) :: r, k =>
    match last_assoc r k with
    | some v => some v
    | none => if k1 = k then some v1 else none

/-- A sequence of assignments `m[k] = v`, in order. -/
def umap_set_all {K V : Type} [DecidableEq K] (m : List (K × V)) (es : List (K × V)) :
    List (K × V) :=
  es.foldl (fun m e => umap_set m e.1 e.2) m

/-- The text `[K] = \x7b SkillName = "X" \x7d` of a record with key text `K` and name `X`. -/
def record_text (K X : Str) : Str :=
  '[' :: K ++ "] = \x7b SkillName = \"".toList ++ X ++ "\" \x7d".toList

/-- The body ` SkillName = "X" ` of a record text. -/
def record_body (X : Str) : Str := " SkillName = \"".toList ++ X ++ "\" ".toList

/-- The block-comment open marker `--[[`. -/
def block_open_marker : Str := ['-', '-', '[', '[']

/-- The block-comment close marker `]]`. -/
def block_close_marker : Str := [']', ']']

/-- The number of newline characters of a text. -/
def newline_count (s : Str) : Nat := s.count '\n'

/-- Whether the record loop of `load_names_from_skillinfolist_lub`, started at scan
offset `i`, reaches one of its `break`s within `fuel` iterations. -/
def scan_halts (t : Str) : Nat → Nat → Bool
  | 0, _ => false
  | fuel + 1, i =>
    match record_step t i with
    | .stop => true
    | .skip i1 => scan_halts t fuel i1
    | .record _ _ i1 => scan_halts t fuel i1

/-- The boundaries of a whole word at position `p`: the character just before `p`
and the character just after the name, when present, are not alphanumeric. -/
def word_bounds (body field : Str) (p : Nat) : Prop :=
  (0 < p → ∀ c, body[p - 1]? = some c → is_alnum c = false) ∧
  (∀ c, body[p + field.length]? = some c → is_alnum c = false)

/-- The name `field` occurs at position `p` of `body` as a whole word. -/
def whole_word_at (body field : Str) (p : Nat) : Prop :=
  p ≤ body.length ∧ field <+: body.drop p ∧ word_bounds body field p

/-- Position `p` is the first whole-word occurrence of `field` in `body`. -/
def first_whole_word (body field : Str) (p : Nat) : Prop :=
  whole_word_at body field p ∧ ∀ q, q < p → ¬ whole_word_at body field q

/-- The local `left_ok` of `find_field_string` for an occurrence at `p`. -/
def left_ok (body : Str) (p : Nat) : Bool :=
  decide (p = 0) || (match body.get? (p - 1) with
    | some c => !is_alnum c
    | none => true)

/-- The local `right_ok` of `find_field_string` for an occurrence at `p`. -/
def right_ok (body field : Str) (p : Nat) : Bool :=
  decide (body.length ≤ p + field.length) || (match body.get? (p + field.length) with
    | some c => !is_alnum c
    | none => true)

/-- Whether the `while (true)` loop of `find_field_string`, started at offset `p`,
returns within `fuel` iterations. -/
def find_field_halts (body field : Str) : Nat → Nat → Bool
  | 0, _ => false
  | fuel + 1, p =>
    match find_field_step body field p with
    | .done _ => true
    | .again p1 => find_field_halts body field fuel p1

/-- The field name `SkillName` that `load_names_from_skillinfolist_lub` extracts. -/
def SkillName_field : Str := "SkillName".toList

/-- The part of a key text after its last `.`, all of it when it has no `.`. -/
def after_last_dot (k : Str) : Str := (k.reverse.takeWhile (fun c => c != '.')).reverse

/-- The handle a symbolic key text stands for: the part after its last `.`, with
every whitespace character removed. -/
def key_handle (k : Str) : Str := (after_last_dot k).filter (fun c => !is_space c)

/-- The text `\x7b c_1, ..., c_k \x7d` of a block with the given chunks. -/
def chunk_block (cs : List Str) : Str :=
  "\x7b ".toList ++ ", ".toList.intercalate cs ++ " \x7d".toList

/-- The name of a chunk: its text before the first `=`, trimmed. -/
def chunk_name (c : Str) : Str := trim (c.takeWhile (fun x => x != '='))

/-- The value of a chunk: its text after the first `=`, trimmed. -/
def chunk_value (c : Str) : Str := trim ((c.dropWhile (fun x => x != '=')).drop 1)

/-- The value of a chunk cut at its first `;` and trimmed again. -/
def chunk_number (c : Str) : Str := trim ((chunk_value c).takeWhile (fun x => x != ';'))

/-- A malformed chunk: blank, without `=`, with an empty name or an empty value after
trimming, or with a value that, cut at the first `;` and trimmed again, has no
numeric prefix accepted by base-0 integer parsing. -/
def is_malformed (c : Str) : Prop :=
  trim c = [] ∨ '=' ∉ c ∨ chunk_name c = [] ∨ chunk_value c = [] ∨
    strtoll (chunk_number c) 0 = none

instance is_malformed_decidable (c : Str) : Decidable (is_malformed c) := by
  unfold is_malformed
  infer_instance

instance brace_balanced_decidable (s : Str) : Decidable (brace_balanced s) :=
  decidable_of_iff
    (s.count '\x7b' = s.count '\x7d' ∧
      ∀ n, n < s.length + 1 → (s.take n).count '\x7d' ≤ (s.take n).count '\x7b')
    (by
      unfold brace_balanced
      constructor
      · intro h
        refine ⟨h.1, fun p hp => ?_⟩
        rw [List.prefix_iff_eq_take.1 hp]
        exact h.2 p.length (Nat.lt_succ_of_le hp.length_le)
      · intro h
        exact ⟨h.1, fun n _ => h.2 _ (List.take_prefix n s)⟩)

/-- The text `[key] = \x7b body \x7d` of one complete record. -/
def info_record (key body : Str) : Str :=
  '[' :: key ++ "] = \x7b".toList ++ body ++ ['\x7d']

/-- A sequence of complete records, each given as separator text, key text and body:
the separator precedes the record. -/
def info_records (rs : List (Str × Str × Str)) : Str :=
  (rs.map (fun r => r.1 ++ info_record r.2.1 r.2.2)).flatten

/-- A complete record of a sequence: the separator before it has no `[`, its key
has no `]`, and its body is brace-balanced. -/
def complete_record (r : Str × Str × Str) : Prop :=
  '[' ∉ r.1 ∧ ']' ∉ r.2.1 ∧ brace_balanced r.2.2

instance complete_record_decidable (r : Str × Str × Str) : Decidable (complete_record r) := by
  unfold complete_record
  infer_instance

/-- The tail `[k] = \x7b` followed by `R`: a record that is opened and, when the depth
never returns to zero in `R`, not closed. -/
def unbalanced_tail (k R : Str) : Str := '[' :: k ++ "] = \x7b".toList ++ R

/-- The brace depth counted from an opening brace that is followed by `R` never
returns to zero. -/
def depth_never_zero (R : Str) : Prop :=
  ∀ n, n < R.length + 1 → brace_depth ('\x7b' :: R.take n) ≠ 0

instance depth_never_zero_decidable (R : Str) : Decidable (depth_never_zero R) := by
  unfold depth_never_zero
  infer_instance

/-- The map after the second half of the loop body has run on each record of a
sequence, in order. -/
def record_entries (handle_to_id : HandleMap) (rs : List (Str × Str × Str))
    (id_to_name : IdMap) : IdMap :=
  rs.foldl (fun n r => record_entry handle_to_id n (trim r.2.1) r.2.2) id_to_name

/-- The bracketed keys of a text: for every `[` that has a `]` somewhere after it,
the text between that `[` and the first `]` after it. -/
def bracketed_keys : Str → List Str
  | [] => []
  | c :: r =>
    if c = '[' ∧ ']' ∈ r then r.takeWhile (fun x => x != ']') :: bracketed_keys r
    else bracketed_keys r

/-- A plain handle: non-empty, without whitespace, without `.` and without `]`. -/
def plain_handle (H : Str) : Prop :=
  H ≠ [] ∧ ∀ c ∈ H, is_space c = false ∧ c ≠ '.' ∧ c ≠ ']'

instance plain_handle_decidable (H : Str) : Decidable (plain_handle H) := by
  unfold plain_handle
  infer_instance

/-! ## Supporting lemmas -/

/-! ### Comment stripping -/

theorem dashes_infix_cons (a : Char) (l : Str) :
    dashes <:+: a :: l ↔ (a = '-' ∧ l.head? = some '-') ∨ dashes <:+: l := by
  rw [List.infix_cons_iff]
  constructor
  · rintro (h | h)
    · left
      obtain ⟨t, ht⟩ := h
      simp [dashes] at ht
      obtain ⟨h1, h2⟩ := ht
      subst h1; subst h2; simp
    · right; exact h
  · rintro (⟨h1, h2⟩ | h)
    · left
      cases l with
      | nil => simp at h2
      | cons b r =>
        simp at h2; subst h1; subst h2
        exact ⟨r, rfl⟩
    · right; exact h

theorem strip_block_comments_of_no_dashes (s : Str) (h : ¬ dashes <:+: s) :
    strip_block_comments false s = s := by
  induction s with
  | nil => rfl
  | cons a r ih =>
    rw [dashes_infix_cons] at h
    push_neg at h
    obtain ⟨h1, h2⟩ := h
    match r, ih, h1, h2 with
    | b :: c :: d :: r, ih, h1, h2 =>
      have hab : ¬ (a = '-' ∧ b = '-' ∧ c = '[' ∧ d = '[') := by
        rintro ⟨ha, hb, -, -⟩
        exact h1 ha (by simp [hb])
      rw [strip_block_comments, if_neg hab, ih h2]
    | [], ih, h1, h2 => simp [strip_block_comments]
    | [b], ih, h1, h2 => simp [strip_block_comments]
    | [b, c], ih, h1, h2 => simp [strip_block_comments]

theorem strip_line_comments_of_no_dashes (s : Str) (h : ¬ dashes <:+: s) :
    strip_line_comments false s = s := by
  induction s with
  | nil => rfl
  | cons a r ih =>
    rw [dashes_infix_cons] at h
    push_neg at h
    obtain ⟨h1, h2⟩ := h
    match r, ih, h1, h2 with
    | b :: r, ih, h1, h2 =>
      have hab : ¬ (a = '-' ∧ b = '-') := by
        rintro ⟨ha, hb⟩
        exact h1 ha (by simp [hb])
      rw [strip_line_comments, if_neg hab, ih h2]
    | [], ih, h1, h2 => simp [strip_line_comments]

theorem strip_line_comments_head (a : Char) (r : Str) :
    (strip_line_comments false (a :: r)).head? = some a ∨
      (strip_line_comments false (a :: r)).head? = some '\n' := by
  cases r with
  | nil => left; simp [strip_line_comments]
  | cons b r =>
    rw [strip_line_comments]
    split <;> simp

theorem strip_line_comments_no_dashes (b : Bool) (s : Str) :
    ¬ dashes <:+: strip_line_comments b s := by
  induction s generalizing b with
  | nil => cases b <;> simp [strip_line_comments, dashes]
  | cons a r ih =>
    cases b with
    | true =>
      rw [strip_line_comments]
      split
      · exact ih false
      · exact ih true
    | false =>
      cases r with
      | nil => simp [strip_line_comments, dashes, List.infix_cons_iff, List.prefix_cons_iff]
      | cons c r =>
        rw [strip_line_comments]
        split
        · rw [dashes_infix_cons]
          push_neg
          exact ⟨fun h => absurd h (by decide), ih true⟩
        · rename_i hab
          rw [dashes_infix_cons]
          push_neg
          refine ⟨fun ha hh => ?_, ih false⟩
          rcases strip_line_comments_head c r with h | h
          · rw [h] at hh
            simp at hh
            exact hab ⟨ha, hh⟩
          · rw [h] at hh
            exact absurd hh (by decide)

/-- A text without `--` has no comment to strip. -/
theorem strip_lua_comments_eq_self (s : Str) (h : ¬ dashes <:+: s) :
    strip_lua_comments s = s := by
  unfold strip_lua_comments
  rw [strip_block_comments_of_no_dashes s h, strip_line_comments_of_no_dashes s h]

/-! ### Decimal digits -/

theorem digit_value_digitChar (k : Nat) (h : k < 10) :
    digit_value (Nat.digitChar k) = some k ∧ is_digit (Nat.digitChar k) = true ∧
      (k ≠ 0 → Nat.digitChar k ≠ '0') := by
  interval_cases k <;> decide

theorem digits_value_snoc (b : Nat) (ds : Str) (d : Char) :
    digits_value b (ds ++ [d]) = digits_value b ds * b + (digit_value d).getD 0 := by
  simp [digits_value, List.foldl_append]

theorem toDigitsCore_spec (fuel n : Nat) (acc : Str) (hf : n < fuel) :
    ∃ ds, Nat.toDigitsCore 10 fuel n acc = ds ++ acc ∧ IsDecimalOf ds n := by
  induction fuel generalizing n acc with
  | zero => omega
  | succ fuel ih =>
    have hd := digit_value_digitChar (n % 10) (Nat.mod_lt _ (by norm_num))
    rw [Nat.toDigitsCore]
    by_cases h0 : n / 10 = 0
    · simp only [h0, if_true]
      refine ⟨[Nat.digitChar (n % 10)], rfl, ⟨by simp, ?_, ?_, ?_⟩⟩
      · intro c hc
        simp at hc
        rw [hc]; exact hd.2.1
      · simp [digits_value, hd.1]
        omega
      · intro hn
        simp
        exact hd.2.2 (by omega)
    · simp only [h0, if_false]
      obtain ⟨ds, hds, hdec⟩ := ih (n / 10) (Nat.digitChar (n % 10) :: acc) (by omega)
      refine ⟨ds ++ [Nat.digitChar (n % 10)], by simp [hds], ⟨by simp, ?_, ?_, ?_⟩⟩
      · intro c hc
        simp at hc
        rcases hc with hc | hc
        · exact hdec.all_digit c hc
        · rw [hc]; exact hd.2.1
      · rw [digits_value_snoc, hdec.value, hd.1]
        simp
        omega
      · intro _
        have := hdec.no_leading_zero h0
        cases ds with
        | nil => exact absurd rfl hdec.ne_nil
        | cons c r => simpa using this

theorem toDigits_spec (n : Nat) : IsDecimalOf (Nat.toDigits 10 n) n := by
  obtain ⟨ds, hds, hdec⟩ := toDigitsCore_spec (n + 1) n [] (by omega)
  rw [Nat.toDigits, hds, List.append_nil]
  exact hdec

/-! ### Reading decimal digits back with `strtoll` -/

theorem is_digit_in_ten_of_is_digit (c : Char) (h : is_digit c = true) :
    is_digit_in 10 c = true := by
  simp only [is_digit, Bool.and_eq_true, decide_eq_true_eq] at h
  have h1 : c.toNat - 48 < 10 := by
    have := h.2
    have h9 : c.toNat ≤ '9'.toNat := this
    simp at h9
    omega
  simp [is_digit_in, digit_value, h, h1]

theorem not_space_of_is_digit (c : Char) (h : is_digit c = true) : is_space c = false := by
  simp only [is_digit, Bool.and_eq_true, decide_eq_true_eq] at h
  have h0 : '0'.toNat ≤ c.toNat := h.1
  simp at h0
  simp only [is_space, Bool.or_eq_false_iff, decide_eq_false_iff_not]
  refine ⟨⟨⟨⟨⟨?_, ?_⟩, ?_⟩, ?_⟩, ?_⟩, ?_⟩ <;> (intro hc; rw [hc] at h0; simp at h0)

theorem strtoll_sign_of_is_digit (c : Char) (r : Str) (h : is_digit c = true) :
    strtoll_sign (c :: r) = (false, c :: r) := by
  simp only [is_digit, Bool.and_eq_true, decide_eq_true_eq] at h
  have h0 : '0'.toNat ≤ c.toNat := h.1
  simp at h0
  unfold strtoll_sign
  split
  · rename_i heq; simp at heq; rw [heq.1] at h0; simp at h0
  · rename_i heq; simp at heq; rw [heq.1] at h0; simp at h0
  · rfl

theorem strtoll_base_zero_of_ne_zero (c : Char) (r : Str) (h : c ≠ '0') :
    strtoll_base 0 (c :: r) = (10, c :: r) := by
  unfold strtoll_base
  split
  · rename_i heq; simp at heq; exact absurd heq.1 h
  · rename_i heq; simp at heq; exact absurd heq.1 h
  · rfl

theorem takeWhile_eq_self {α : Type} (p : α → Bool) (l : List α) (h : ∀ c ∈ l, p c = true) :
    l.takeWhile p = l := by
  induction l with
  | nil => rfl
  | cons a r ih =>
    rw [List.takeWhile_cons, h a (by simp), if_pos rfl, ih (fun c hc => h c (by simp [hc]))]

theorem strtoll_digits (ds : Str) (n : Nat) (h : IsDecimalOf ds n) (hn : n ≠ 0) (neg : Bool) :
    strtoll (if neg then '-' :: ds else ds) 0 =
      if neg then some (if -(n : Int) < LLONG_MIN then LLONG_MIN else -(n : Int))
      else some (if LLONG_MAX < (n : Int) then LLONG_MAX else (n : Int)) := by
  obtain ⟨hne, hall, hval, hlead⟩ := h
  match ds, hne with
  | c :: r, _ =>
    have hc : c ≠ '0' := by simpa using hlead hn
    have hd : is_digit c = true := hall c (by simp)
    have htake : (c :: r).takeWhile (is_digit_in 10) = c :: r :=
      takeWhile_eq_self _ _ (fun x hx => is_digit_in_ten_of_is_digit x (hall x hx))
    cases neg with
    | false =>
      simp only [Bool.false_eq_true, if_false]
      unfold strtoll
      simp only [List.dropWhile_cons, not_space_of_is_digit c hd, Bool.false_eq_true, if_false,
        strtoll_sign_of_is_digit c r hd, strtoll_base_zero_of_ne_zero c r hc, htake, hval]
      simp
    | true =>
      simp only [if_true]
      unfold strtoll
      have h1 : List.dropWhile is_space ('-' :: c :: r) = '-' :: c :: r := by
        rw [List.dropWhile_cons]; rfl
      have h2 : strtoll_sign ('-' :: c :: r) = (true, c :: r) := rfl
      simp only [h1, h2, strtoll_base_zero_of_ne_zero c r hc, htake, hval]
      simp

/-- Reading back what `out << n` writes: `strtoll` with base 0 returns `n` for every
`long long` value `n`. -/
theorem strtoll_show_int (n : Int) (h1 : LLONG_MIN ≤ n) (h2 : n ≤ LLONG_MAX) :
    strtoll (show_int n) 0 = some n := by
  match n, h1, h2 with
  | Int.ofNat 0, _, _ => decide
  | Int.ofNat (k + 1), h1, h2 =>
    have := strtoll_digits _ _ (toDigits_spec (k + 1)) (by omega) false
    simp only [Bool.false_eq_true, if_false] at this
    rw [show_int, this]
    have h3 : ¬ LLONG_MAX < ((k + 1 : Nat) : Int) := by
      have : ((k + 1 : Nat) : Int) = Int.ofNat (k + 1) := rfl
      omega
    rw [if_neg h3]
    rfl
  | Int.negSucc k, h1, h2 =>
    have := strtoll_digits _ _ (toDigits_spec (k + 1)) (by omega) true
    simp only [if_true] at this
    rw [show_int, this]
    have h3 : ¬ -((k + 1 : Nat) : Int) < LLONG_MIN := by
      have : Int.negSucc k = -((k + 1 : Nat) : Int) := rfl
      omega
    rw [if_neg h3]
    rfl

/-! ### Maps, the sorted vector and the listings -/

theorem umap_find_eq_some_iff {K V : Type} [DecidableEq K] (m : List (K × V)) (h : umap_wf m)
    (k : K) (v : V) : umap_find m k = some v ↔ (k, v) ∈ m := by
  induction m with
  | nil => simp [umap_find]
  | cons p r ih =>
    obtain ⟨k1, v1⟩ := p
    unfold umap_wf at h ih
    simp only [List.map_cons, List.nodup_cons, List.mem_map, not_exists, not_and] at h
    rw [umap_find]
    by_cases hk : k1 = k
    · subst hk
      simp only [if_true, List.mem_cons, Prod.mk.injEq, true_and, Option.some.injEq]
      constructor
      · intro e; left; exact e.symm
      · rintro (e | e)
        · exact e.symm
        · exact absurd rfl (h.1 (k1, v) e)
    · simp only [hk, if_false, List.mem_cons, Prod.mk.injEq]
      rw [ih h.2]
      constructor
      · intro e; right; exact e
      · rintro (e | e)
        · exact absurd e.1.symm hk
        · exact e

theorem umap_find_isSome_iff {K V : Type} [DecidableEq K] (m : List (K × V)) (k : K) :
    (umap_find m k).isSome = true ↔ k ∈ m.map Prod.fst := by
  induction m with
  | nil => simp [umap_find]
  | cons p r ih =>
    obtain ⟨k1, v1⟩ := p
    rw [umap_find]
    by_cases hk : k1 = k
    · simp [hk]
    · simp only [hk, if_false, ih, List.map_cons, List.mem_cons]
      constructor
      · intro e; right; exact e
      · rintro (e | e)
        · exact absurd e.symm hk
        · exact e

theorem sort_insert_perm (x : Int × Str) (l : List (Int × Str)) :
    (sort_insert x l).Perm (x :: l) := by
  induction l with
  | nil => exact List.Perm.refl _
  | cons y r ih =>
    rw [sort_insert]
    split
    · exact List.Perm.refl _
    · exact (List.Perm.cons y ih).trans (List.Perm.swap x y r)

theorem sort_by_id_perm (v : List (Int × Str)) : (sort_by_id v).Perm v := by
  induction v with
  | nil => exact List.Perm.refl _
  | cons x r ih =>
    show (sort_insert x (sort_by_id r)).Perm (x :: r)
    exact (sort_insert_perm x _).trans (List.Perm.cons x ih)

theorem sort_insert_sorted (x : Int × Str) (l : List (Int × Str))
    (h : l.Pairwise (fun a b => a.1 ≤ b.1)) :
    (sort_insert x l).Pairwise (fun a b => a.1 ≤ b.1) := by
  induction l with
  | nil => simp [sort_insert]
  | cons y r ih =>
    rw [sort_insert]
    rw [List.pairwise_cons] at h
    split
    · rename_i hxy
      refine List.pairwise_cons.2 ⟨?_, List.pairwise_cons.2 h⟩
      intro b hb
      rcases List.mem_cons.1 hb with e | e
      · rw [e]; omega
      · have := h.1 b e; omega
    · rename_i hxy
      refine List.pairwise_cons.2 ⟨?_, ih h.2⟩
      intro b hb
      rcases List.mem_cons.1 ((sort_insert_perm x r).mem_iff.1 hb) with e | e
      · rw [e]; omega
      · exact h.1 b e

theorem sort_by_id_sorted (v : List (Int × Str)) :
    (sort_by_id v).Pairwise (fun a b => a.1 ≤ b.1) := by
  induction v with
  | nil => simp [sort_by_id]
  | cons x r ih => exact sort_insert_sorted x _ ih

theorem sort_by_id_strict (v : List (Int × Str)) (h : umap_wf v) :
    (sort_by_id v).Pairwise (fun a b => a.1 < b.1) := by
  have h1 : ((sort_by_id v).map Prod.fst).Nodup :=
    ((sort_by_id_perm v).map Prod.fst).nodup_iff.2 h
  have h2 : (sort_by_id v).Pairwise (fun a b => a.1 ≠ b.1) := List.pairwise_map.1 h1
  exact (List.Pairwise.and (sort_by_id_sorted v) h2).imp (fun hab => lt_of_le_of_ne hab.1 hab.2)

theorem name_table_lines_eq (n : IdMap) (vec : List (Int × Str)) :
    name_table_lines n vec =
      (vec.filter (fun p => (umap_find n p.1).isSome)).map
        (fun p => name_table_line p.2 ((umap_find n p.1).getD [])) := by
  induction vec with
  | nil => rfl
  | cons p r ih =>
    obtain ⟨id, handle⟩ := p
    rw [name_table_lines]
    cases hf : umap_find n id with
    | none => simp [List.filter_cons, hf, ih]
    | some name => simp [List.filter_cons, hf, ih, name_table_line]

theorem show_int_chars (n : Int) : ∀ c ∈ show_int n, c = '-' ∨ is_digit c = true := by
  intro c hc
  cases n with
  | ofNat k => exact Or.inr ((toDigits_spec k).all_digit c hc)
  | negSucc k =>
    rcases List.mem_cons.1 hc with e | e
    · exact Or.inl e
    · exact Or.inr ((toDigits_spec (k + 1)).all_digit c e)

theorem toDigits_injective (a b : Nat) (h : Nat.toDigits 10 a = Nat.toDigits 10 b) : a = b := by
  rw [← (toDigits_spec a).value, ← (toDigits_spec b).value, h]

theorem toDigits_head_ne_minus (a : Nat) (r : Str) : Nat.toDigits 10 a ≠ '-' :: r := by
  intro h
  have := (toDigits_spec a).all_digit '-' (by rw [h]; simp)
  exact absurd this (by decide)

theorem show_int_injective (a b : Int) (h : show_int a = show_int b) : a = b := by
  cases a with
  | ofNat k =>
    cases b with
    | ofNat j => rw [toDigits_injective k j h]
    | negSucc j => exact absurd h (toDigits_head_ne_minus k _)
  | negSucc k =>
    cases b with
    | ofNat j => exact absurd h.symm (toDigits_head_ne_minus j _)
    | negSucc j =>
      have := toDigits_injective (k + 1) (j + 1) (List.cons_injective h)
      have hkj : k = j := by omega
      rw [hkj]

theorem takeWhile_append_sep (A B : Str) (sep : Char) (h : ∀ c ∈ A, c ≠ sep) :
    (A ++ sep :: B).takeWhile (fun c => c != sep) = A := by
  induction A with
  | nil => simp
  | cons a r ih =>
    have ha : a ≠ sep := h a (by simp)
    simp only [List.cons_append, List.takeWhile_cons, bne_iff_ne, ne_eq, ha, not_false_eq_true,
      if_true]
    rw [ih (fun c hc => h c (by simp [hc]))]

theorem id_handle_line_id (a b : Int) (h1 h2 : Str)
    (h : id_handle_line (a, h1) = id_handle_line (b, h2)) : a = b := by
  have hsp : ∀ n : Int, ∀ c ∈ show_int n, c ≠ ' ' := by
    intro n c hc
    rcases show_int_chars n c hc with e | e
    · rw [e]; decide
    · intro e2; rw [e2] at e; exact absurd e (by decide)
  have ha := takeWhile_append_sep (show_int a) h1 ' ' (hsp a)
  have hb := takeWhile_append_sep (show_int b) h2 ' ' (hsp b)
  unfold id_handle_line at h
  simp only at h
  rw [h, hb] at ha
  exact (show_int_injective _ _ ha).symm

/-! ### Character search and the depth scan -/

theorem find_char_aux_eq_some (c : Char) (s : Str) (k i : Nat) :
    find_char_aux c s k = some i ↔
      ∃ j, i = k + j ∧ s[j]? = some c ∧ ∀ j1, j1 < j → s[j1]? ≠ some c := by
  induction s generalizing k with
  | nil => simp [find_char_aux]
  | cons d r ih =>
    rw [find_char_aux]
    by_cases hd : d = c
    · subst hd
      simp only [if_true, Option.some.injEq]
      constructor
      · intro h; exact ⟨0, by omega, by simp, by intro j1 hj; omega⟩
      · rintro ⟨j, hj, -, hmin⟩
        cases j with
        | zero => omega
        | succ j => exact absurd (by simp) (hmin 0 (by omega))
    · simp only [hd, if_false, ih]
      constructor
      · rintro ⟨j, hj, hc, hmin⟩
        refine ⟨j + 1, by omega, by simpa using hc, ?_⟩
        intro j1 hj1
        cases j1 with
        | zero => simpa using hd
        | succ j1 => simpa using hmin j1 (by omega)
      · rintro ⟨j, hj, hc, hmin⟩
        cases j with
        | zero => simp at hc; exact absurd hc hd
        | succ j =>
          refine ⟨j, by omega, by simpa using hc, ?_⟩
          intro j1 hj1
          simpa using hmin (j1 + 1) (by omega)

theorem find_char_aux_eq_none (c : Char) (s : Str) (k : Nat) :
    find_char_aux c s k = none ↔ c ∉ s := by
  induction s generalizing k with
  | nil => simp [find_char_aux]
  | cons d r ih =>
    rw [find_char_aux]
    by_cases hd : d = c
    · simp [hd]
    · simp only [hd, if_false, ih, List.mem_cons, not_or]
      constructor
      · intro h; exact ⟨fun e => hd e.symm, h⟩
      · intro h; exact h.2

theorem find_char_eq_some (s : Str) (c : Char) (pos b : Nat) :
    find_char s c pos = some b ↔ first_char_from s c pos b := by
  unfold find_char first_char_from
  rw [find_char_aux_eq_some]
  constructor
  · rintro ⟨j, hj, hc, hmin⟩
    subst hj
    refine ⟨by omega, by simpa [List.getElem?_drop] using hc, ?_⟩
    intro i h1 h2
    have := hmin (i - pos) (by omega)
    rw [List.getElem?_drop] at this
    rwa [show pos + (i - pos) = i by omega] at this
  · rintro ⟨h1, hc, hmin⟩
    refine ⟨b - pos, by omega, ?_, ?_⟩
    · rw [List.getElem?_drop, show pos + (b - pos) = b by omega]; exact hc
    · intro j1 hj1
      rw [List.getElem?_drop]
      exact hmin _ (by omega) (by omega)

theorem find_char_eq_none (s : Str) (c : Char) (pos : Nat) :
    find_char s c pos = none ↔ c ∉ s.drop pos := by
  unfold find_char
  exact find_char_aux_eq_none _ _ _

theorem brace_depth_nil : brace_depth [] = 0 := by simp [brace_depth]

theorem brace_depth_cons (c : Char) (r : Str) :
    brace_depth (c :: r) =
      (if c = '\x7b' then 1 else if c = '\x7d' then -1 else 0) + brace_depth r := by
  unfold brace_depth
  by_cases h1 : c = '\x7b'
  · subst h1
    rw [List.count_cons_self, List.count_cons_of_ne (by decide)]
    simp; ring
  · by_cases h2 : c = '\x7d'
    · subst h2
      rw [List.count_cons_self, List.count_cons_of_ne (by decide)]
      simp; ring
    · rw [List.count_cons_of_ne (fun e => h1 e.symm), List.count_cons_of_ne (fun e => h2 e.symm)]
      simp [h1, h2]

/-- What the depth scan returns, started inside a block (`0 < d`): the first index
at which the running depth is zero. -/
theorem scan_depth_eq_some (s : Str) (d : Int) (i r : Nat) (hd : 0 < d) :
    scan_depth s d i = some r ↔
      ∃ k, r = i + k ∧ k < s.length ∧ d + brace_depth (s.take (k + 1)) = 0 ∧
        ∀ k1, k1 < k → 0 < d + brace_depth (s.take (k1 + 1)) := by
  induction s generalizing d i with
  | nil => simp [scan_depth]
  | cons c s ih =>
    rw [scan_depth]
    have step : ∀ d1 : Int, 0 < d1 → d1 = d + brace_depth [c] →
        (scan_depth s d1 (i + 1) = some r ↔
          ∃ k, r = i + k ∧ k < (c :: s).length ∧ d + brace_depth ((c :: s).take (k + 1)) = 0 ∧
            ∀ k1, k1 < k → 0 < d + brace_depth ((c :: s).take (k1 + 1))) := by
      intro d1 hd1 he
      rw [ih d1 (i + 1) hd1]
      have hcons : ∀ m, d + brace_depth ((c :: s).take (m + 1)) = d1 + brace_depth (s.take m) := by
        intro m
        rw [List.take_succ_cons, brace_depth_cons, he, brace_depth_cons, brace_depth_nil]
        ring
      constructor
      · rintro ⟨k, hk, hlen, hz, hmin⟩
        refine ⟨k + 1, by omega, by simp; omega, by rw [hcons]; exact hz, ?_⟩
        intro k1 hk1
        rw [hcons]
        cases k1 with
        | zero => simpa [brace_depth_nil] using hd1
        | succ k1 => exact hmin k1 (by omega)
      · rintro ⟨k, hk, hlen, hz, hmin⟩
        cases k with
        | zero =>
          rw [hcons] at hz
          simp [brace_depth_nil] at hz
          omega
        | succ k =>
          refine ⟨k, by omega, by simpa using hlen, by rw [← hcons]; exact hz, ?_⟩
          intro k1 hk1
          rw [← hcons]
          exact hmin (k1 + 1) (by omega)
    by_cases h1 : c = '\x7b'
    · subst h1
      simp only [if_true]
      exact step (d + 1) (by omega) (by rw [brace_depth_cons, brace_depth_nil]; simp)
    · by_cases h2 : c = '\x7d'
      · subst h2
        simp only [h1, if_false, if_true]
        by_cases h3 : d - 1 = 0
        · simp only [h3, if_true, Option.some.injEq]
          constructor
          · intro e
            refine ⟨0, by omega, by simp, ?_, by intro k1 hk1; omega⟩
            simp [brace_depth_cons, brace_depth_nil]
            omega
          · rintro ⟨k, hk, -, -, hmin⟩
            cases k with
            | zero => omega
            | succ k =>
              have := hmin 0 (by omega)
              simp [brace_depth_cons, brace_depth_nil] at this
              omega
        · simp only [h3, if_false]
          exact step (d - 1) (by omega)
            (by rw [brace_depth_cons, brace_depth_nil]; simp; ring)
      · simp only [h1, h2, if_false]
        exact step d hd (by rw [brace_depth_cons, brace_depth_nil]; simp [h1, h2])

/-! ### The matching brace -/

theorem brace_depth_append (a b : Str) : brace_depth (a ++ b) = brace_depth a + brace_depth b := by
  unfold brace_depth
  simp only [List.count_append, Nat.cast_add]
  ring

theorem brace_depth_take_succ (s : Str) (m : Nat) :
    brace_depth (s.take m) - 1 ≤ brace_depth (s.take (m + 1)) := by
  induction s generalizing m with
  | nil => simp [brace_depth_nil]
  | cons c r ih =>
    cases m with
    | zero =>
      simp only [List.take_zero, brace_depth_nil, List.take_succ_cons, brace_depth_cons]
      split
      · omega
      · split <;> omega
    | succ m =>
      have := ih m
      simp only [List.take_succ_cons, brace_depth_cons]
      omega

/-- A depth that starts positive and is never zero stays positive. -/
theorem depth_pos_of_ne_zero (s : Str) (d : Int) (hd : 0 < d) (k : Nat)
    (h : ∀ m, m ≤ k → d + brace_depth (s.take m) ≠ 0) :
    ∀ m, m ≤ k → 0 < d + brace_depth (s.take m) := by
  intro m
  induction m with
  | zero => intro _; simpa [brace_depth_nil] using hd
  | succ m ih =>
    intro hm
    have h1 := ih (by omega)
    have h2 := brace_depth_take_succ s m
    have h3 := h (m + 1) hm
    omega

theorem depth_at_eq (t : Str) (lb j : Nat) (hlb : t[lb]? = some '\x7b') (hj : lb ≤ j) :
    depth_at t lb j = 1 + brace_depth ((t.drop (lb + 1)).take (j - lb)) := by
  have hlt : lb < t.length := by
    by_contra hcon
    rw [List.getElem?_eq_none (by omega)] at hlb
    exact absurd hlb (by simp)
  have hdrop : t.drop lb = '\x7b' :: t.drop (lb + 1) := by
    rw [List.drop_eq_getElem_cons hlt]
    congr 1
    rw [List.getElem?_eq_getElem hlt] at hlb
    exact Option.some.inj hlb
  unfold depth_at
  rw [hdrop, show j + 1 - lb = (j - lb) + 1 by omega, List.take_succ_cons, brace_depth_cons]
  simp

theorem match_brace_eq_some (t : Str) (lb rb : Nat) (hlb : t[lb]? = some '\x7b') :
    match_brace t lb = some rb ↔ closes_at t lb rb := by
  have hlt : lb < t.length := by
    by_contra hcon
    rw [List.getElem?_eq_none (by omega)] at hlb
    exact absurd hlb (by simp)
  have hdrop : t.drop lb = '\x7b' :: t.drop (lb + 1) := by
    rw [List.drop_eq_getElem_cons hlt]
    congr 1
    rw [List.getElem?_eq_getElem hlt] at hlb
    exact Option.some.inj hlb
  unfold match_brace
  rw [hdrop, scan_depth]
  simp only [if_true, zero_add]
  rw [scan_depth_eq_some _ _ _ _ (by norm_num)]
  unfold closes_at
  constructor
  · rintro ⟨k, hk, hlen, hz, hmin⟩
    subst hk
    simp only [List.length_drop] at hlen
    refine ⟨by omega, by omega, ?_, ?_⟩
    · rw [depth_at_eq t lb _ hlb (by omega), show lb + 1 + k - lb = k + 1 by omega]
      exact hz
    · intro i h1 h2
      rw [depth_at_eq t lb _ hlb (by omega)]
      have := hmin (i - lb - 1) (by omega)
      rw [show i - lb - 1 + 1 = i - lb by omega] at this
      omega
  · rintro ⟨h1, h2, hz, hmin⟩
    refine ⟨rb - lb - 1, by omega, by simp only [List.length_drop]; omega, ?_, ?_⟩
    · rw [depth_at_eq t lb _ hlb (by omega)] at hz
      rw [show rb - lb - 1 + 1 = rb - lb by omega]
      exact hz
    · intro k1 hk1
      refine depth_pos_of_ne_zero (t.drop (lb + 1)) 1 (by norm_num) (rb - lb - 1) ?_ (k1 + 1)
        (by omega)
      intro m hm
      cases m with
      | zero => simp [brace_depth_nil]
      | succ m =>
        have := hmin (lb + (m + 1)) (by omega) (by omega)
        rw [depth_at_eq t lb _ hlb (by omega), show lb + (m + 1) - lb = m + 1 by omega] at this
        exact this

theorem match_brace_eq_none (t : Str) (lb : Nat) (hlb : t[lb]? = some '\x7b') :
    match_brace t lb = none ↔ ∀ j, lb < j → j < t.length → depth_at t lb j ≠ 0 := by
  constructor
  · intro hnone j h1 h2 hz
    have hex : ∃ j, lb < j ∧ j < t.length ∧ depth_at t lb j = 0 := ⟨j, h1, h2, hz⟩
    classical
    have hspec := Nat.find_spec hex
    have hc : closes_at t lb (Nat.find hex) := by
      refine ⟨hspec.1, hspec.2.1, hspec.2.2, ?_⟩
      intro i hi1 hi2 hi3
      exact Nat.find_min hex hi2 ⟨hi1, by omega, hi3⟩
    rw [← match_brace_eq_some t lb _ hlb, hnone] at hc
    exact absurd hc (by simp)
  · intro h
    cases hm : match_brace t lb with
    | none => rfl
    | some rb =>
      have hc := (match_brace_eq_some t lb rb hlb).1 hm
      exact absurd hc.2.2.1 (h rb hc.1 hc.2.1)

theorem closes_at_balanced (t : Str) (lb rb : Nat) (hlb : t[lb]? = some '\x7b')
    (h : closes_at t lb rb) : brace_balanced (substr t (lb + 1) (rb - lb - 1)) := by
  obtain ⟨h1, h2, hz, hmin⟩ := h
  have hpos : ∀ m, m ≤ rb - lb - 1 → 0 < 1 + brace_depth ((t.drop (lb + 1)).take m) := by
    refine depth_pos_of_ne_zero _ 1 (by norm_num) _ ?_
    intro m hm
    cases m with
    | zero => simp [brace_depth_nil]
    | succ m =>
      have := hmin (lb + (m + 1)) (by omega) (by omega)
      rw [depth_at_eq t lb _ hlb (by omega), show lb + (m + 1) - lb = m + 1 by omega] at this
      exact this
  rw [depth_at_eq t lb _ hlb (by omega)] at hz
  have hstep := brace_depth_take_succ (t.drop (lb + 1)) (rb - lb - 1)
  rw [show rb - lb - 1 + 1 = rb - lb by omega] at hstep
  have hbody := hpos (rb - lb - 1) (le_refl _)
  unfold brace_balanced substr
  constructor
  · have : brace_depth ((t.drop (lb + 1)).take (rb - lb - 1)) = 0 := by omega
    unfold brace_depth at this
    omega
  · intro p hp
    have hpe : p = (t.drop (lb + 1)).take p.length := by
      have := List.prefix_iff_eq_take.1 hp
      rw [List.take_take] at this
      have hle : p.length ≤ rb - lb - 1 := by
        have := hp.length_le
        simp only [List.length_take] at this
        omega
      rwa [min_eq_left hle] at this
    have hle : p.length ≤ rb - lb - 1 := by
      have := hp.length_le
      simp only [List.length_take] at this
      omega
    have := hpos p.length hle
    rw [← hpe] at this
    unfold brace_depth at this
    omega

/-! ### Substring search and the entry loop -/

theorem find_str_aux_eq_some (pat s : Str) (k i : Nat) :
    find_str_aux pat s k = some i ↔
      ∃ j, i = k + j ∧ j ≤ s.length ∧ pat <+: s.drop j ∧ ∀ j1, j1 < j → ¬ pat <+: s.drop j1 := by
  induction s generalizing k with
  | nil =>
    rw [find_str_aux]
    constructor
    · intro h
      split at h
      · rename_i hp
        simp only [Option.some.injEq] at h
        exact ⟨0, by omega, by simp, by simp [hp], by intro j1 hj1; omega⟩
      · exact absurd h (by simp)
    · rintro ⟨j, hj, hlen, hpre, -⟩
      simp only [List.length_nil, Nat.le_zero_eq] at hlen
      subst hlen
      simp only [List.drop_nil, List.prefix_nil] at hpre
      simp [hpre, hj]
  | cons d r ih =>
    rw [find_str_aux]
    by_cases hp : pat.isPrefixOf (d :: r) = true
    · simp only [hp, if_true, Option.some.injEq]
      have hp1 : pat <+: d :: r := List.isPrefixOf_iff_prefix.1 hp
      constructor
      · intro h; exact ⟨0, by omega, by simp, by simpa using hp1, by intro j1 hj1; omega⟩
      · rintro ⟨j, hj, -, -, hmin⟩
        cases j with
        | zero => omega
        | succ j => exact absurd (by simpa using hp1) (hmin 0 (by omega))
    · have hp1 : ¬ pat <+: d :: r := fun h => hp (List.isPrefixOf_iff_prefix.2 h)
      rw [if_neg hp, ih]
      constructor
      · rintro ⟨j, hj, hlen, hpre, hmin⟩
        refine ⟨j + 1, by omega, by simp; omega, by simpa using hpre, ?_⟩
        intro j1 hj1
        cases j1 with
        | zero => simpa using hp1
        | succ j1 => simpa using hmin j1 (by omega)
      · rintro ⟨j, hj, hlen, hpre, hmin⟩
        cases j with
        | zero => exact absurd (by simpa using hpre) hp1
        | succ j =>
          refine ⟨j, by omega, by simpa using hlen, by simpa using hpre, ?_⟩
          intro j1 hj1
          simpa using hmin (j1 + 1) (by omega)

theorem find_str_zero_eq_some (t pat : Str) (p : Nat) :
    find_str t pat 0 = some p ↔ first_occurrence t pat p := by
  unfold find_str first_occurrence
  rw [if_neg (by omega), List.drop_zero, find_str_aux_eq_some]
  constructor
  · rintro ⟨j, hj, h⟩
    rw [zero_add] at hj
    subst hj; exact h
  · intro h; exact ⟨p, by omega, h⟩

theorem infix_iff_prefix_drop (t pat : Str) :
    pat <:+: t ↔ ∃ q, q ≤ t.length ∧ pat <+: t.drop q := by
  constructor
  · rintro ⟨a, b, rfl⟩
    refine ⟨a.length, by simp, ?_⟩
    rw [List.append_assoc, List.drop_left]
    exact List.prefix_append _ _
  · rintro ⟨q, -, b, hb⟩
    refine ⟨t.take q, b, ?_⟩
    rw [List.append_assoc, hb, List.take_append_drop]

theorem find_str_zero_eq_none (t pat : Str) :
    find_str t pat 0 = none ↔ ¬ pat <:+: t := by
  constructor
  · intro hnone hin
    rw [infix_iff_prefix_drop] at hin
    classical
    have hspec := Nat.find_spec hin
    have hfo : first_occurrence t pat (Nat.find hin) := by
      refine ⟨hspec.1, hspec.2, ?_⟩
      intro q hq hpre
      exact Nat.find_min hin hq ⟨by omega, hpre⟩
    rw [← find_str_zero_eq_some, hnone] at hfo
    exact absurd hfo (by simp)
  · intro h
    cases hf : find_str t pat 0 with
    | none => rfl
    | some p =>
      have := (find_str_zero_eq_some t pat p).1 hf
      exact absurd ((infix_iff_prefix_drop t pat).2 ⟨p, this.1, this.2.1⟩) h

theorem scan_depth_shift (s : Str) (d : Int) (i c : Nat) :
    scan_depth s d (i + c) = (scan_depth s d i).map (fun r => r + c) := by
  induction s generalizing d i with
  | nil => rfl
  | cons a r ih =>
    simp only [scan_depth]
    rw [show i + c + 1 = (i + 1) + c by omega]
    split
    · exact ih _ _
    · split
      · split
        · rfl
        · exact ih _ _
      · exact ih _ _

theorem parse_skid_block_drop (t : Str) (b : Nat) (hb : t[b]? = some '\x7b')
    (h : HandleMap) (i : IdMap) :
    parse_skid_block (substr_from t b) h i =
      match match_brace t b with
      | none => (0, h, i)
      | some rb => (split_entries (substr t (b + 1) (rb - b - 1)) [] []).foldl process_entry (0, h, i) := by
  have hlt : b < t.length := by
    by_contra hcon
    rw [List.getElem?_eq_none (by omega)] at hb
    exact absurd hb (by simp)
  have hdrop : t.drop b = '\x7b' :: t.drop (b + 1) := by
    rw [List.drop_eq_getElem_cons hlt]
    congr 1
    rw [List.getElem?_eq_getElem hlt] at hb
    exact Option.some.inj hb
  have hfind : find_char (substr_from t b) '\x7b' 0 = some 0 := by
    unfold find_char substr_from
    rw [List.drop_zero, hdrop, find_char_aux]
    simp
  have hmb : match_brace (substr_from t b) 0 = (match_brace t b).map (fun r => r - b) := by
    unfold match_brace substr_from
    rw [List.drop_zero]
    have := scan_depth_shift (t.drop b) 0 0 b
    rw [zero_add] at this
    rw [this, Option.map_map]
    cases scan_depth (t.drop b) 0 0 with
    | none => rfl
    | some r => simp
  unfold parse_skid_block locate_block
  rw [hfind]
  simp only [hmb]
  cases hm : match_brace t b with
  | none => rfl
  | some rb =>
    have hc := (match_brace_eq_some t b rb hb).1 hm
    simp only [Option.map_some']
    have : substr (substr_from t b) (0 + 1) (rb - b - 0 - 1) = substr t (b + 1) (rb - b - 1) := by
      unfold substr substr_from
      rw [List.drop_drop]
      simp [Nat.add_comm]
    rw [this]

theorem process_entries_none (es : List Str) (st : SkidState)
    (h : ∀ e ∈ es, parse_entry e = none) : es.foldl process_entry st = st := by
  induction es generalizing st with
  | nil => rfl
  | cons e r ih =>
    rw [List.foldl_cons]
    have he : process_entry st e = st := by
      unfold process_entry
      rw [h e (by simp)]
    rw [he]
    exact ih st (fun e1 h1 => h e1 (by simp [h1]))

theorem process_entries_count_mono (es : List Str) (st : SkidState) :
    st.1 ≤ (es.foldl process_entry st).1 := by
  induction es generalizing st with
  | nil => exact le_refl _
  | cons e r ih =>
    rw [List.foldl_cons]
    refine le_trans ?_ (ih _)
    unfold process_entry
    split
    · exact le_refl _
    · simp

theorem process_entries_count_zero (es : List Str) (h : HandleMap) (i : IdMap)
    (hz : (es.foldl process_entry (0, h, i)).1 = 0) : ∀ e ∈ es, parse_entry e = none := by
  suffices hs : ∀ (es : List Str) (st : SkidState), (es.foldl process_entry st).1 = st.1 →
      ∀ e ∈ es, parse_entry e = none from hs es (0, h, i) hz
  intro es
  induction es with
  | nil => intro st _ e he; simp at he
  | cons e r ih =>
    intro st hst e1 he1
    rw [List.foldl_cons] at hst
    have hmono := process_entries_count_mono r (process_entry st e)
    cases hp : parse_entry e with
    | none =>
      have hstep : process_entry st e = st := by unfold process_entry; rw [hp]
      rw [hstep] at hst
      rcases List.mem_cons.1 he1 with e2 | e2
      · rw [e2]; exact hp
      · exact ih st hst e1 e2
    | some p =>
      have hstep : (process_entry st e).1 = st.1 + 1 := by unfold process_entry; rw [hp]
      omega

/-! ### Trimming and single entries -/

theorem dropWhile_pad (p : Char → Bool) (w y : Str) (hw : ∀ c ∈ w, p c = true)
    (hy : ∀ c, y.head? = some c → p c = false) : (w ++ y).dropWhile p = y := by
  induction w with
  | nil =>
    cases y with
    | nil => rfl
    | cons a r =>
      rw [List.nil_append, List.dropWhile_cons, hy a rfl]
      rfl
  | cons a r ih =>
    rw [List.cons_append, List.dropWhile_cons, hw a (by simp), if_pos rfl]
    exact ih (fun c hc => hw c (by simp [hc]))

/-- Trimming a padded text: whitespace around a non-empty text that neither starts
nor ends with whitespace is cut exactly. -/
theorem trim_pad (w1 x w2 : Str) (h1 : ∀ c ∈ w1, is_trim_char c = true)
    (h2 : ∀ c ∈ w2, is_trim_char c = true) (hne : x ≠ [])
    (hx1 : is_trim_char (x.head hne) = false)
    (hx2 : is_trim_char (x.getLast hne) = false) :
    trim (w1 ++ x ++ w2) = x := by
  unfold trim
  have hhead : ∀ c, (x ++ w2).head? = some c → is_trim_char c = false := by
    intro c hc
    rw [List.head?_append_of_ne_nil _ hne, List.head?_eq_head hne] at hc
    rw [← Option.some.inj hc]; exact hx1
  have hlast : ∀ c, x.reverse.head? = some c → is_trim_char c = false := by
    intro c hc
    rw [List.head?_reverse, List.getLast?_eq_getLast _ hne] at hc
    rw [← Option.some.inj hc]; exact hx2
  rw [List.append_assoc, dropWhile_pad _ _ _ h1 hhead, List.reverse_append,
    dropWhile_pad _ _ _ (fun c hc => h2 c (List.mem_reverse.1 hc)) hlast, List.reverse_reverse]

theorem trim_self (x : Str) (hne : x ≠ []) (hx1 : is_trim_char (x.head hne) = false)
    (hx2 : is_trim_char (x.getLast hne) = false) : trim x = x := by
  have := trim_pad [] x [] (by simp) (by simp) hne hx1 hx2
  simpa using this

theorem not_trim_of_is_alnum (c : Char) (h : is_alnum c = true ∨ c = '_') :
    is_trim_char c = false := by
  rcases h with h | h
  · simp only [is_alnum, Bool.or_eq_true, Bool.and_eq_true, decide_eq_true_eq] at h
    have h0 : '0'.toNat ≤ c.toNat := by
      rcases h with (h | h) | h
      · exact h.1
      · exact le_trans (by decide) (show 'a'.toNat ≤ c.toNat from h.1)
      · exact le_trans (by decide) (show 'A'.toNat ≤ c.toNat from h.1)
    simp at h0
    simp only [is_trim_char, Bool.or_eq_false_iff, decide_eq_false_iff_not]
    refine ⟨⟨⟨?_, ?_⟩, ?_⟩, ?_⟩ <;> (intro hc; rw [hc] at h0; simp at h0)
  · subst h; decide

theorem not_trim_of_is_digit (c : Char) (h : is_digit c = true) : is_trim_char c = false := by
  have := not_space_of_is_digit c h
  simp only [is_space, Bool.or_eq_false_iff, decide_eq_false_iff_not] at this
  simp only [is_trim_char, Bool.or_eq_false_iff, decide_eq_false_iff_not]
  tauto

theorem show_int_ne_nil (n : Int) : show_int n ≠ [] := by
  cases n with
  | ofNat k => exact (toDigits_spec k).ne_nil
  | negSucc k => simp [show_int]

theorem show_int_head (n : Int) : is_trim_char ((show_int n).head (show_int_ne_nil n)) = false := by
  rcases show_int_chars n _ (List.head_mem (show_int_ne_nil n)) with h | h
  · rw [h]; decide
  · exact not_trim_of_is_digit _ h

theorem show_int_getLast (n : Int) :
    is_trim_char ((show_int n).getLast (show_int_ne_nil n)) = false := by
  rcases show_int_chars n _ (List.getLast_mem (show_int_ne_nil n)) with h | h
  · rw [h]; decide
  · exact not_trim_of_is_digit _ h

/-- `find` of a character that first occurs right after the prefix `A`. -/
theorem find_char_zero_append (A B : Str) (c : Char) (h : c ∉ A) :
    find_char (A ++ c :: B) c 0 = some A.length := by
  rw [find_char_eq_some]
  refine ⟨by omega, by rw [List.getElem?_append_right (le_refl _)]; simp, ?_⟩
  intro i _ hi hc
  rw [List.getElem?_append_left hi] at hc
  exact h (List.getElem?_mem hc)

theorem parse_entry_of_parts (e name val : Str) (eq : Nat) (id : Int)
    (hfind : find_char e '=' 0 = some eq) (hname : trim (substr e 0 eq) = name)
    (hval : trim (substr_from e (eq + 1)) = val) (hne1 : name ≠ []) (hne2 : val ≠ [])
    (hsemi : find_char val ';' 0 = none) (htrim : trim val = val)
    (hst : strtoll val 0 = some id) : parse_entry e = some (name, id) := by
  unfold parse_entry
  rw [hfind]
  simp only [hname, hval, hsemi, htrim, hst]
  simp [hne1, hne2]

theorem parse_entry_entry_text (h : Str) (n : Int) (hh : is_identifier h)
    (h1 : LLONG_MIN ≤ n) (h2 : n ≤ LLONG_MAX) : parse_entry (entry_text (h, n)) = some (h, n) := by
  obtain ⟨hne, hchars⟩ := hh
  have heq_notin : '=' ∉ h ++ [' '] := by
    intro hc
    rcases List.mem_append.1 hc with hc | hc
    · rcases hchars '=' hc with e | e
      · exact absurd e (by decide)
      · exact absurd e (by decide)
    · simp at hc
  have htext : entry_text (h, n) = (h ++ [' ']) ++ '=' :: (' ' :: show_int n) := by
    simp [entry_text]
  have hfind : find_char (entry_text (h, n)) '=' 0 = some (h.length + 1) := by
    rw [htext, find_char_zero_append _ _ _ heq_notin]
    simp
  have hname : trim (substr (entry_text (h, n)) 0 (h.length + 1)) = h := by
    have : substr (entry_text (h, n)) 0 (h.length + 1) = [] ++ h ++ [' '] := by
      rw [htext]
      unfold substr
      rw [List.drop_zero, List.take_left' (by simp)]
      simp
    rw [this]
    exact trim_pad [] h [' '] (by simp) (by simp [is_trim_char]) hne
      (not_trim_of_is_alnum _ (hchars _ (List.head_mem hne)))
      (not_trim_of_is_alnum _ (hchars _ (List.getLast_mem hne)))
  have hval : trim (substr_from (entry_text (h, n)) (h.length + 1 + 1)) = show_int n := by
    have : substr_from (entry_text (h, n)) (h.length + 1 + 1) = [' '] ++ show_int n ++ [] := by
      rw [htext]
      unfold substr_from
      rw [show h.length + 1 + 1 = (h ++ [' ']).length + 1 by simp, ← List.drop_drop,
        List.drop_left]
      simp
    rw [this]
    exact trim_pad [' '] (show_int n) [] (by simp [is_trim_char]) (by simp) (show_int_ne_nil n)
      (show_int_head n) (show_int_getLast n)
  have hsemi : find_char (show_int n) ';' 0 = none := by
    rw [find_char_eq_none, List.drop_zero]
    intro hc
    rcases show_int_chars n _ hc with e | e
    · exact absurd e (by decide)
    · exact absurd e (by decide)
  exact parse_entry_of_parts _ h (show_int n) _ n hfind hname hval hne (show_int_ne_nil n) hsemi
    (trim_self _ (show_int_ne_nil n) (show_int_head n) (show_int_getLast n))
    (strtoll_show_int n h1 h2)

/-! ### Sequences of map assignments -/

theorem umap_find_umap_set {K V : Type} [DecidableEq K] (m : List (K × V)) (k : K) (v : V)
    (k1 : K) : umap_find (umap_set m k v) k1 = if k = k1 then some v else umap_find m k1 := by
  induction m with
  | nil => simp [umap_set, umap_find]
  | cons p r ih =>
    obtain ⟨k2, v2⟩ := p
    rw [umap_set]
    by_cases h2 : k2 = k
    · subst h2
      simp only [if_true, umap_find]
      split <;> rfl
    · simp only [h2, if_false, umap_find, ih]
      by_cases h3 : k2 = k1
      · subst h3
        simp [Ne.symm h2]
      · simp [h3]

theorem umap_set_keys {K V : Type} [DecidableEq K] (m : List (K × V)) (k : K) (v : V) :
    (umap_set m k v).map Prod.fst =
      if k ∈ m.map Prod.fst then m.map Prod.fst else m.map Prod.fst ++ [k] := by
  induction m with
  | nil => simp [umap_set]
  | cons p r ih =>
    obtain ⟨k2, v2⟩ := p
    rw [umap_set]
    by_cases h2 : k2 = k
    · subst h2
      simp
    · simp only [h2, if_false, List.map_cons, ih, List.mem_cons, Ne.symm h2, false_or]
      split <;> simp

/-- The assignment `m[k] = v` keeps the keys of the map pairwise distinct. -/
theorem umap_set_wf {K V : Type} [DecidableEq K] (m : List (K × V)) (k : K) (v : V)
    (h : umap_wf m) : umap_wf (umap_set m k v) := by
  unfold umap_wf at h ⊢
  rw [umap_set_keys]
  split
  · exact h
  · rename_i hk
    rw [List.nodup_append]
    refine ⟨h, List.nodup_singleton k, ?_⟩
    intro a ha hb
    simp only [List.mem_singleton] at hb
    subst hb
    exact hk ha

theorem umap_set_all_wf {K V : Type} [DecidableEq K] (es m : List (K × V)) (h : umap_wf m) :
    umap_wf (umap_set_all m es) := by
  induction es generalizing m with
  | nil => exact h
  | cons e r ih => exact ih _ (umap_set_wf m e.1 e.2 h)

theorem umap_find_umap_set_all {K V : Type} [DecidableEq K] (es m : List (K × V)) (k : K) :
    umap_find (umap_set_all m es) k =
      match last_assoc es k with
      | some v => some v
      | none => umap_find m k := by
  induction es generalizing m with
  | nil => rfl
  | cons e r ih =>
    obtain ⟨k1, v1⟩ := e
    show umap_find (umap_set_all (umap_set m k1 v1) r) k = _
    rw [ih, last_assoc]
    cases last_assoc r k with
    | some v => rfl
    | none =>
      simp only [umap_find_umap_set]
      split <;> rfl

theorem last_assoc_isSome_iff {K V : Type} [DecidableEq K] (es : List (K × V)) (k : K) :
    (last_assoc es k).isSome = true ↔ k ∈ es.map Prod.fst := by
  induction es with
  | nil => simp [last_assoc]
  | cons e r ih =>
    obtain ⟨k1, v1⟩ := e
    rw [last_assoc]
    cases hl : last_assoc r k with
    | some v =>
      rw [hl] at ih
      simp only [Option.isSome_some, true_iff] at ih
      simp [ih]
    | none =>
      rw [hl] at ih
      simp only [Option.isSome_none, Bool.false_eq_true, false_iff] at ih
      by_cases h1 : k1 = k
      · simp [h1]
      · simp only [h1, if_false, Option.isSome_none, Bool.false_eq_true, List.map_cons,
          List.mem_cons, false_iff, not_or]
        exact ⟨fun e => h1 e.symm, ih⟩

theorem process_entries_entry_text (es : List (Str × Int)) (st : SkidState)
    (hvalid : ∀ e ∈ es, is_identifier e.1 ∧ LLONG_MIN ≤ e.2 ∧ e.2 ≤ LLONG_MAX) :
    (es.map entry_text).foldl process_entry st =
      (st.1 + es.length, umap_set_all st.2.1 es, umap_set_all st.2.2 (es.map Prod.swap)) := by
  induction es generalizing st with
  | nil => rfl
  | cons e r ih =>
    obtain ⟨h, n⟩ := e
    have hv := hvalid (h, n) (by simp)
    rw [List.map_cons, List.foldl_cons]
    have hstep : process_entry st (entry_text (h, n)) =
        (st.1 + 1, umap_set st.2.1 h n, umap_set st.2.2 n h) := by
      unfold process_entry
      rw [parse_entry_entry_text h n hv.1 hv.2.1 hv.2.2]
    rw [hstep, ih _ (fun e he => hvalid e (by simp [he]))]
    simp only [List.length_cons, List.map_cons, Prod.swap]
    refine Prod.ext (by simp; omega) (Prod.ext rfl rfl)

/-! ### The text of a table -/

/-- The depth scan over a text without braces, up to the closing brace after it. -/
theorem scan_depth_no_braces (A B : Str) (i : Nat) (h1 : '\x7b' ∉ A) (h2 : '\x7d' ∉ A) :
    scan_depth (A ++ '\x7d' :: B) 1 i = some (i + A.length) := by
  induction A generalizing i with
  | nil => simp [scan_depth]
  | cons a r ih =>
    simp only [List.mem_cons, not_or] at h1 h2
    rw [List.cons_append, scan_depth, if_neg (fun e => h1.1 e.symm), if_neg (fun e => h2.1 e.symm),
      ih (i + 1) h1.2 h2.2]
    simp only [List.length_cons, Option.some.injEq]
    omega

/-- On a block `\x7b A \x7d` whose body `A` has no braces, `locate_block` returns `A`. -/
theorem locate_block_simple (A B : Str) (h1 : '\x7b' ∉ A) (h2 : '\x7d' ∉ A) :
    locate_block ('\x7b' :: A ++ '\x7d' :: B) = some A := by
  have hfind : find_char ('\x7b' :: A ++ '\x7d' :: B) '\x7b' 0 = some 0 :=
    find_char_zero_append [] (A ++ '\x7d' :: B) '\x7b' (by simp)
  have hmatch : match_brace ('\x7b' :: A ++ '\x7d' :: B) 0 = some (1 + A.length) := by
    unfold match_brace
    rw [List.drop_zero, List.cons_append, scan_depth]
    simp only [if_true, zero_add]
    exact scan_depth_no_braces A B 1 h1 h2
  unfold locate_block
  rw [hfind]
  simp only [hmatch]
  unfold substr
  simp

theorem split_entries_chunk (c rest cur : Str) (acc : List Str) (h : ',' ∉ c) :
    split_entries (c ++ rest) cur acc = split_entries rest (cur ++ c) acc := by
  induction c generalizing cur with
  | nil => simp
  | cons a r ih =>
    simp only [List.mem_cons, not_or] at h
    rw [List.cons_append, split_entries, if_neg (fun e => h.1 e.symm), ih _ h.2]
    simp

theorem entry_text_chars (e : Str × Int) (he : is_identifier e.1) :
    ∀ c ∈ entry_text e, c ≠ ',' ∧ c ≠ '\x7b' ∧ c ≠ '\x7d' := by
  intro c hc
  unfold entry_text at hc
  simp only [List.mem_append] at hc
  rcases hc with (hc | hc) | hc
  · rcases he.2 c hc with h | h
    · refine ⟨?_, ?_, ?_⟩ <;> (intro e1; rw [e1] at h; exact absurd h (by decide))
    · rw [h]; decide
  · have : c = ' ' ∨ c = '=' := by
      simp at hc
      tauto
    rcases this with h | h <;> (rw [h]; decide)
  · rcases show_int_chars e.2 c hc with h | h
    · rw [h]; decide
    · refine ⟨?_, ?_, ?_⟩ <;> (intro e1; rw [e1] at h; exact absurd h (by decide))

theorem entry_text_ne_nil (e : Str × Int) : entry_text e ≠ [] := by
  unfold entry_text
  simp

theorem entry_text_head (e : Str × Int) (he : is_identifier e.1) :
    is_trim_char ((entry_text e).head (entry_text_ne_nil e)) = false := by
  have : (entry_text e).head (entry_text_ne_nil e) = e.1.head he.1 := by
    unfold entry_text
    rw [List.head_append_of_ne_nil (by simp), List.head_append_of_ne_nil he.1]
  rw [this]
  exact not_trim_of_is_alnum _ (he.2 _ (List.head_mem he.1))

theorem entry_text_getLast (e : Str × Int) :
    is_trim_char ((entry_text e).getLast (entry_text_ne_nil e)) = false := by
  have : (entry_text e).getLast (entry_text_ne_nil e) = (show_int e.2).getLast (show_int_ne_nil _) := by
    unfold entry_text
    rw [List.getLast_append_of_ne_nil]
  rw [this]
  exact show_int_getLast _

theorem intercalate_cons_cons (sep a b : Str) (r : List Str) :
    sep.intercalate (a :: b :: r) = a ++ sep ++ sep.intercalate (b :: r) := by
  simp [List.intercalate, List.intersperse]

theorem intercalate_entry_chars (es : List (Str × Int))
    (hvalid : ∀ e ∈ es, is_identifier e.1) :
    ∀ c ∈ ", ".toList.intercalate (es.map entry_text), c ≠ '\x7b' ∧ c ≠ '\x7d' := by
  induction es with
  | nil => simp [List.intercalate]
  | cons e r ih =>
    cases r with
    | nil =>
      intro c hc
      have hc1 : c ∈ entry_text e := by simpa [List.intercalate] using hc
      exact (entry_text_chars e (hvalid e (by simp)) c hc1).2
    | cons e1 r1 =>
      intro c hc
      rw [List.map_cons, List.map_cons, intercalate_cons_cons, ← List.map_cons] at hc
      simp only [List.mem_append] at hc
      rcases hc with (hc | hc) | hc
      · exact (entry_text_chars e (hvalid e (by simp)) c hc).2
      · have : c = ',' ∨ c = ' ' := by
          simp at hc
          tauto
        rcases this with h | h <;> (rw [h]; decide)
      · exact ih (fun e2 he2 => hvalid e2 (by simp [he2])) c hc

theorem split_entries_intercalate (es : List (Str × Int)) (hne : es ≠ [])
    (hvalid : ∀ e ∈ es, is_identifier e.1) (acc : List Str) :
    split_entries (' ' :: ", ".toList.intercalate (es.map entry_text) ++ [' ']) [] acc =
      acc ++ es.map entry_text := by
  induction es generalizing acc with
  | nil => exact absurd rfl hne
  | cons e r ih =>
    have he := hvalid e (by simp)
    have hcomma : ',' ∉ entry_text e := fun hc => (entry_text_chars e he _ hc).1 rfl
    cases r with
    | nil =>
      have hbody : ' ' :: ", ".toList.intercalate ([e].map entry_text) ++ [' '] =
          ([' '] ++ entry_text e ++ [' ']) ++ [] := by
        simp [List.intercalate]
      have hc2 : ',' ∉ [' '] ++ entry_text e ++ [' '] := by
        simp only [List.mem_append, List.mem_singleton, not_or]
        exact ⟨⟨by decide, hcomma⟩, by decide⟩
      rw [hbody, split_entries_chunk _ _ _ _ hc2, split_entries, List.nil_append,
        trim_pad [' '] (entry_text e) [' '] (by simp [is_trim_char]) (by simp [is_trim_char])
          (entry_text_ne_nil e) (entry_text_head e he) (entry_text_getLast e)]
      simp [entry_text_ne_nil e]
    | cons e1 r1 =>
      have hbody : ' ' :: ", ".toList.intercalate ((e :: e1 :: r1).map entry_text) ++ [' '] =
          ([' '] ++ entry_text e) ++
            ',' :: (' ' :: ", ".toList.intercalate ((e1 :: r1).map entry_text) ++ [' ']) := by
        rw [List.map_cons, List.map_cons, intercalate_cons_cons, ← List.map_cons]
        simp
      have hc2 : ',' ∉ [' '] ++ entry_text e := by
        simp only [List.mem_append, List.mem_singleton, not_or]
        exact ⟨by decide, hcomma⟩
      have htrim : trim ([' '] ++ entry_text e) = entry_text e := by
        have := trim_pad [' '] (entry_text e) [] (by simp [is_trim_char]) (by simp)
          (entry_text_ne_nil e) (entry_text_head e he) (entry_text_getLast e)
        simpa using this
      rw [hbody, split_entries_chunk _ _ _ _ hc2, split_entries, if_pos rfl, List.nil_append]
      simp only [htrim, entry_text_ne_nil e, if_false]
      rw [ih (by simp) (fun e2 he2 => hvalid e2 (by simp [he2]))]
      simp

theorem parse_skid_block_block_text_eq (es : List (Str × Int)) (hne : es ≠ [])
    (hvalid : ∀ e ∈ es, is_identifier e.1 ∧ LLONG_MIN ≤ e.2 ∧ e.2 ≤ LLONG_MAX)
    (h : HandleMap) (i : IdMap) :
    parse_skid_block (block_text es) h i =
      (es.length, umap_set_all h es, umap_set_all i (es.map Prod.swap)) := by
  have hid : ∀ e ∈ es, is_identifier e.1 := fun e he => (hvalid e he).1
  have hchars := intercalate_entry_chars es hid
  have htext : block_text es =
      '\x7b' :: (' ' :: ", ".toList.intercalate (es.map entry_text) ++ [' ']) ++ '\x7d' :: [] := by
    simp [block_text]
  have hloc : locate_block (block_text es) =
      some (' ' :: ", ".toList.intercalate (es.map entry_text) ++ [' ']) := by
    rw [htext]
    apply locate_block_simple
    · intro hc
      simp only [List.cons_append, List.mem_cons, List.mem_append, List.mem_singleton] at hc
      rcases hc with hc | hc | hc
      · exact absurd hc (by decide)
      · exact (hchars _ hc).1 rfl
      · rcases hc with hc | hc
        · exact absurd hc (by decide)
        · simp at hc
    · intro hc
      simp only [List.cons_append, List.mem_cons, List.mem_append, List.mem_singleton] at hc
      rcases hc with hc | hc | hc
      · exact absurd hc (by decide)
      · exact (hchars _ hc).2 rfl
      · rcases hc with hc | hc
        · exact absurd hc (by decide)
        · simp at hc
  unfold parse_skid_block
  rw [hloc]
  simp only
  rw [split_entries_intercalate es hne hid, List.nil_append, process_entries_entry_text es _ hvalid]
  simp

/-! ### Positions in a text given by its suffix -/

theorem find_char_aux_append (c : Char) (B C : Str) (k : Nat) (hB : c ∉ B) :
    find_char_aux c (B ++ c :: C) k = some (k + B.length) := by
  induction B generalizing k with
  | nil => simp [find_char_aux]
  | cons a r ih =>
    simp only [List.mem_cons, not_or] at hB
    rw [List.cons_append, find_char_aux, if_neg (fun e => hB.1 e.symm), ih _ hB.2]
    simp only [List.length_cons, Option.some.injEq]
    omega

/-- `find` from `pos` when the text from `pos` on is `B`, then `c`. -/
theorem find_char_of_drop (s : Str) (c : Char) (pos : Nat) (B C : Str)
    (h : s.drop pos = B ++ c :: C) (hB : c ∉ B) : find_char s c pos = some (pos + B.length) := by
  unfold find_char
  rw [h]
  exact find_char_aux_append c B C pos hB

theorem drop_of_drop (s : Str) (pos : Nat) (B R : Str) (h : s.drop pos = B ++ R) :
    s.drop (pos + B.length) = R := by
  rw [← List.drop_drop, h, List.drop_left]

theorem substr_of_drop (s : Str) (pos : Nat) (B R : Str) (h : s.drop pos = B ++ R) :
    substr s pos B.length = B := by
  unfold substr
  rw [h, List.take_left]

theorem match_brace_of_drop (s : Str) (ob : Nat) (body R : Str)
    (h : s.drop ob = '\x7b' :: body ++ '\x7d' :: R) (h1 : '\x7b' ∉ body) (h2 : '\x7d' ∉ body) :
    match_brace s ob = some (ob + 1 + body.length) := by
  unfold match_brace
  rw [h, List.cons_append, scan_depth]
  simp only [if_true, zero_add]
  exact scan_depth_no_braces body R (ob + 1) h1 h2

theorem find_field_string_record_body (X : Str) (hq : '"' ∉ X) :
    find_field_string (record_body X) "SkillName".toList = X := by
  have hbody : record_body X = " SkillName = \"".toList ++ (X ++ '"' :: [' ']) := by
    simp [record_body]
  have hfs : find_str (record_body X) "SkillName".toList 0 = some 1 := by
    rw [hbody]
    simp [find_str, find_str_aux, List.isPrefixOf]
  have h0 : (record_body X).get? (1 - 1) = some ' ' := by
    rw [hbody]; rfl
  have h10 : (record_body X).get? (1 + "SkillName".toList.length) = some ' ' := by
    rw [hbody]; rfl
  have heq : find_char (record_body X) '=' (1 + "SkillName".toList.length) = some 11 := by
    rw [hbody]
    simp [find_char, find_char_aux]
  have hq1 : find_char (record_body X) '"' (11 + 1) = some 13 := by
    rw [hbody]
    simp [find_char, find_char_aux]
  have hd14 : (record_body X).drop (13 + 1) = X ++ '"' :: [' '] := by
    rw [hbody]
    exact List.drop_left' (by simp)
  have hq2 : find_char (record_body X) '"' (13 + 1) = some (13 + 1 + X.length) :=
    find_char_of_drop _ _ _ _ _ hd14 hq
  have hsub : substr (record_body X) (13 + 1) (13 + 1 + X.length - (13 + 1)) = X := by
    rw [show 13 + 1 + X.length - (13 + 1) = X.length by omega]
    exact substr_of_drop _ _ _ _ hd14
  have hstep : find_field_step (record_body X) "SkillName".toList 0 = .done X := by
    unfold find_field_step
    rw [hfs]
    simp only [h0, h10, heq, hq1, hq2, hsub]
    simp [is_alnum]
  unfold find_field_string
  rw [find_field_loop, hstep]

/-! ### One record -/

theorem drop_of_drop_eq (s : Str) (pos n : Nat) (B R : Str) (h : s.drop pos = B ++ R)
    (hn : n = pos + B.length) : s.drop n = R := by
  rw [hn]; exact drop_of_drop s pos B R h

/-- One iteration of the record loop on a well-formed record `[K] = \x7b body \x7d`
that follows a text `P` without `[`. -/
theorem record_step_of_drop (t : Str) (i : Nat) (P K body S : Str)
    (h : t.drop i = P ++ '[' :: (K ++ ']' :: (' ' :: '=' :: ' ' :: '\x7b' :: (body ++ '\x7d' :: S))))
    (hP : '[' ∉ P) (hK : ']' ∉ K) (hb1 : '\x7b' ∉ body) (hb2 : '\x7d' ∉ body) :
    record_step t i = .record (trim K) body (i + P.length + K.length + body.length + 7) ∧
      t.drop (i + P.length + K.length + body.length + 7) = S := by
  have hlb : find_char t '[' i = some (i + P.length) := find_char_of_drop t '[' i P _ h hP
  have d1 : t.drop (i + P.length + 1) =
      K ++ ']' :: (' ' :: '=' :: ' ' :: '\x7b' :: (body ++ '\x7d' :: S)) :=
    drop_of_drop_eq t i _ (P ++ ['[']) _ (by rw [h]; simp) (by simp; omega)
  have hrb : find_char t ']' (i + P.length + 1) = some (i + P.length + 1 + K.length) :=
    find_char_of_drop t ']' _ K _ d1 hK
  have hkey : substr t (i + P.length + 1) (i + P.length + 1 + K.length - (i + P.length) - 1) = K := by
    rw [show i + P.length + 1 + K.length - (i + P.length) - 1 = K.length by omega]
    exact substr_of_drop _ _ _ _ d1
  have d2 : t.drop (i + P.length + 1 + K.length + 1) =
      [' '] ++ '=' :: (' ' :: '\x7b' :: (body ++ '\x7d' :: S)) :=
    drop_of_drop_eq t (i + P.length + 1) _ (K ++ [']']) _ (by rw [d1]; simp) (by simp; omega)
  have heq : find_char t '=' (i + P.length + 1 + K.length + 1) =
      some (i + P.length + 1 + K.length + 1 + 1) :=
    find_char_of_drop t '=' _ [' '] _ d2 (by decide)
  have d3 : t.drop (i + P.length + 1 + K.length + 1 + 1 + 1) =
      [' '] ++ '\x7b' :: (body ++ '\x7d' :: S) :=
    drop_of_drop_eq t (i + P.length + 1 + K.length + 1) _ [' ', '='] _ (by rw [d2]; simp) (by simp)
  have hob : find_char t '\x7b' (i + P.length + 1 + K.length + 1 + 1 + 1) =
      some (i + P.length + 1 + K.length + 1 + 1 + 1 + 1) :=
    find_char_of_drop t '\x7b' _ [' '] _ d3 (by decide)
  have d4 : t.drop (i + P.length + 1 + K.length + 1 + 1 + 1 + 1) =
      '\x7b' :: body ++ '\x7d' :: S :=
    drop_of_drop_eq t (i + P.length + 1 + K.length + 1 + 1 + 1) _ [' '] _ (by rw [d3]; simp)
      (by simp)
  have hcb : match_brace t (i + P.length + 1 + K.length + 1 + 1 + 1 + 1) =
      some (i + P.length + 1 + K.length + 1 + 1 + 1 + 1 + 1 + body.length) :=
    match_brace_of_drop t _ body S d4 hb1 hb2
  have d5 : t.drop (i + P.length + 1 + K.length + 1 + 1 + 1 + 1 + 1) = body ++ '\x7d' :: S :=
    drop_of_drop_eq t (i + P.length + 1 + K.length + 1 + 1 + 1 + 1) _ ['\x7b'] _
      (by rw [d4]; simp) (by simp)
  have hbody : substr t (i + P.length + 1 + K.length + 1 + 1 + 1 + 1 + 1)
      (i + P.length + 1 + K.length + 1 + 1 + 1 + 1 + 1 + body.length -
        (i + P.length + 1 + K.length + 1 + 1 + 1 + 1) - 1) = body := by
    rw [show i + P.length + 1 + K.length + 1 + 1 + 1 + 1 + 1 + body.length -
        (i + P.length + 1 + K.length + 1 + 1 + 1 + 1) - 1 = body.length by omega]
    exact substr_of_drop _ _ _ _ d5
  have d6 : t.drop (i + P.length + K.length + body.length + 7) = S :=
    drop_of_drop_eq t (i + P.length + 1 + K.length + 1 + 1 + 1 + 1 + 1) _ (body ++ ['\x7d']) S
      (by rw [d5]; simp) (by simp; omega)
  refine ⟨?_, d6⟩
  unfold record_step
  rw [hlb]
  simp only [hrb, hkey, heq, hob, hcb, hbody]
  congr 1
  omega

theorem record_step_stop (t : Str) (i : Nat) (h : '[' ∉ t.drop i) : record_step t i = .stop := by
  unfold record_step
  rw [(find_char_eq_none t '[' i).2 h]

/-! ### Key resolution -/

theorem dropWhile_append_keep (p : Char → Bool) (A x : Str)
    (hx : ∀ c, x.head? = some c → p c = false) :
    (A ++ x).dropWhile p = A.dropWhile p ++ x := by
  induction A with
  | nil => simpa using dropWhile_pad p [] x (by simp) hx
  | cons a r ih =>
    rw [List.cons_append, List.dropWhile_cons, List.dropWhile_cons]
    split
    · exact ih
    · rfl

/-- Trimming a text that ends with a non-empty part without whitespace at its ends
only cuts the leading whitespace. -/
theorem trim_append (A x : Str) (hne : x ≠ []) (hx1 : is_trim_char (x.head hne) = false)
    (hx2 : is_trim_char (x.getLast hne) = false) :
    trim (A ++ x) = A.dropWhile is_trim_char ++ x := by
  have hhead : ∀ c, x.head? = some c → is_trim_char c = false := by
    intro c hc
    rw [List.head?_eq_head hne] at hc
    rw [← Option.some.inj hc]; exact hx1
  have hlast : ∀ c, (x.reverse ++ (A.dropWhile is_trim_char).reverse).head? = some c →
      is_trim_char c = false := by
    intro c hc
    rw [List.head?_append_of_ne_nil _ (by simpa using hne), List.head?_reverse,
      List.getLast?_eq_getLast _ hne] at hc
    rw [← Option.some.inj hc]; exact hx2
  unfold trim
  rw [dropWhile_append_keep _ _ _ hhead, List.reverse_append]
  have := dropWhile_pad is_trim_char [] _ (by simp) hlast
  rw [List.nil_append] at this
  rw [this, List.reverse_append, List.reverse_reverse, List.reverse_reverse]

theorem ident_char_code (c : Char) (h : is_alnum c = true ∨ c = '_') : 48 ≤ c.toNat := by
  rcases h with h | h
  · simp only [is_alnum, Bool.or_eq_true, Bool.and_eq_true, decide_eq_true_eq] at h
    have h0 : '0'.toNat ≤ c.toNat := by
      rcases h with (h | h) | h
      · exact h.1
      · exact le_trans (by decide) (show 'a'.toNat ≤ c.toNat from h.1)
      · exact le_trans (by decide) (show 'A'.toNat ≤ c.toNat from h.1)
    simpa using h0
  · subst h; decide

theorem not_space_of_ident_char (c : Char) (h : is_alnum c = true ∨ c = '_') :
    is_space c = false := by
  have h0 := ident_char_code c h
  simp only [is_space, Bool.or_eq_false_iff, decide_eq_false_iff_not]
  refine ⟨⟨⟨⟨⟨?_, ?_⟩, ?_⟩, ?_⟩, ?_⟩, ?_⟩ <;> (intro hc; rw [hc] at h0; simp at h0)

theorem ident_char_ne (c d : Char) (h : is_alnum c = true ∨ c = '_') (hd : d.toNat < 48) :
    c ≠ d := by
  intro e
  have := ident_char_code c h
  rw [e] at this
  omega

theorem trim_identifier (H : Str) (hid : is_identifier H) : trim H = H :=
  trim_self H hid.1 (not_trim_of_is_alnum _ (hid.2 _ (List.head_mem hid.1)))
    (not_trim_of_is_alnum _ (hid.2 _ (List.getLast_mem hid.1)))

theorem filter_space_identifier (H : Str) (hid : is_identifier H) :
    H.filter (fun c => !is_space c) = H := by
  rw [List.filter_eq_self]
  intro c hc
  simp [not_space_of_ident_char c (hid.2 c hc)]

theorem rfind_char_none (s : Str) (c : Char) (h : c ∉ s) : rfind_char s c = none := by
  unfold rfind_char
  rw [(find_char_aux_eq_none c s.reverse 0).2 (by simpa using h)]

theorem rfind_char_append (A B : Str) (c : Char) (h : c ∉ B) :
    rfind_char (A ++ c :: B) c = some A.length := by
  unfold rfind_char
  have : (A ++ c :: B).reverse = B.reverse ++ c :: A.reverse := by simp
  rw [this, find_char_aux_append c _ _ 0 (by simpa using h)]
  simp only [zero_add, List.length_reverse, List.length_append, List.length_cons,
    Option.some.injEq]
  omega

/-- Resolution of a bare handle key. -/
theorem resolve_key_handle (m : HandleMap) (H : Str) (N : Int) (hid : is_identifier H)
    (hnd : is_digit_string H = false) (hm : umap_find m H = some N) : resolve_key m H = N := by
  have hdot : '.' ∉ H := fun hc => ident_char_ne _ '.' (hid.2 _ hc) (by decide) rfl
  unfold resolve_key
  rw [hnd, rfind_char_none H '.' hdot]
  simp only [Bool.false_eq_true, if_false, trim_identifier H hid,
    filter_space_identifier H hid, hid.1, hm]

/-- Resolution of a dotted key `PREFIX.H`. -/
theorem resolve_key_dotted (m : HandleMap) (A H : Str) (N : Int) (hid : is_identifier H)
    (hm : umap_find m H = some N) : resolve_key m (A ++ '.' :: H) = N := by
  have hdot : '.' ∉ H := fun hc => ident_char_ne _ '.' (hid.2 _ hc) (by decide) rfl
  have hnd : is_digit_string (A ++ '.' :: H) = false := by
    unfold is_digit_string
    simp [is_digit]
  unfold resolve_key
  rw [hnd, rfind_char_append A H '.' hdot]
  have hsub : substr_from (A ++ '.' :: H) (A.length + 1) = H := by
    unfold substr_from
    rw [show A ++ '.' :: H = (A ++ ['.']) ++ H by simp]
    exact List.drop_left' (by simp)
  simp only [Bool.false_eq_true, if_false, hsub, trim_identifier H hid,
    filter_space_identifier H hid, hid.1, hm]

/-! ### A text with one record -/

theorem umap_find_mem {K V : Type} [DecidableEq K] (m : List (K × V)) (k : K) (v : V)
    (h : umap_find m k = some v) : (k, v) ∈ m := by
  induction m with
  | nil => simp [umap_find] at h
  | cons p r ih =>
    obtain ⟨k1, v1⟩ := p
    rw [umap_find] at h
    by_cases hk : k1 = k
    · rw [if_pos hk] at h
      simp only [Option.some.injEq] at h
      rw [hk, h]; simp
    · rw [if_neg hk] at h
      exact List.mem_cons_of_mem _ (ih h)

theorem name_table_lines_mem (n : IdMap) (vec : List (Int × Str)) (id : Int) (handle name : Str)
    (hv : (id, handle) ∈ vec) (hn : umap_find n id = some name) :
    name_table_line handle name ∈ name_table_lines n vec := by
  rw [name_table_lines_eq, List.mem_map]
  refine ⟨(id, handle), ?_, by simp [hn]⟩
  rw [List.mem_filter]
  exact ⟨hv, by simp [hn]⟩

/-- The record loop on a text made of one well-formed record between two texts
without `[`. -/
theorem scan_records_single (t : Str) (m : HandleMap) (P K X S : Str)
    (ht : t = P ++ record_text K X ++ S) (hP : '[' ∉ P) (hS : '[' ∉ S) (hK : ']' ∉ K)
    (hX1 : '\x7b' ∉ X) (hX2 : '\x7d' ∉ X) (n0 : IdMap) :
    scan_records t m (t.length + 1) 0 n0 = record_entry m n0 (trim K) (record_body X) := by
  have hdrop : t.drop 0 = P ++ '[' :: (K ++ ']' :: (' ' :: '=' :: ' ' :: '\x7b' ::
      (record_body X ++ '\x7d' :: S))) := by
    rw [ht]
    simp [record_text, record_body]
  have hb1 : '\x7b' ∉ record_body X := by
    simp [record_body, hX1]
  have hb2 : '\x7d' ∉ record_body X := by
    simp [record_body, hX2]
  obtain ⟨hstep, hrest⟩ := record_step_of_drop t 0 P K (record_body X) S hdrop hP hK hb1 hb2
  have hlen : ∃ k, t.length = k + 1 := by
    refine ⟨t.length - 1, ?_⟩
    have : 0 < t.length := by rw [ht]; simp [record_text]
    omega
  obtain ⟨k, hk⟩ := hlen
  rw [hk, scan_records, hstep]
  simp only
  rw [scan_records, record_step_stop t _ (by rw [hrest]; exact hS)]

/-! ## The properties of the program -/

set_option maxRecDepth 100000 in
/-- C1: on the example enumeration text and info-list text, `main` writes the ID-handle
listing `1 NV_BASIC`, `2 NV_FIRSTAID` and the name table `NV_BASIC#Basic Skill#`,
`NV_FIRSTAID#First Aid#`, in that order; the same holds when the two texts are laid
out as data files with comments. -/
theorem main_example :
    main example_skillid example_skillinfolist =
      some (["1 NV_BASIC".toList, "2 NV_FIRSTAID".toList],
        ["NV_BASIC#Basic Skill#".toList, "NV_FIRSTAID#First Aid#".toList]) ∧
    main example_skillid_file example_skillinfolist_file =
      some (["1 NV_BASIC".toList, "2 NV_FIRSTAID".toList],
        ["NV_BASIC#Basic Skill#".toList, "NV_FIRSTAID#First Aid#".toList]) := by
  constructor <;> decide

/-- C2: for a non-empty list of entries whose handles are identifiers and whose
numbers are `long long` values written in decimal, `parse_skid_block` on the text
`\x7b h_1 = n_1, ..., h_k = n_k \x7d` with empty maps returns `k`; the keys of
`handle_to_id` are exactly the handles, each mapped to the number of its last entry,
and the keys of `id_to_handle` are exactly the numbers, each mapped to the handle of
its last entry. -/
theorem parse_skid_block_last_wins (es : List (Str × Int)) (hne : es ≠ [])
    (hvalid : ∀ e ∈ es, is_identifier e.1 ∧ LLONG_MIN ≤ e.2 ∧ e.2 ≤ LLONG_MAX) :
    (parse_skid_block (block_text es) [] []).1 = es.length ∧
    umap_wf (parse_skid_block (block_text es) [] []).2.1 ∧
    umap_wf (parse_skid_block (block_text es) [] []).2.2 ∧
    (∀ h, h ∈ (parse_skid_block (block_text es) [] []).2.1.map Prod.fst ↔ h ∈ es.map Prod.fst) ∧
    (∀ n, n ∈ (parse_skid_block (block_text es) [] []).2.2.map Prod.fst ↔ n ∈ es.map Prod.snd) ∧
    (∀ h, umap_find (parse_skid_block (block_text es) [] []).2.1 h = last_assoc es h) ∧
    (∀ n, umap_find (parse_skid_block (block_text es) [] []).2.2 n =
      last_assoc (es.map Prod.swap) n) := by
  rw [parse_skid_block_block_text_eq es hne hvalid]
  have hfind1 : ∀ h, umap_find (umap_set_all ([] : HandleMap) es) h = last_assoc es h := by
    intro h
    rw [umap_find_umap_set_all]
    cases last_assoc es h <;> rfl
  have hfind2 : ∀ n, umap_find (umap_set_all ([] : IdMap) (es.map Prod.swap)) n =
      last_assoc (es.map Prod.swap) n := by
    intro n
    rw [umap_find_umap_set_all]
    cases last_assoc (es.map Prod.swap) n <;> rfl
  refine ⟨rfl, umap_set_all_wf _ _ (by simp [umap_wf]), umap_set_all_wf _ _ (by simp [umap_wf]),
    ?_, ?_, hfind1, hfind2⟩
  · intro h
    rw [← umap_find_isSome_iff, ← last_assoc_isSome_iff, hfind1]
  · intro n
    have : es.map Prod.snd = (es.map Prod.swap).map Prod.fst := by
      simp [List.map_map, Function.comp_def]
    rw [← umap_find_isSome_iff, this, ← last_assoc_isSome_iff, hfind2]

theorem parse_skid_block_last_wins_witness :
    (parse_skid_block (block_text
        [("A".toList, 5), ("B".toList, -3), ("A".toList, 7), ("C".toList, -3)]) [] []).1 = 4 ∧
      umap_find (parse_skid_block (block_text
        [("A".toList, 5), ("B".toList, -3), ("A".toList, 7), ("C".toList, -3)]) [] []).2.1
          "A".toList = some 7 ∧
      umap_find (parse_skid_block (block_text
        [("A".toList, 5), ("B".toList, -3), ("A".toList, 7), ("C".toList, -3)]) [] []).2.2
          (-3) = some "C".toList := by
  have h := parse_skid_block_last_wins
    [("A".toList, 5), ("B".toList, -3), ("A".toList, 7), ("C".toList, -3)] (by decide)
    (by decide)
  exact ⟨h.1, (h.2.2.2.2.2.1 _).trans (by decide), (h.2.2.2.2.2.2 _).trans (by decide)⟩

/-- C4: a text without the two-character sequence `--` is returned unchanged by
`strip_lua_comments`. -/
theorem strip_lua_comments_of_no_marker (s : Str) (h : ¬ dashes <:+: s) :
    strip_lua_comments s = s := by
  exact strip_lua_comments_eq_self s h

theorem strip_lua_comments_of_no_marker_witness :
    ¬ dashes <:+: "a - b = \x7b c \x7d".toList ∧
      strip_lua_comments "a - b = \x7b c \x7d".toList = "a - b = \x7b c \x7d".toList :=
  ⟨by decide, strip_lua_comments_of_no_marker _ (by decide)⟩

/-- C5: `strip_lua_comments` is idempotent: stripping twice equals stripping once. -/
theorem strip_lua_comments_idempotent (s : Str) :
    strip_lua_comments (strip_lua_comments s) = strip_lua_comments s := by
  have h : ¬ dashes <:+: strip_lua_comments s := strip_line_comments_no_dashes _ _
  unfold strip_lua_comments at h ⊢
  rw [strip_block_comments_of_no_dashes _ h, strip_line_comments_of_no_dashes _ h]

/-- C6: for every `id_to_handle` map (pairwise distinct keys, any iteration order) the
ID-handle listing has as many lines as the map has keys, and its lines are the lines
`<id> <handle>` of a vector that is a rearrangement of the map entries with strictly
increasing ids: every key has exactly one line and no id is on two lines. -/
theorem id_handle_listing_sorted (m : IdMap) (h : umap_wf m) :
    (id_handle_listing m).length = m.length ∧
    ∃ vec : List (Int × Str), vec.Perm m ∧ vec.Pairwise (fun a b => a.1 < b.1) ∧
      id_handle_listing m = vec.map id_handle_line ∧
      (id_handle_listing m).Nodup ∧
      (∀ k v, umap_find m k = some v ↔ id_handle_line (k, v) ∈ id_handle_listing m) := by
  have hperm := sort_by_id_perm m
  have hstrict := sort_by_id_strict m h
  have hnd : (sort_by_id m).Nodup := hstrict.imp (fun hab e => by rw [e] at hab; omega)
  have hinj : ∀ a ∈ sort_by_id m, ∀ b ∈ sort_by_id m,
      id_handle_line a = id_handle_line b → a = b := by
    intro a ha b hb hab
    have h1 : a.1 = b.1 := id_handle_line_id a.1 b.1 a.2 b.2 hab
    have hfa := (umap_find_eq_some_iff m h a.1 a.2).2 (hperm.mem_iff.1 ha)
    have hfb := (umap_find_eq_some_iff m h b.1 b.2).2 (hperm.mem_iff.1 hb)
    rw [h1, hfb] at hfa
    exact Prod.ext h1 (Option.some.inj hfa).symm
  refine ⟨?_, sort_by_id m, hperm, hstrict, rfl, (List.nodup_map_iff_inj_on hnd).2 hinj, ?_⟩
  · unfold id_handle_listing id_handle_vec
    rw [List.length_map, hperm.length_eq]
  · intro k v
    rw [umap_find_eq_some_iff m h]
    unfold id_handle_listing id_handle_vec
    rw [List.mem_map]
    constructor
    · intro hkv
      exact ⟨(k, v), hperm.mem_iff.2 hkv, rfl⟩
    · rintro ⟨p, hp, hline⟩
      have h1 : p.1 = k := id_handle_line_id p.1 k p.2 v hline
      have h2 : p.2 = v := by
        unfold id_handle_line at hline
        rw [h1] at hline
        simpa using hline
      rw [← h1, ← h2]
      exact hperm.mem_iff.1 hp

theorem id_handle_listing_sorted_witness :
    umap_wf [((7 : Int), "B".toList), (-2, "A".toList)] ∧
      (id_handle_listing [((7 : Int), "B".toList), (-2, "A".toList)]).length = 2 :=
  ⟨by unfold umap_wf; decide, (id_handle_listing_sorted _ (by unfold umap_wf; decide)).1⟩

/-- C7: for every `id_to_handle` map and `id_to_name` map, the name table has exactly
one line for each id that is a key of both maps, in ascending order of id, and
nothing else; the line of an id is its handle, a `#`, its name and a `#`.  An id with
a handle and no name has its line, the decimal id, a space and the handle, in the
ID-handle listing and none in the name table; an id without a handle has no line in
either listing. -/
theorem name_table_listing_spec (id_to_handle id_to_name : IdMap) (h : umap_wf id_to_handle) :
    ∃ ids : List Int, ids.Pairwise (fun a b => a < b) ∧
      (∀ id, id ∈ ids ↔
        (umap_find id_to_handle id).isSome = true ∧ (umap_find id_to_name id).isSome = true) ∧
      name_table_listing id_to_handle id_to_name =
        ids.map (fun id => (umap_find id_to_handle id).getD [] ++
          '#' :: (umap_find id_to_name id).getD [] ++ ['#']) ∧
      (∀ id handle, umap_find id_to_handle id = some handle → umap_find id_to_name id = none →
        show_int id ++ ' ' :: handle ∈ id_handle_listing id_to_handle ∧ id ∉ ids) ∧
      (∀ id, umap_find id_to_handle id = none →
        id ∉ ids ∧ ∀ handle, show_int id ++ ' ' :: handle ∉ id_handle_listing id_to_handle) := by
  have hperm := sort_by_id_perm id_to_handle
  have hstrict := sort_by_id_strict id_to_handle h
  have hmem : ∀ id, id ∈ ((sort_by_id id_to_handle).filter
      (fun p => (umap_find id_to_name p.1).isSome)).map Prod.fst ↔
        (umap_find id_to_handle id).isSome = true ∧ (umap_find id_to_name id).isSome = true := by
    intro id
    rw [umap_find_isSome_iff id_to_handle, List.mem_map, List.mem_map]
    constructor
    · rintro ⟨p, hp, rfl⟩
      rw [List.mem_filter] at hp
      exact ⟨⟨p, hperm.mem_iff.1 hp.1, rfl⟩, hp.2⟩
    · rintro ⟨⟨p, hp, rfl⟩, hn⟩
      exact ⟨p, List.mem_filter.2 ⟨hperm.mem_iff.2 hp, hn⟩, rfl⟩
  refine ⟨((sort_by_id id_to_handle).filter
    (fun p => (umap_find id_to_name p.1).isSome)).map Prod.fst, ?_, hmem, ?_, ?_, ?_⟩
  · rw [List.pairwise_map]
    exact hstrict.sublist (List.filter_sublist _)
  · unfold name_table_listing id_handle_vec
    rw [name_table_lines_eq, List.map_map]
    apply List.map_congr_left
    intro p hp
    have hp1 : p ∈ id_to_handle := hperm.mem_iff.1 (List.mem_filter.1 hp).1
    have := (umap_find_eq_some_iff id_to_handle h p.1 p.2).2 hp1
    simp [this, name_table_line]
  · intro id handle hh hn
    constructor
    · unfold id_handle_listing id_handle_vec
      exact List.mem_map_of_mem id_handle_line (hperm.mem_iff.2 (umap_find_mem _ _ _ hh))
    · rw [hmem, hn]
      simp
  · intro id hh
    constructor
    · rw [hmem, hh]
      simp
    · intro handle hline
      have hline : id_handle_line (id, handle) ∈ id_handle_listing id_to_handle := hline
      unfold id_handle_listing id_handle_vec at hline
      rw [List.mem_map] at hline
      obtain ⟨p, hp, hpl⟩ := hline
      have h1 : p.1 = id := id_handle_line_id p.1 id p.2 handle hpl
      have := (umap_find_eq_some_iff id_to_handle h p.1 p.2).2 (hperm.mem_iff.1 hp)
      rw [h1, hh] at this
      exact absurd this (by simp)

/-- Witness for C7: the ids 1, 2, 5 have handles and the ids 3, 5, 1 have names; the
name table has the lines of 1 and 5, in this order, and the id 2 has its line in the
ID-handle listing only. -/
theorem name_table_listing_spec_witness :
    umap_wf [((2 : Int), "B".toList), (1, "A".toList), (5, "C".toList)] ∧
      name_table_listing [((2 : Int), "B".toList), (1, "A".toList), (5, "C".toList)]
          [((3 : Int), "z".toList), (5, "w".toList), (1, "x".toList)] =
        ["A#x#".toList, "C#w#".toList] ∧
      "2 B".toList ∈ id_handle_listing [((2 : Int), "B".toList), (1, "A".toList), (5, "C".toList)] := by
  obtain ⟨ids, hsort, hmem, hlist, hom, -⟩ := name_table_listing_spec
    [((2 : Int), "B".toList), (1, "A".toList), (5, "C".toList)]
    [((3 : Int), "z".toList), (5, "w".toList), (1, "x".toList)] (by unfold umap_wf; decide)
  have h1 : (1 : Int) ∈ ids := (hmem 1).2 (by decide)
  have h5 : (5 : Int) ∈ ids := (hmem 5).2 (by decide)
  have hlen : ids.length = 2 := by
    have := congrArg List.length hlist
    rw [List.length_map] at this
    rw [← this]
    decide
  have hids : ids = [1, 5] := by
    rcases ids with _ | ⟨a, _ | ⟨b, _ | ⟨c, r⟩⟩⟩
    · simp at hlen
    · simp at hlen
    · simp only [List.pairwise_cons, List.mem_cons, List.mem_singleton, List.not_mem_nil,
        false_or, or_false, forall_eq_or_imp, forall_eq] at hsort h1 h5
      have hab : a < b := hsort.1
      have : a = 1 ∧ b = 5 := by omega
      rw [this.1, this.2]
    · simp at hlen
  refine ⟨by unfold umap_wf; decide, ?_, (hom 2 "B".toList (by decide) (by decide)).1⟩
  rw [hlist, hids]
  decide

/-- C8: in a single-entry block `\x7b A = v \x7d` the literal `10` records `A` with id 10,
`0x1F` with id 31 and `010` with id 8, and `abc` records nothing: the function
returns 0 and both maps are unchanged. -/
theorem parse_skid_block_numeric_literals (h : HandleMap) (i : IdMap) :
    parse_skid_block "\x7b A = 10 \x7d".toList h i =
      (1, umap_set h "A".toList 10, umap_set i 10 "A".toList) ∧
    parse_skid_block "\x7b A = 0x1F \x7d".toList h i =
      (1, umap_set h "A".toList 31, umap_set i 31 "A".toList) ∧
    parse_skid_block "\x7b A = 010 \x7d".toList h i =
      (1, umap_set h "A".toList 8, umap_set i 8 "A".toList) ∧
    parse_skid_block "\x7b A = abc \x7d".toList h i = (0, h, i) := by
  have e1 : locate_block "\x7b A = 10 \x7d".toList = some " A = 10 ".toList := by decide
  have e2 : locate_block "\x7b A = 0x1F \x7d".toList = some " A = 0x1F ".toList := by decide
  have e3 : locate_block "\x7b A = 010 \x7d".toList = some " A = 010 ".toList := by decide
  have e4 : locate_block "\x7b A = abc \x7d".toList = some " A = abc ".toList := by decide
  have s1 : split_entries " A = 10 ".toList [] [] = ["A = 10".toList] := by decide
  have s2 : split_entries " A = 0x1F ".toList [] [] = ["A = 0x1F".toList] := by decide
  have s3 : split_entries " A = 010 ".toList [] [] = ["A = 010".toList] := by decide
  have s4 : split_entries " A = abc ".toList [] [] = ["A = abc".toList] := by decide
  have p1 : parse_entry "A = 10".toList = some ("A".toList, 10) := by decide
  have p2 : parse_entry "A = 0x1F".toList = some ("A".toList, 31) := by decide
  have p3 : parse_entry "A = 010".toList = some ("A".toList, 8) := by decide
  have p4 : parse_entry "A = abc".toList = none := by decide
  refine ⟨?_, ?_, ?_, ?_⟩
  · simp only [parse_skid_block, e1, s1, List.foldl_cons, List.foldl_nil, process_entry, p1,
      zero_add]
  · simp only [parse_skid_block, e2, s2, List.foldl_cons, List.foldl_nil, process_entry, p2,
      zero_add]
  · simp only [parse_skid_block, e3, s3, List.foldl_cons, List.foldl_nil, process_entry, p3,
      zero_add]
  · simp only [parse_skid_block, e4, s4, List.foldl_cons, List.foldl_nil, process_entry, p4]

/-- C9: on the comment-stripped enumeration text `t`, `load_ids_from_lub` returns
`false` exactly when `t` does not contain `SKID`, or there is no opening brace at or
after the first `SKID`, or the depth counted from the first such brace never returns
to zero, or no entry of the block body parses to a (name, number) pair; whenever it
returns `false`, both maps are unchanged. -/
theorem load_ids_from_lub_fails_iff (raw : Str) (h : HandleMap) (i : IdMap) :
    ((load_ids_from_lub raw h i).1 = false ↔
      (¬ SKID_marker <:+: strip_lua_comments raw) ∨
      (∃ p, first_occurrence (strip_lua_comments raw) SKID_marker p ∧
        '\x7b' ∉ (strip_lua_comments raw).drop p) ∨
      (∃ p b, first_occurrence (strip_lua_comments raw) SKID_marker p ∧
        first_char_from (strip_lua_comments raw) '\x7b' p b ∧
        ∀ j, b < j → j < (strip_lua_comments raw).length →
          depth_at (strip_lua_comments raw) b j ≠ 0) ∨
      (∃ p b rb, first_occurrence (strip_lua_comments raw) SKID_marker p ∧
        first_char_from (strip_lua_comments raw) '\x7b' p b ∧
        closes_at (strip_lua_comments raw) b rb ∧
        ∀ e ∈ split_entries (substr (strip_lua_comments raw) (b + 1) (rb - b - 1)) [] [],
          parse_entry e = none)) ∧
    ((load_ids_from_lub raw h i).1 = false → (load_ids_from_lub raw h i).2 = (h, i)) := by
  generalize ht : strip_lua_comments raw = t
  have hload : load_ids_from_lub raw h i =
      match find_str t SKID_marker 0 with
      | none => (false, h, i)
      | some p =>
        match find_char t '\x7b' p with
        | none => (false, h, i)
        | some brace =>
          let r := parse_skid_block (substr_from t brace) h i
          (decide (0 < r.1), r.2.1, r.2.2) := by
    unfold load_ids_from_lub
    simp only [ht]
  rw [hload]
  cases hf : find_str t SKID_marker 0 with
  | none =>
    simp only
    refine ⟨⟨fun _ => Or.inl ((find_str_zero_eq_none _ _).1 hf), fun _ => by simp⟩, fun _ => by simp⟩
  | some p =>
    have hp := (find_str_zero_eq_some _ _ _).1 hf
    have hin : SKID_marker <:+: t := (infix_iff_prefix_drop _ _).2 ⟨p, hp.1, hp.2.1⟩
    have hpu : ∀ p1, first_occurrence t SKID_marker p1 → p1 = p := by
      intro p1 h1
      have := (find_str_zero_eq_some _ _ _).2 h1
      rw [hf] at this
      exact (Option.some.inj this).symm
    simp only
    cases hc : find_char t '\x7b' p with
    | none =>
      simp only
      refine ⟨⟨fun _ => Or.inr (Or.inl ⟨p, hp, (find_char_eq_none _ _ _).1 hc⟩), fun _ => by simp⟩,
        fun _ => by simp⟩
    | some b =>
      have hb := (find_char_eq_some _ _ _ _).1 hc
      have hbu : ∀ b1, first_char_from t '\x7b' p b1 → b1 = b := by
        intro b1 h1
        have := (find_char_eq_some _ _ _ _).2 h1
        rw [hc] at this
        exact (Option.some.inj this).symm
      have hmem : '\x7b' ∈ t.drop p := by
        have hnn : find_char t '\x7b' p ≠ none := by rw [hc]; simp
        by_contra hcon
        exact hnn ((find_char_eq_none _ _ _).2 hcon)
      simp only
      rw [parse_skid_block_drop t b hb.2.1]
      cases hm : match_brace t b with
      | none =>
        simp only
        have hnz := (match_brace_eq_none t b hb.2.1).1 hm
        refine ⟨⟨fun _ => Or.inr (Or.inr (Or.inl ⟨p, b, hp, hb, hnz⟩)), fun _ => by simp⟩,
          fun _ => by simp⟩
      | some rb =>
        have hrb := (match_brace_eq_some t b rb hb.2.1).1 hm
        have hru : ∀ r1, closes_at t b r1 → r1 = rb := by
          intro r1 h1
          have := (match_brace_eq_some t b r1 hb.2.1).2 h1
          rw [hm] at this
          exact (Option.some.inj this).symm
        simp only
        have key1 := process_entries_count_zero
          (split_entries (substr t (b + 1) (rb - b - 1)) [] []) h i
        have key2 := process_entries_none
          (split_entries (substr t (b + 1) (rb - b - 1)) [] []) (0, h, i)
        constructor
        · constructor
          · intro hfalse
            simp only [decide_eq_false_iff_not, not_lt, Nat.le_zero_eq] at hfalse
            exact Or.inr (Or.inr (Or.inr ⟨p, b, rb, hp, hb, hrb, key1 hfalse⟩))
          · rintro (h1 | ⟨p1, h1, h2⟩ | ⟨p1, b1, h1, h2, h3⟩ | ⟨p1, b1, r1, h1, h2, h3, h4⟩)
            · exact absurd hin h1
            · rw [hpu p1 h1] at h2
              exact absurd hmem h2
            · rw [hpu p1 h1] at h2
              rw [hbu b1 h2] at h3
              exact absurd hrb.2.2.1 (h3 rb hrb.1 hrb.2.1)
            · rw [hpu p1 h1] at h2
              rw [hbu b1 h2] at h3 h4
              rw [hru r1 h3] at h4
              simp [key2 h4]
        · intro hfalse
          simp only [decide_eq_false_iff_not, not_lt, Nat.le_zero_eq] at hfalse
          simp [key2 (key1 hfalse)]

theorem load_ids_from_lub_fails_iff_witness :
    (load_ids_from_lub "SKID = \x7b A \x7d".toList [("Z".toList, 1)] [(1, "Z".toList)]).1 = false ∧
      (load_ids_from_lub "SKID = \x7b A \x7d".toList [("Z".toList, 1)] [(1, "Z".toList)]).2 =
        ([("Z".toList, 1)], [(1, "Z".toList)]) :=
  ⟨by decide, (load_ids_from_lub_fails_iff _ _ _).2 (by decide)⟩

/-- C10: brace block location by depth counting.  From any position `lb` that holds an
opening brace (the scan of `parse_skid_block` and of the record scanner), if some
later position brings the depth counted from `lb` back to zero, the scan returns the
smallest such position `rb`, and the text strictly between `lb` and `rb` is
brace-balanced; if no position does, the scan finds nothing.  `parse_skid_block`
starts from the first opening brace of the text, takes the text strictly between
`lb` and `rb` as the body, and returns 0 with both maps untouched when the text has
no opening brace or the depth never returns to zero. -/
theorem brace_block_location (text : Str) :
    (∀ lb, text[lb]? = some '\x7b' →
      (∀ j, lb < j → j < text.length → depth_at text lb j = 0 →
        ∃ rb, rb ≤ j ∧ closes_at text lb rb ∧ match_brace text lb = some rb ∧
          brace_balanced (substr text (lb + 1) (rb - lb - 1))) ∧
      ((∀ j, lb < j → j < text.length → depth_at text lb j ≠ 0) →
        match_brace text lb = none)) ∧
    (∀ lb, first_char_from text '\x7b' 0 lb →
      (∀ rb, closes_at text lb rb →
        locate_block text = some (substr text (lb + 1) (rb - lb - 1)) ∧
        ∀ h i, parse_skid_block text h i =
          (split_entries (substr text (lb + 1) (rb - lb - 1)) [] []).foldl process_entry
            (0, h, i)) ∧
      ((∀ j, lb < j → j < text.length → depth_at text lb j ≠ 0) →
        locate_block text = none ∧ ∀ h i, parse_skid_block text h i = (0, h, i))) ∧
    ('\x7b' ∉ text →
      locate_block text = none ∧ ∀ h i, parse_skid_block text h i = (0, h, i)) := by
  refine ⟨?_, ?_, ?_⟩
  · intro lb hlb
    constructor
    · intro j h1 h2 hz
      cases hm : match_brace text lb with
      | none => exact absurd hz ((match_brace_eq_none text lb hlb).1 hm j h1 h2)
      | some rb =>
        have hc := (match_brace_eq_some text lb rb hlb).1 hm
        refine ⟨rb, ?_, hc, rfl, closes_at_balanced text lb rb hlb hc⟩
        by_contra hlt
        exact hc.2.2.2 j h1 (by omega) hz
    · exact (match_brace_eq_none text lb hlb).2
  · intro lb hfirst
    have hfind := (find_char_eq_some text '\x7b' 0 lb).2 hfirst
    constructor
    · intro rb hc
      have hm := (match_brace_eq_some text lb rb hfirst.2.1).2 hc
      have hloc : locate_block text = some (substr text (lb + 1) (rb - lb - 1)) := by
        unfold locate_block
        rw [hfind]
        simp only [hm]
      refine ⟨hloc, ?_⟩
      intro h i
      unfold parse_skid_block
      rw [hloc]
    · intro hnz
      have hm := (match_brace_eq_none text lb hfirst.2.1).2 hnz
      have hloc : locate_block text = none := by
        unfold locate_block
        rw [hfind]
        simp only [hm]
      refine ⟨hloc, ?_⟩
      intro h i
      unfold parse_skid_block
      rw [hloc]
  · intro hno
    have hfind : find_char text '\x7b' 0 = none :=
      (find_char_eq_none text '\x7b' 0).2 (by simpa using hno)
    have hloc : locate_block text = none := by
      unfold locate_block
      rw [hfind]
    refine ⟨hloc, ?_⟩
    intro h i
    unfold parse_skid_block
    rw [hloc]

theorem brace_block_location_witness :
    locate_block "x\x7ba\x7bb\x7dc\x7dy\x7d".toList = some "a\x7bb\x7dc".toList ∧
      brace_balanced "a\x7bb\x7dc".toList := by
  have h := brace_block_location "x\x7ba\x7bb\x7dc\x7dy\x7d".toList
  have hfirst : first_char_from "x\x7ba\x7bb\x7dc\x7dy\x7d".toList '\x7b' 0 1 :=
    (find_char_eq_some _ _ _ _).1 (by decide)
  obtain ⟨rb, hrb, hc, hm, hbal⟩ := (h.1 1 (by decide)).1 7 (by decide) (by decide) (by decide)
  have hrb7 : rb = 7 := by
    have h7 : match_brace "x\x7ba\x7bb\x7dc\x7dy\x7d".toList 1 = some 7 := by decide
    rw [h7] at hm
    exact (Option.some.inj hm).symm
  subst hrb7
  exact ⟨((h.2.1 1 hfirst).1 7 hc).1, hbal⟩

/-! ### Block comments -/

theorem strip_block_comments_cons (a : Char) (l : Str) (h : ¬ block_open_marker <+: a :: l) :
    strip_block_comments false (a :: l) = a :: strip_block_comments false l := by
  match l with
  | b :: c :: d :: r =>
    rw [strip_block_comments, if_neg]
    rintro ⟨rfl, rfl, rfl, rfl⟩
    exact h ⟨r, rfl⟩
  | [] => simp [strip_block_comments]
  | [b] => simp [strip_block_comments]
  | [b, c] => simp [strip_block_comments]

theorem strip_block_comments_marker (l : Str) :
    strip_block_comments false (block_open_marker ++ l) = strip_block_comments true l := by
  show strip_block_comments false ('-' :: '-' :: '[' :: '[' :: l) = _
  rw [strip_block_comments, if_pos ⟨rfl, rfl, rfl, rfl⟩]

/-- The outer loop copies a text without `--` that is not followed by `-[[`. -/
theorem strip_block_comments_append (A rest : Str) (hA : ¬ dashes <:+: A)
    (hrest : A.getLast? = some '-' → ¬ ['-', '[', '['] <+: rest) :
    strip_block_comments false (A ++ rest) = A ++ strip_block_comments false rest := by
  induction A with
  | nil => rfl
  | cons a A ih =>
    rw [dashes_infix_cons] at hA
    push_neg at hA
    have hnm : ¬ block_open_marker <+: a :: (A ++ rest) := by
      rintro ⟨t, ht⟩
      simp only [block_open_marker, List.cons_append, List.nil_append, List.cons.injEq] at ht
      obtain ⟨ha, ht⟩ := ht
      cases A with
      | nil =>
        apply hrest (by rw [← ha]; rfl)
        rw [List.nil_append] at ht
        exact ⟨t, by rw [← ht]; rfl⟩
      | cons b A =>
        simp only [List.cons_append, List.cons.injEq] at ht
        exact hA.1 ha.symm (by rw [← ht.1]; rfl)
    rw [List.cons_append, strip_block_comments_cons a _ hnm, ih hA.2]
    · rfl
    · intro hl
      apply hrest
      cases A with
      | nil => simp at hl
      | cons b A => rw [List.getLast?_cons_cons]; exact hl

theorem close_infix_cons (a : Char) (l : Str) :
    block_close_marker <:+: a :: l ↔ (a = ']' ∧ l.head? = some ']') ∨ block_close_marker <:+: l := by
  rw [List.infix_cons_iff]
  constructor
  · rintro (h | h)
    · left
      obtain ⟨t, ht⟩ := h
      simp [block_close_marker] at ht
      obtain ⟨h1, h2⟩ := ht
      subst h1; subst h2; simp
    · right; exact h
  · rintro (⟨h1, h2⟩ | h)
    · left
      cases l with
      | nil => simp at h2
      | cons b r =>
        simp at h2; subst h1; subst h2
        exact ⟨r, rfl⟩
    · right; exact h

/-- The inner loop up to the close marker: every character is blanked and the
marker becomes two spaces. -/
theorem strip_block_comments_terminated (C B : Str) (hC : ¬ block_close_marker <:+: C)
    (hCe : C.getLast? ≠ some ']') :
    strip_block_comments true (C ++ ']' :: ']' :: B) =
      C.map blank ++ ' ' :: ' ' :: strip_block_comments false B := by
  induction C with
  | nil =>
    rw [List.nil_append, strip_block_comments, if_pos ⟨rfl, rfl⟩]
    rfl
  | cons c C ih =>
    rw [close_infix_cons] at hC
    push_neg at hC
    cases C with
    | nil =>
      have hc : c ≠ ']' := fun e => hCe (by rw [e]; rfl)
      rw [List.cons_append, List.nil_append, strip_block_comments, if_neg (fun e => hc e.1)]
      have := ih (by simp [block_close_marker]) (by simp)
      rw [List.nil_append] at this
      rw [this]
      rfl
    | cons d C =>
      have hcd : ¬ (c = ']' ∧ d = ']') := fun e => hC.1 e.1 (by rw [e.2]; rfl)
      rw [List.cons_append, List.cons_append, strip_block_comments, if_neg hcd]
      have := ih hC.2 (by rw [List.getLast?_cons_cons] at hCe; exact hCe)
      rw [List.cons_append] at this
      rw [this]
      rfl

/-- The inner loop without a close marker: every character but the last is
blanked, and the last one is copied by the outer loop. -/
theorem strip_block_comments_unterminated (R : Str) (hR : ¬ block_close_marker <:+: R) :
    strip_block_comments true R = R.dropLast.map blank ++ R.getLast?.toList := by
  induction R with
  | nil => rfl
  | cons c R ih =>
    rw [close_infix_cons] at hR
    push_neg at hR
    cases R with
    | nil => rfl
    | cons d R =>
      have hcd : ¬ (c = ']' ∧ d = ']') := fun e => hR.1 e.1 (by rw [e.2]; rfl)
      rw [strip_block_comments, if_neg hcd, ih hR.2, List.dropLast_cons₂, List.getLast?_cons_cons]
      rfl

theorem no_dashes_append (X Y : Str) (hX : ¬ dashes <:+: X) (hY : ¬ dashes <:+: Y)
    (hXY : X.getLast? = some '-' → Y.head? ≠ some '-') : ¬ dashes <:+: X ++ Y := by
  induction X with
  | nil => exact hY
  | cons a X ih =>
    rw [dashes_infix_cons] at hX
    push_neg at hX
    rw [List.cons_append, dashes_infix_cons]
    push_neg
    constructor
    · intro ha
      cases X with
      | nil => exact hXY (by rw [ha]; rfl)
      | cons b X => simpa using hX.1 ha
    · apply ih hX.2
      intro hl
      apply hXY
      cases X with
      | nil => simp at hl
      | cons b X => rw [List.getLast?_cons_cons]; exact hl

theorem blank_ne_dash (c : Char) : blank c ≠ '-' := by
  unfold blank
  split <;> decide

/-! ### Newlines under comment stripping -/

theorem newline_count_cons (c : Char) (s : Str) :
    newline_count (c :: s) = (if c = '\n' then 1 else 0) + newline_count s := by
  unfold newline_count
  by_cases h : c = '\n'
  · subst h; simp; omega
  · rw [List.count_cons_of_ne (fun e => h e.symm)]; simp [h]

theorem newline_count_blank (c : Char) (s t : Str) (h : newline_count s = newline_count t) :
    newline_count (blank c :: s) = newline_count (c :: t) := by
  rw [newline_count_cons, newline_count_cons, h]
  unfold blank
  by_cases hc : c = '\n'
  · simp [hc]
  · simp [hc]

theorem strip_block_comments_newlines_aux (n : Nat) :
    ∀ (b : Bool) (s : Str), s.length ≤ n →
      newline_count (strip_block_comments b s) = newline_count s := by
  induction n with
  | zero =>
    intro b s hs
    have : s = [] := List.length_eq_zero.1 (by omega)
    subst this
    cases b <;> rfl
  | succ n ih =>
    intro b s hs
    cases b with
    | false =>
      match s, hs with
      | [], _ => rfl
      | a :: l, hs =>
        by_cases hm : block_open_marker <+: a :: l
        · obtain ⟨r, hr⟩ := hm
          rw [← hr, strip_block_comments_marker, ih true r (by
            have := congrArg List.length hr
            simp [block_open_marker] at this hs
            omega)]
          simp [newline_count, block_open_marker, List.count_cons]
        · rw [strip_block_comments_cons a l hm, newline_count_cons, newline_count_cons,
            ih false l (by simp at hs; omega)]
    | true =>
      match s, hs with
      | [], _ => rfl
      | [a], _ => rfl
      | a :: c :: r, hs =>
        rw [strip_block_comments]
        split
        · rename_i hac
          obtain ⟨rfl, rfl⟩ := hac
          simp only [newline_count_cons]
          rw [ih false r (by simp at hs; omega)]
          simp
        · exact newline_count_blank a _ _ (ih true (c :: r) (by simp at hs ⊢; omega))

/-- The first pass keeps the number of newlines. -/
theorem strip_block_comments_newlines (b : Bool) (s : Str) :
    newline_count (strip_block_comments b s) = newline_count s :=
  strip_block_comments_newlines_aux s.length b s (le_refl _)

theorem strip_block_comments_getLast_aux (n : Nat) :
    ∀ (b : Bool) (s : Str), s.length ≤ n → s.getLast? = some '\n' →
      (strip_block_comments b s).getLast? = some '\n' := by
  induction n with
  | zero =>
    intro b s hs hl
    have : s = [] := List.length_eq_zero.1 (by omega)
    subst this
    simp at hl
  | succ n ih =>
    intro b s hs hl
    have hcons : ∀ (a : Char) (x y : Str), (a :: x).getLast? = some '\n' →
        (x ≠ [] → y.getLast? = some '\n') → (x = [] → y = []) →
        (a :: y).getLast? = some '\n' := by
      intro a x y h1 h2 h3
      cases x with
      | nil => rw [h3 rfl]; exact h1
      | cons b x =>
        have hy := h2 (by simp)
        cases y with
        | nil => simp at hy
        | cons c y =>
          rw [List.getLast?_cons_cons]
          exact hy
    cases b with
    | false =>
      match s, hs, hl with
      | [], _, hl => simp at hl
      | a :: l, hs, hl =>
        by_cases hm : block_open_marker <+: a :: l
        · obtain ⟨r, hr⟩ := hm
          rw [← hr, strip_block_comments_marker]
          have hlen : r.length ≤ n := by
            have := congrArg List.length hr
            simp [block_open_marker] at this hs
            omega
          cases r with
          | nil =>
            rw [← hr] at hl
            simp [block_open_marker] at hl
          | cons c r =>
            apply ih true _ hlen
            rw [← hr] at hl
            simpa [block_open_marker] using hl
        · rw [strip_block_comments_cons a l hm]
          apply hcons a l _ hl
          · intro hne
            apply ih false l (by simp at hs; omega)
            cases l with
            | nil => exact absurd rfl hne
            | cons b l => rw [List.getLast?_cons_cons] at hl; exact hl
          · intro he; rw [he]; rfl
    | true =>
      match s, hs, hl with
      | [], _, hl => simp at hl
      | [a], _, hl => exact hl
      | a :: c :: r, hs, hl =>
        rw [List.getLast?_cons_cons] at hl
        rw [strip_block_comments]
        split
        · rename_i hac
          obtain ⟨rfl, rfl⟩ := hac
          cases r with
          | nil => simp at hl
          | cons d r =>
            rw [List.getLast?_cons_cons] at hl
            have := ih false (d :: r) (by simp at hs ⊢; omega) hl
            cases hs2 : strip_block_comments false (d :: r) with
            | nil => rw [hs2] at this; simp at this
            | cons e x =>
              rw [hs2] at this
              rw [List.getLast?_cons_cons, List.getLast?_cons_cons]
              exact this
        · have := ih true (c :: r) (by simp at hs ⊢; omega) hl
          cases hs2 : strip_block_comments true (c :: r) with
          | nil => rw [hs2] at this; simp at this
          | cons e x =>
            rw [hs2] at this
            rw [List.getLast?_cons_cons]
            exact this

/-- The first pass keeps a final newline. -/
theorem strip_block_comments_getLast (b : Bool) (s : Str) (h : s.getLast? = some '\n') :
    (strip_block_comments b s).getLast? = some '\n' :=
  strip_block_comments_getLast_aux s.length b s (le_refl _) h

/-- The second pass, from either state of the scan (`k = 1` inside a line comment,
whose newline is already written): at most one newline is added, and none when the
text ends with a newline. -/
theorem strip_line_comments_newlines (b : Bool) (t : Str) :
    (newline_count (strip_line_comments b t) + (if b then 1 else 0) = newline_count t ∨
      newline_count (strip_line_comments b t) + (if b then 1 else 0) = newline_count t + 1) ∧
    (t.getLast? = some '\n' →
      newline_count (strip_line_comments b t) + (if b then 1 else 0) = newline_count t) := by
  induction t generalizing b with
  | nil =>
    cases b
    · exact ⟨Or.inl rfl, fun _ => rfl⟩
    · exact ⟨Or.inr rfl, fun h => by simp at h⟩
  | cons a t ih =>
    cases b with
    | true =>
      rw [strip_line_comments]
      by_cases ha : a = '\n'
      · subst ha
        simp only [if_true, newline_count_cons]
        have := ih false
        simp only [Bool.false_eq_true, if_false, add_zero] at this
        refine ⟨by omega, ?_⟩
        intro hl
        cases t with
        | nil => rfl
        | cons c t =>
          rw [List.getLast?_cons_cons] at hl
          have := this.2 hl
          omega
      · simp only [ha, if_false, newline_count_cons, zero_add]
        have := ih true
        simp only [if_true] at this
        refine ⟨this.1, ?_⟩
        intro hl
        cases t with
        | nil => simp at hl; exact absurd hl ha
        | cons c t =>
          rw [List.getLast?_cons_cons] at hl
          exact this.2 hl
    | false =>
      simp only [Bool.false_eq_true, if_false, add_zero]
      cases t with
      | nil =>
        rw [strip_line_comments]
        exact ⟨Or.inl rfl, fun _ => rfl⟩
      | cons c t =>
        rw [strip_line_comments]
        split
        · rename_i hac
          obtain ⟨rfl, rfl⟩ := hac
          have := ih true
          simp only [if_true] at this
          simp only [newline_count_cons] at this ⊢
          simp only [Char.reduceEq, if_false, if_true, zero_add] at this ⊢
          rw [List.getLast?_cons_cons]
          constructor
          · omega
          · intro hl
            have := this.2 hl
            omega
        · have := ih false
          simp only [Bool.false_eq_true, if_false, add_zero] at this
          rw [newline_count_cons, newline_count_cons a, List.getLast?_cons_cons]
          constructor
          · omega
          · intro hl
            have := this.2 hl
            omega

theorem newline_count_map_blank (C : Str) : newline_count (C.map blank) = newline_count C := by
  induction C with
  | nil => rfl
  | cons c C ih => exact newline_count_blank c _ _ ih

/-! ## Comment stripping: block comments, line structure, removal of comments -/

/-- C13 (as stated) fails: with `A = a` and `R = b`, newline, `c`, the block-comment
pass does not return the text unchanged; the open marker is gone and `b` is blanked. -/
theorem unterminated_block_comment_counterexample :
    ¬ dashes <:+: "a".toList ∧ ¬ block_close_marker <:+: "b\nc".toList ∧
      strip_block_comments false ("a".toList ++ block_open_marker ++ "b\nc".toList) =
        "a \nc".toList ∧
      strip_block_comments false ("a".toList ++ block_open_marker ++ "b\nc".toList) ≠
        "a".toList ++ block_open_marker ++ "b\nc".toList := by
  refine ⟨?_, ?_, ?_, ?_⟩ <;> decide

/-- C13 (amended): on `A ++ --[[ ++ R`, where `A` has no `--` and `R` has no `]]`, the
block-comment pass copies `A`, does not copy the open marker, and replaces every
character of `R` before its last one by whitespace (a newline by a newline, any
other character by a space); at most one further character follows. -/
theorem unterminated_block_comment (A R : Str) (hA : ¬ dashes <:+: A)
    (hR : ¬ block_close_marker <:+: R) :
    ∃ L : Str, L.length ≤ 1 ∧
      strip_block_comments false (A ++ block_open_marker ++ R) =
        A ++ R.dropLast.map blank ++ L := by
  refine ⟨R.getLast?.toList, ?_, ?_⟩
  · cases R.getLast? <;> simp
  · rw [List.append_assoc, strip_block_comments_append A _ hA (fun _ => by
      simp [block_open_marker]),
      strip_block_comments_marker, strip_block_comments_unterminated R hR, List.append_assoc]

theorem unterminated_block_comment_witness :
    ∃ L : Str, L.length ≤ 1 ∧
      strip_block_comments false ("x = 1 ".toList ++ block_open_marker ++ "note\nmore".toList) =
        "x = 1 ".toList ++ ("note\nmore".toList).dropLast.map blank ++ L :=
  unterminated_block_comment "x = 1 ".toList "note\nmore".toList (by decide) (by decide)

/-- C16: on `A ++ --[[ ++ C ++ ]] ++ B`, where `A` and `B` have no `--`, and `C` has no
`]]` and does not end with `]`, `strip_lua_comments` returns `A ++ W ++ B`, where `W`
is the image of `C` under (newline to newline, any other character to a space)
followed by two spaces: `W` is whitespace only and has the newlines of `C`. -/
theorem terminated_block_comment (A C B : Str) (hA : ¬ dashes <:+: A) (hB : ¬ dashes <:+: B)
    (hC : ¬ block_close_marker <:+: C) (hCe : C.getLast? ≠ some ']') :
    strip_lua_comments (A ++ block_open_marker ++ C ++ block_close_marker ++ B) =
      A ++ (C.map blank ++ [' ', ' ']) ++ B ∧
    (∀ c ∈ C.map blank ++ [' ', ' '], c = ' ' ∨ c = '\n') ∧
    newline_count (C.map blank ++ [' ', ' ']) = newline_count C := by
  have hW : ∀ c ∈ C.map blank ++ [' ', ' '], c = ' ' ∨ c = '\n' := by
    intro c hc
    simp only [List.mem_append, List.mem_map, List.mem_cons, List.mem_singleton,
      List.not_mem_nil, or_false, or_self] at hc
    rcases hc with ⟨d, -, rfl⟩ | rfl
    · unfold blank
      split
      · right; rfl
      · left; rfl
    · left; rfl
  have hWd : ¬ dashes <:+: C.map blank ++ [' ', ' '] := by
    intro hin
    obtain ⟨s, t, hst⟩ := hin
    have hmem : '-' ∈ C.map blank ++ [' ', ' '] := by
      rw [← hst]; simp [dashes]
    rcases hW '-' hmem with h | h <;> exact absurd h (by decide)
  have hpass1 : strip_block_comments false
      (A ++ block_open_marker ++ C ++ block_close_marker ++ B) =
        A ++ (C.map blank ++ [' ', ' ']) ++ B := by
    have hshape : A ++ block_open_marker ++ C ++ block_close_marker ++ B =
        A ++ (block_open_marker ++ (C ++ ']' :: ']' :: B)) := by
      simp [block_close_marker]
    rw [hshape, strip_block_comments_append A _ hA (fun _ => by simp [block_open_marker]),
      strip_block_comments_marker, strip_block_comments_terminated C B hC hCe,
      strip_block_comments_of_no_dashes B hB]
    simp
  refine ⟨?_, hW, ?_⟩
  · unfold strip_lua_comments
    rw [hpass1]
    apply strip_line_comments_of_no_dashes
    apply no_dashes_append _ _ _ hB
    · intro hl
      rw [List.getLast?_append, List.getLast?_append] at hl
      simp at hl
    · apply no_dashes_append _ _ hA hWd
      intro _ hh
      have hmem : '-' ∈ C.map blank ++ [' ', ' '] := List.mem_of_mem_head? hh
      rcases hW '-' hmem with h | h <;> exact absurd h (by decide)
  · have happ : newline_count (C.map blank ++ [' ', ' ']) =
        newline_count (C.map blank) + newline_count [' ', ' '] := by
      unfold newline_count
      exact List.count_append _ _ _
    rw [happ, newline_count_map_blank]
    rfl

theorem terminated_block_comment_witness :
    strip_lua_comments ("x = 1 ".toList ++ block_open_marker ++ "a\nb".toList ++
        block_close_marker ++ " y = 2".toList) =
      "x = 1 ".toList ++ (("a\nb".toList).map blank ++ [' ', ' ']) ++ " y = 2".toList :=
  (terminated_block_comment "x = 1 ".toList "a\nb".toList " y = 2".toList (by decide) (by decide)
    (by decide) (by decide)).1

/-- C17: the number of newlines of `strip_lua_comments s` is the number of newlines of
`s` or exactly one more, and it is the same when `s` ends with a newline. -/
theorem strip_lua_comments_newlines (s : Str) :
    (newline_count (strip_lua_comments s) = newline_count s ∨
      newline_count (strip_lua_comments s) = newline_count s + 1) ∧
    (s.getLast? = some '\n' → newline_count (strip_lua_comments s) = newline_count s) := by
  have h1 := strip_block_comments_newlines false s
  have h2 := strip_line_comments_newlines false (strip_block_comments false s)
  simp only [Bool.false_eq_true, if_false, add_zero] at h2
  unfold strip_lua_comments
  rw [h1] at h2
  refine ⟨h2.1, ?_⟩
  intro hl
  exact h2.2 (strip_block_comments_getLast false s hl)

/-- Witness for the second part of C17: a text with two line comments that ends with
a newline keeps its two newlines. -/
theorem strip_lua_comments_newlines_witness :
    newline_count (strip_lua_comments "a \x2d\x2d b\nc \x2d\x2d d\n".toList) =
      newline_count "a \x2d\x2d b\nc \x2d\x2d d\n".toList :=
  (strip_lua_comments_newlines "a \x2d\x2d b\nc \x2d\x2d d\n".toList).2 (by decide)

/-- C18: the output of `strip_lua_comments` contains no `--`, hence no line-comment
marker and no block-open marker `--[[`. -/
theorem strip_lua_comments_no_comment_left (s : Str) :
    ¬ dashes <:+: strip_lua_comments s ∧ ¬ block_open_marker <:+: strip_lua_comments s := by
  have h : ¬ dashes <:+: strip_lua_comments s := strip_line_comments_no_dashes _ _
  refine ⟨h, fun hb => h ?_⟩
  exact List.IsInfix.trans ⟨[], ['[', '['], rfl⟩ hb

/-! ### Progress of the record loop -/

theorem find_char_lt_length (s : Str) (c : Char) (pos b : Nat) (h : find_char s c pos = some b) :
    pos ≤ b ∧ b < s.length ∧ s[b]? = some c := by
  have hf := (find_char_eq_some s c pos b).1 h
  refine ⟨hf.1, ?_, hf.2.1⟩
  by_contra hcon
  have h2 := hf.2.1
  rw [List.getElem?_eq_none (by omega)] at h2
  exact absurd h2 (by simp)

/-- A `continue` of the record loop moves the offset to `rb + 1`, forward and not
past the end of the text. -/
theorem record_step_skip (t : Str) (i i1 : Nat) (h : record_step t i = .skip i1) :
    ∃ lb rb, find_char t '[' i = some lb ∧ find_char t ']' (lb + 1) = some rb ∧
      i1 = rb + 1 ∧ i < i1 ∧ i1 ≤ t.length := by
  unfold record_step at h
  cases h1 : find_char t '[' i with
  | none => rw [h1] at h; simp at h
  | some lb =>
    rw [h1] at h
    simp only at h
    cases h2 : find_char t ']' (lb + 1) with
    | none => rw [h2] at h; simp at h
    | some rb =>
      rw [h2] at h
      simp only at h
      have b1 := find_char_lt_length _ _ _ _ h1
      have b2 := find_char_lt_length _ _ _ _ h2
      have hi1 : i1 = rb + 1 := by
        cases h3 : find_char t '=' (rb + 1) with
        | none => rw [h3] at h; simp at h; exact h.symm
        | some eq =>
          rw [h3] at h
          simp only at h
          cases h4 : find_char t '\x7b' (eq + 1) with
          | none => rw [h4] at h; simp at h; exact h.symm
          | some ob =>
            rw [h4] at h
            simp only at h
            cases h5 : match_brace t ob with
            | none => rw [h5] at h; simp at h
            | some cb => rw [h5] at h; simp at h
      exact ⟨lb, rb, rfl, h2, hi1, by omega, by omega⟩

/-- A matched block moves the offset to `cb + 1`, forward and not past the end of
the text. -/
theorem record_step_record (t : Str) (i i1 : Nat) (key body : Str)
    (h : record_step t i = .record key body i1) :
    ∃ ob cb, i < ob ∧ match_brace t ob = some cb ∧ i1 = cb + 1 ∧ i < i1 ∧ i1 ≤ t.length := by
  unfold record_step at h
  cases h1 : find_char t '[' i with
  | none => rw [h1] at h; simp at h
  | some lb =>
    rw [h1] at h
    simp only at h
    cases h2 : find_char t ']' (lb + 1) with
    | none => rw [h2] at h; simp at h
    | some rb =>
      rw [h2] at h
      simp only at h
      cases h3 : find_char t '=' (rb + 1) with
      | none => rw [h3] at h; simp at h
      | some eq =>
        rw [h3] at h
        simp only at h
        cases h4 : find_char t '\x7b' (eq + 1) with
        | none => rw [h4] at h; simp at h
        | some ob =>
          rw [h4] at h
          simp only at h
          cases h5 : match_brace t ob with
          | none => rw [h5] at h; simp at h
          | some cb =>
            rw [h5] at h
            simp only [RecordStep.record.injEq] at h
            have b1 := find_char_lt_length _ _ _ _ h1
            have b2 := find_char_lt_length _ _ _ _ h2
            have b3 := find_char_lt_length _ _ _ _ h3
            have b4 := find_char_lt_length _ _ _ _ h4
            have hc := (match_brace_eq_some t ob cb b4.2.2).1 h5
            exact ⟨ob, cb, by omega, h5, h.2.2.symm, by have := hc.1; omega,
              by have := hc.2.1; omega⟩

theorem record_step_progress (t : Str) (i : Nat) :
    record_step t i = .stop ∨
      (∃ i1, record_step t i = .skip i1 ∧ i < i1 ∧ i1 ≤ t.length) ∨
      (∃ key body i1, record_step t i = .record key body i1 ∧ i < i1 ∧ i1 ≤ t.length) := by
  cases h : record_step t i with
  | stop => left; rfl
  | skip i1 =>
    obtain ⟨_, _, _, _, _, h1, h2⟩ := record_step_skip t i i1 h
    exact Or.inr (Or.inl ⟨i1, rfl, h1, h2⟩)
  | record key body i1 =>
    obtain ⟨_, _, _, _, _, h1, h2⟩ := record_step_record t i i1 key body h
    exact Or.inr (Or.inr ⟨key, body, i1, rfl, h1, h2⟩)

/-- The record loop breaks before its fuel runs out. -/
theorem scan_halts_of_fuel (t : Str) (fuel i : Nat) (hi : i ≤ t.length)
    (hf : t.length - i < fuel) : scan_halts t fuel i = true := by
  induction fuel generalizing i with
  | zero => omega
  | succ fuel ih =>
    rw [scan_halts]
    rcases record_step_progress t i with h | ⟨i1, h, h1, h2⟩ | ⟨key, body, i1, h, h1, h2⟩
    · rw [h]
    · rw [h]; exact ih i1 h2 (by omega)
    · rw [h]; exact ih i1 h2 (by omega)

/-- More fuel than the record loop needs does not change its result. -/
theorem scan_records_fuel (t : Str) (m : HandleMap) (fuel i k : Nat) (n : IdMap)
    (hi : i ≤ t.length) (hf : t.length - i < fuel) :
    scan_records t m (fuel + k) i n = scan_records t m fuel i n := by
  induction fuel generalizing i n with
  | zero => omega
  | succ fuel ih =>
    rw [show fuel + 1 + k = (fuel + k) + 1 by omega, scan_records, scan_records]
    rcases record_step_progress t i with h | ⟨i1, h, h1, h2⟩ | ⟨key, body, i1, h, h1, h2⟩
    · rw [h]
    · rw [h]; exact ih i1 n h2 (by omega)
    · rw [h]; exact ih i1 _ h2 (by omega)

/-! ## Termination of the record scan -/

/-- C19: the record scan terminates on every text.  An iteration that continues
moves the scan offset strictly forward, to `rb + 1` on a recoverable skip and to
`cb + 1` after a matched block, and never past the end of the text; the loop reaches
a `break` within `length + 1` iterations, and the result of
`load_names_from_skillinfolist_lub` is the same with any larger bound. -/
theorem scan_records_terminates (t : Str) (m : HandleMap) (n : IdMap) :
    (∀ i i1, record_step t i = .skip i1 →
      ∃ lb rb, find_char t '[' i = some lb ∧ find_char t ']' (lb + 1) = some rb ∧
        i1 = rb + 1 ∧ i < i1 ∧ i1 ≤ t.length) ∧
    (∀ i i1 key body, record_step t i = .record key body i1 →
      ∃ ob cb, i < ob ∧ match_brace t ob = some cb ∧ i1 = cb + 1 ∧ i < i1 ∧ i1 ≤ t.length) ∧
    scan_halts t (t.length + 1) 0 = true ∧
    (∀ k, scan_records t m (t.length + 1 + k) 0 n = scan_records t m (t.length + 1) 0 n) :=
  ⟨record_step_skip t, fun i i1 key body => record_step_record t i i1 key body,
    scan_halts_of_fuel t _ 0 (Nat.zero_le _) (by omega),
    fun k => scan_records_fuel t m _ 0 k n (Nat.zero_le _) (by omega)⟩

theorem scan_records_terminates_witness :
    record_step "[a] b".toList 0 = .skip 3 ∧ (0 < 3 ∧ 3 ≤ "[a] b".toList.length) ∧
      record_step "[b] = \x7b \x7d".toList 0 = .record "b".toList " ".toList 9 ∧
      (0 < 9 ∧ 9 ≤ "[b] = \x7b \x7d".toList.length) := by
  have h0 : record_step "[a] b".toList 0 = .skip 3 := by decide
  have h1 : record_step "[b] = \x7b \x7d".toList 0 = .record "b".toList " ".toList 9 := by
    decide
  obtain ⟨_, _, _, _, _, a1, a2⟩ := (scan_records_terminates "[a] b".toList [] []).1 0 3 h0
  obtain ⟨_, _, _, _, _, b1, b2⟩ :=
    (scan_records_terminates "[b] = \x7b \x7d".toList [] []).2.1 0 9 _ _ h1
  exact ⟨h0, ⟨a1, a2⟩, h1, b1, b2⟩

/-! ### The loop of `find_field_string` -/

theorem find_str_eq_some (s pat : Str) (pos q : Nat) :
    find_str s pat pos = some q ↔
      pos ≤ q ∧ q ≤ s.length ∧ pat <+: s.drop q ∧
        ∀ j, pos ≤ j → j < q → ¬ pat <+: s.drop j := by
  unfold find_str
  by_cases hlen : s.length < pos
  · rw [if_pos hlen]
    constructor
    · intro h; exact absurd h (by simp)
    · rintro ⟨h1, h2, -, -⟩; omega
  · rw [if_neg hlen, find_str_aux_eq_some]
    constructor
    · rintro ⟨j, hj, hjl, hpre, hmin⟩
      subst hj
      rw [List.length_drop] at hjl
      rw [List.drop_drop] at hpre
      refine ⟨by omega, by omega, hpre, ?_⟩
      intro j1 h1 h2
      have := hmin (j1 - pos) (by omega)
      rwa [List.drop_drop, show pos + (j1 - pos) = j1 by omega] at this
    · rintro ⟨h1, h2, hpre, hmin⟩
      refine ⟨q - pos, by omega, by rw [List.length_drop]; omega, ?_, ?_⟩
      · rw [List.drop_drop, show pos + (q - pos) = q by omega]; exact hpre
      · intro j1 hj1
        rw [List.drop_drop]
        exact hmin _ (by omega) (by omega)

theorem find_str_eq_none (s pat : Str) (pos : Nat) :
    find_str s pat pos = none ↔ ∀ j, pos ≤ j → j ≤ s.length → ¬ pat <+: s.drop j := by
  constructor
  · intro hnone j h1 h2 hpre
    have hex : ∃ j, pos ≤ j ∧ j ≤ s.length ∧ pat <+: s.drop j := ⟨j, h1, h2, hpre⟩
    classical
    have hspec := Nat.find_spec hex
    have : find_str s pat pos = some (Nat.find hex) := by
      rw [find_str_eq_some]
      refine ⟨hspec.1, hspec.2.1, hspec.2.2, ?_⟩
      intro j1 h3 h4 h5
      exact Nat.find_min hex h4 ⟨h3, by omega, h5⟩
    rw [hnone] at this
    exact absurd this (by simp)
  · intro h
    cases hf : find_str s pat pos with
    | none => rfl
    | some q =>
      have := (find_str_eq_some s pat pos q).1 hf
      exact absurd this.2.2.1 (h q this.1 this.2.1)

theorem word_bounds_iff (body field : Str) (q : Nat) :
    (left_ok body q && right_ok body field q) = true ↔ word_bounds body field q := by
  unfold word_bounds left_ok right_ok
  simp only [List.get?_eq_getElem?, Bool.and_eq_true, Bool.or_eq_true, decide_eq_true_eq]
  constructor
  · rintro ⟨hl, hr⟩
    constructor
    · intro hq c hc
      rcases hl with hl | hl
      · omega
      · rw [hc] at hl
        simpa using hl
    · intro c hc
      rcases hr with hr | hr
      · rw [List.getElem?_eq_none hr] at hc
        exact absurd hc (by simp)
      · rw [hc] at hr
        simpa using hr
  · rintro ⟨hl, hr⟩
    constructor
    · by_cases hq : q = 0
      · left; exact hq
      · right
        cases hc : body[q - 1]? with
        | none => rfl
        | some c => simp [hl (by omega) c hc]
    · right
      cases hc : body[q + field.length]? with
      | none => rfl
      | some c => simp [hr c hc]

theorem find_field_step_eq (body field : Str) (p q : Nat) (hf : find_str body field p = some q) :
    find_field_step body field p =
      if (!left_ok body q || !right_ok body field q) = true then .again (q + field.length)
      else
        match find_char body '=' (q + field.length) with
        | none => .done []
        | some eq =>
          match find_char body '"' (eq + 1) with
          | none => .again (eq + 1)
          | some q1 =>
            match find_char body '"' (q1 + 1) with
            | none => .done []
            | some q2 => .done (substr body (q1 + 1) (q2 - (q1 + 1))) := by
  unfold find_field_step
  rw [hf]
  rfl

/-- The six ways an iteration of the loop of `find_field_string` can go. -/
theorem find_field_step_cases (body field : Str) (p : Nat) :
    (find_str body field p = none ∧ find_field_step body field p = .done []) ∨
    (∃ q, find_str body field p = some q ∧ ¬ word_bounds body field q ∧
      find_field_step body field p = .again (q + field.length)) ∨
    (∃ q, find_str body field p = some q ∧ word_bounds body field q ∧
      find_char body '=' (q + field.length) = none ∧
      find_field_step body field p = .done []) ∨
    (∃ q e, find_str body field p = some q ∧ word_bounds body field q ∧
      find_char body '=' (q + field.length) = some e ∧ find_char body '"' (e + 1) = none ∧
      find_field_step body field p = .again (e + 1)) ∨
    (∃ q e q1, find_str body field p = some q ∧ word_bounds body field q ∧
      find_char body '=' (q + field.length) = some e ∧ find_char body '"' (e + 1) = some q1 ∧
      find_char body '"' (q1 + 1) = none ∧ find_field_step body field p = .done []) ∨
    (∃ q e q1 q2, find_str body field p = some q ∧ word_bounds body field q ∧
      find_char body '=' (q + field.length) = some e ∧ find_char body '"' (e + 1) = some q1 ∧
      find_char body '"' (q1 + 1) = some q2 ∧
      find_field_step body field p = .done (substr body (q1 + 1) (q2 - (q1 + 1)))) := by
  cases hf : find_str body field p with
  | none =>
    left
    refine ⟨rfl, ?_⟩
    unfold find_field_step
    rw [hf]
  | some q =>
    right
    rw [find_field_step_eq body field p q hf]
    have hwb := word_bounds_iff body field q
    by_cases hw : word_bounds body field q
    · have hb := hwb.2 hw
      simp only [Bool.and_eq_true] at hb
      right
      rw [hb.1, hb.2]
      simp only [Bool.not_true, Bool.or_self, Bool.false_eq_true, if_false]
      cases he : find_char body '=' (q + field.length) with
      | none => left; exact ⟨q, rfl, hw, he, rfl⟩
      | some e =>
        right
        simp only
        cases hq1 : find_char body '"' (e + 1) with
        | none => left; exact ⟨q, e, rfl, hw, he, hq1, rfl⟩
        | some q1 =>
          right
          simp only
          cases hq2 : find_char body '"' (q1 + 1) with
          | none => left; exact ⟨q, e, q1, rfl, hw, he, hq1, hq2, rfl⟩
          | some q2 => right; exact ⟨q, e, q1, q2, rfl, hw, he, hq1, hq2, rfl⟩
    · left
      refine ⟨q, rfl, hw, ?_⟩
      have hb : ¬ ((left_ok body q && right_ok body field q) = true) := fun h => hw (hwb.1 h)
      simp only [Bool.and_eq_true, not_and_or, Bool.not_eq_true] at hb
      rcases hb with hb | hb
      · rw [hb]; simp
      · rw [hb]; simp

theorem prefix_getElem (field body : Str) (q j : Nat) (h : field <+: body.drop q)
    (hj : j < field.length) : body[q + j]? = field[j]? := by
  obtain ⟨r, hr⟩ := h
  rw [← List.getElem?_drop, ← hr, List.getElem?_append_left hj]

theorem prefix_drop_length (field body : Str) (q : Nat) (h : field <+: body.drop q) :
    q + field.length ≤ body.length ∨ field = [] := by
  by_cases hf : field = []
  · right; exact hf
  · left
    have h1 := h.length_le
    rw [List.length_drop] at h1
    have h2 : 0 < field.length := List.length_pos.2 hf
    omega

/-- An iteration that continues moves the search offset forward, within the body. -/
theorem find_field_step_again (body field : Str) (hne : field ≠ []) (p p1 : Nat)
    (h : find_field_step body field p = .again p1) : p < p1 ∧ p1 ≤ body.length := by
  have hpos : 0 < field.length := List.length_pos.2 hne
  rcases find_field_step_cases body field p with ⟨-, hs⟩ | ⟨q, hf, -, hs⟩ | ⟨q, -, -, -, hs⟩ |
    ⟨q, e, hf, -, he, -, hs⟩ | ⟨q, e, q1, -, -, -, -, -, hs⟩ | ⟨q, e, q1, q2, -, -, -, -, -, hs⟩
  · rw [hs] at h; exact absurd h (by simp)
  · rw [hs] at h
    simp only [FieldStep.again.injEq] at h
    have hq := (find_str_eq_some body field p q).1 hf
    rcases prefix_drop_length field body q hq.2.2.1 with hl | hl
    · omega
    · exact absurd hl hne
  · rw [hs] at h; exact absurd h (by simp)
  · rw [hs] at h
    simp only [FieldStep.again.injEq] at h
    have hq := (find_str_eq_some body field p q).1 hf
    have hb := find_char_lt_length _ _ _ _ he
    omega
  · rw [hs] at h; exact absurd h (by simp)
  · rw [hs] at h; exact absurd h (by simp)

/-- More fuel than the loop of `find_field_string` needs does not change its
result. -/
theorem find_field_loop_fuel (body field : Str) (hne : field ≠ []) (fuel k p : Nat)
    (hp : p ≤ body.length) (hf : body.length - p < fuel) :
    find_field_loop body field (fuel + k) p = find_field_loop body field fuel p := by
  induction fuel generalizing p with
  | zero => omega
  | succ fuel ih =>
    rw [show fuel + 1 + k = (fuel + k) + 1 by omega, find_field_loop, find_field_loop]
    cases hs : find_field_step body field p with
    | done v => rfl
    | again p1 =>
      have := find_field_step_again body field hne p p1 hs
      exact ih p1 this.2 (by omega)

/-- The loop of `find_field_string` returns before its fuel runs out. -/
theorem find_field_halts_of_fuel (body field : Str) (hne : field ≠ []) (fuel p : Nat)
    (hp : p ≤ body.length) (hf : body.length - p < fuel) :
    find_field_halts body field fuel p = true := by
  induction fuel generalizing p with
  | zero => omega
  | succ fuel ih =>
    rw [find_field_halts]
    cases hs : find_field_step body field p with
    | done v => rfl
    | again p1 =>
      have := find_field_step_again body field hne p p1 hs
      exact ih p1 this.2 (by omega)

/-- One iteration of the loop, with the bound `body.length + 1` kept for the rest. -/
theorem find_field_loop_canon (body field : Str) (hne : field ≠ []) (p : Nat) :
    find_field_loop body field (body.length + 1) p =
      match find_field_step body field p with
      | .done v => v
      | .again p1 => find_field_loop body field (body.length + 1) p1 := by
  rw [find_field_loop]
  cases hs : find_field_step body field p with
  | done v => rfl
  | again p1 =>
    have := find_field_step_again body field hne p p1 hs
    simp only
    exact (find_field_loop_fuel body field hne body.length 1 p1 this.2 (by omega)).symm

/-- Without a double quote from position `m` on, the loop returns the empty string
from every offset at or after `m`. -/
theorem find_field_loop_no_quote (body field : Str) (hne : field ≠ []) (m : Nat)
    (hm : '"' ∉ body.drop m) (n : Nat) :
    ∀ p, body.length - p < n → m ≤ p →
      find_field_loop body field (body.length + 1) p = [] := by
  have hnone : ∀ k, m ≤ k → find_char body '"' k = none := by
    intro k hk
    rw [find_char_eq_none]
    intro hc
    apply hm
    have : body.drop k = (body.drop m).drop (k - m) := by
      rw [List.drop_drop]; congr 1; omega
    rw [this] at hc
    exact List.mem_of_mem_drop hc
  induction n with
  | zero => intro p hp; omega
  | succ n ih =>
    intro p hp hmp
    rw [find_field_loop_canon body field hne]
    rcases find_field_step_cases body field p with ⟨-, h⟩ | ⟨q, hf, -, h⟩ | ⟨q, -, -, -, h⟩ |
      ⟨q, e, hf, -, he, -, h⟩ | ⟨q, e, q1, -, -, -, -, -, h⟩ |
      ⟨q, e, q1, q2, hf, -, he, hq1, -, h⟩
    · rw [h]
    · have hp1 := find_field_step_again body field hne p _ h
      rw [h]
      exact ih _ (by omega) (by omega)
    · rw [h]
    · have hp1 := find_field_step_again body field hne p _ h
      rw [h]
      exact ih _ (by omega) (by omega)
    · rw [h]
    · have hq := (find_str_eq_some body field p q).1 hf
      have hb := find_char_lt_length _ _ _ _ he
      rw [hnone (e + 1) (by omega)] at hq1
      exact absurd hq1 (by simp)

/-- Without a whole-word occurrence at or after `p`, the loop returns the empty
string. -/
theorem find_field_loop_no_word (body field : Str) (hne : field ≠ []) (n : Nat) :
    ∀ p, body.length - p < n → (∀ q, p ≤ q → ¬ whole_word_at body field q) →
      find_field_loop body field (body.length + 1) p = [] := by
  have hcontra : ∀ p q, (∀ q, p ≤ q → ¬ whole_word_at body field q) →
      find_str body field p = some q → word_bounds body field q → False := by
    intro p q hno hf hw
    have hq := (find_str_eq_some body field p q).1 hf
    exact hno q hq.1 ⟨hq.2.1, hq.2.2.1, hw⟩
  induction n with
  | zero => intro p hp; omega
  | succ n ih =>
    intro p hp hno
    rw [find_field_loop_canon body field hne]
    rcases find_field_step_cases body field p with ⟨-, h⟩ | ⟨q, hf, -, h⟩ | ⟨q, hf, hw, -, h⟩ |
      ⟨q, e, hf, hw, -, -, h⟩ | ⟨q, e, q1, hf, hw, -, -, -, h⟩ |
      ⟨q, e, q1, q2, hf, hw, -, -, -, h⟩
    · rw [h]
    · have hp1 := find_field_step_again body field hne p _ h
      rw [h]
      exact ih _ (by omega) (fun q1 hq1 => hno q1 (by omega))
    all_goals exact absurd hw (fun hw => hcontra p q hno hf hw)

theorem find_str_self (body field : Str) (p : Nat) (h : whole_word_at body field p) :
    find_str body field p = some p := by
  rw [find_str_eq_some]
  exact ⟨le_refl _, h.1, h.2.1, fun j h1 h2 => by omega⟩

theorem find_field_step_word (body field : Str) (p q : Nat)
    (hf : find_str body field p = some q) (hw : word_bounds body field q) :
    find_field_step body field p =
      match find_char body '=' (q + field.length) with
      | none => .done []
      | some eq =>
        match find_char body '"' (eq + 1) with
        | none => .again (eq + 1)
        | some q1 =>
          match find_char body '"' (q1 + 1) with
          | none => .done []
          | some q2 => .done (substr body (q1 + 1) (q2 - (q1 + 1))) := by
  rw [find_field_step_eq body field p q hf]
  have hb := (word_bounds_iff body field q).2 hw
  simp only [Bool.and_eq_true] at hb
  rw [hb.1, hb.2]
  rfl

theorem find_field_step_same (body field : Str) (p p1 q : Nat)
    (hf : find_str body field p = some q) (hf1 : find_str body field p1 = some q) :
    find_field_step body field p = find_field_step body field p1 := by
  rw [find_field_step_eq body field p q hf, find_field_step_eq body field p1 q hf1]

/-- From an offset at or before the first whole-word occurrence, the loop reaches
that occurrence: occurrences skipped on the way are not whole words, and for a name
made of alphanumeric characters the jump over such an occurrence cannot pass a whole
word. -/
theorem find_field_loop_skip (body field : Str) (hne : field ≠ [])
    (hal : ∀ c ∈ field, is_alnum c = true) (p0 : Nat) (hfw : first_whole_word body field p0)
    (n : Nat) :
    ∀ p, p0 - p < n → p ≤ p0 →
      find_field_loop body field (body.length + 1) p =
        find_field_loop body field (body.length + 1) p0 := by
  have hself := find_str_self body field p0 hfw.1
  induction n with
  | zero => intro p hp; omega
  | succ n ih =>
    intro p hp hle
    by_cases hpp : p = p0
    · rw [hpp]
    · have hsome : ∃ q, find_str body field p = some q := by
        cases hf : find_str body field p with
        | some q => exact ⟨q, rfl⟩
        | none =>
          exact absurd hfw.1.2.1 ((find_str_eq_none body field p).1 hf p0 hle hfw.1.1)
      obtain ⟨q, hf⟩ := hsome
      have hq := (find_str_eq_some body field p q).1 hf
      have hqle : q ≤ p0 := by
        by_contra hcon
        exact hq.2.2.2 p0 hle (by omega) hfw.1.2.1
      by_cases hqq : q = p0
      · rw [find_field_loop_canon body field hne p, find_field_loop_canon body field hne p0,
          find_field_step_same body field p p0 p0 (hqq ▸ hf) hself]
      · have hnw : ¬ word_bounds body field q :=
          fun hw => hfw.2 q (by omega) ⟨hq.2.1, hq.2.2.1, hw⟩
        have hstep : find_field_step body field p = .again (q + field.length) := by
          rcases find_field_step_cases body field p with ⟨h1, -⟩ | ⟨q1, h1, -, h⟩ |
            ⟨q1, h1, hw, -⟩ | ⟨q1, e, h1, hw, -⟩ | ⟨q1, e, q2, h1, hw, -⟩ |
            ⟨q1, e, q2, q3, h1, hw, -⟩
          · rw [hf] at h1; exact absurd h1 (by simp)
          · rw [hf] at h1; rw [← Option.some.inj h1] at h; exact h
          all_goals (rw [hf] at h1; rw [← Option.some.inj h1] at hw; exact absurd hw hnw)
        have hjump : q + field.length ≤ p0 := by
          by_contra hcon
          have hj : p0 - 1 - q < field.length := by omega
          have hget := prefix_getElem field body q (p0 - 1 - q) hq.2.2.1 hj
          rw [show q + (p0 - 1 - q) = p0 - 1 by omega,
            List.getElem?_eq_getElem hj] at hget
          have hbad := hfw.1.2.2.1 (by omega) _ hget
          rw [hal _ (List.getElem_mem hj)] at hbad
          exact absurd hbad (by simp)
        rw [find_field_loop_canon body field hne p, hstep]
        exact ih _ (by have := List.length_pos.2 hne; omega) hjump

theorem substr_no_char (s : Str) (c : Char) (pos b : Nat) (h : find_char s c pos = some b) :
    c ∉ substr s pos (b - pos) := by
  have hf := (find_char_eq_some s c pos b).1 h
  intro hc
  obtain ⟨n, hn⟩ := List.mem_iff_getElem?.1 hc
  unfold substr at hn
  rw [List.getElem?_take] at hn
  split at hn
  · rename_i hlt
    rw [List.getElem?_drop] at hn
    exact hf.2.2 (pos + n) (by omega) (by omega) hn
  · exact absurd hn (by simp)

/-- The value returned by the loop of `find_field_string` contains no double
quote. -/
theorem find_field_loop_quote_free (body field : Str) (fuel p : Nat) :
    '"' ∉ find_field_loop body field fuel p := by
  induction fuel generalizing p with
  | zero => simp [find_field_loop]
  | succ fuel ih =>
    rw [find_field_loop]
    rcases find_field_step_cases body field p with ⟨-, h⟩ | ⟨q, -, -, h⟩ | ⟨q, -, -, -, h⟩ |
      ⟨q, e, -, -, -, -, h⟩ | ⟨q, e, q1, -, -, -, -, -, h⟩ |
      ⟨q, e, q1, q2, -, -, -, -, hq2, h⟩
    · rw [h]; simp
    · rw [h]; exact ih _
    · rw [h]; simp
    · rw [h]; exact ih _
    · rw [h]; simp
    · rw [h]; exact substr_no_char body '"' (q1 + 1) q2 hq2

theorem find_field_string_skillname (v : Str) (hq : '"' ∉ v) :
    find_field_string ("SkillName = \"".toList ++ v ++ ['"']) SkillName_field = v := by
  have hbody : "SkillName = \"".toList ++ v ++ ['"'] = "SkillName = \"".toList ++ (v ++ ['"']) := by
    simp
  rw [hbody]
  generalize hb : "SkillName = \"".toList ++ (v ++ ['"']) = body
  have hfs : find_str body SkillName_field 0 = some 0 := by
    rw [← hb]
    simp [find_str, find_str_aux, List.isPrefixOf, SkillName_field]
  have hl : left_ok body 0 = true := rfl
  have hr : right_ok body SkillName_field 0 = true := by
    rw [← hb]
    simp [right_ok, SkillName_field, is_alnum]
  have heq : find_char body '=' (0 + SkillName_field.length) = some 10 := by
    rw [← hb]
    simp [find_char, find_char_aux, SkillName_field]
  have hq1 : find_char body '"' (10 + 1) = some 12 := by
    rw [← hb]
    simp [find_char, find_char_aux]
  have hd13 : body.drop (12 + 1) = v ++ '"' :: [] := by
    rw [← hb]
    exact List.drop_left' (by simp)
  have hq2 : find_char body '"' (12 + 1) = some (12 + 1 + v.length) :=
    find_char_of_drop _ _ _ _ _ hd13 hq
  have hsub : substr body (12 + 1) (12 + 1 + v.length - (12 + 1)) = v := by
    rw [show 12 + 1 + v.length - (12 + 1) = v.length by omega]
    exact substr_of_drop _ _ _ _ hd13
  have hstep : find_field_step body SkillName_field 0 = .done v := by
    rw [find_field_step_eq body SkillName_field 0 0 hfs, hl, hr]
    simp only [Bool.not_true, Bool.or_self, Bool.false_eq_true, if_false, heq, hq1, hq2, hsub]
  unfold find_field_string
  rw [find_field_loop, hstep]

/-! ## Field extraction -/

set_option maxRecDepth 100000 in
/-- C11 (as stated) fails for a field name with a character that is not
alphanumeric: in the body `ax x x = "v"` the first whole-word occurrence of `x x` is
at position 3, followed by `=` at 7 and the quotes at 9 and 11, yet the function
returns the empty string, because the jump over the occurrence at position 1 passes
position 3. -/
theorem find_field_string_counterexample :
    first_whole_word "ax x x = \"v\"".toList "x x".toList 3 ∧
      first_char_from "ax x x = \"v\"".toList '=' (3 + "x x".toList.length) 7 ∧
      first_char_from "ax x x = \"v\"".toList '"' (7 + 1) 9 ∧
      first_char_from "ax x x = \"v\"".toList '"' (9 + 1) 11 ∧
      substr "ax x x = \"v\"".toList (9 + 1) (11 - (9 + 1)) = "v".toList ∧
      find_field_string "ax x x = \"v\"".toList "x x".toList = [] := by
  refine ⟨⟨⟨by decide, by decide, (word_bounds_iff _ _ _).1 (by decide)⟩, ?_⟩,
    (find_char_eq_some _ _ _ _).1 (by decide), (find_char_eq_some _ _ _ _).1 (by decide),
    (find_char_eq_some _ _ _ _).1 (by decide), by decide, by decide⟩
  intro q hq hw
  have h1 := hw.2.1
  have h2 := (word_bounds_iff _ _ _).2 hw.2.2
  interval_cases q
  · exact absurd h1 (by decide)
  · exact absurd h2 (by decide)
  · exact absurd h1 (by decide)

/-- C11 (amended): field extraction for a non-empty field name made of alphanumeric
characters.  With `p` the first whole-word occurrence of the name, `e` the first `=`
at or after its end, `q1` the first double quote after `e` and `q2` the first double
quote after `q1`, `find_field_string` returns the text between `q1` and `q2`; it
returns the empty string when there is no whole-word occurrence, no `=` after it, or
fewer than two double quotes after that `=`.  The loop returns within
`body.length + 1` iterations.  For the body `SkillName = "v"` with `v` free of
double quotes the result is `v`, and `XSkillName` and `SkillName2` are not
matched. -/
theorem find_field_string_spec (body field : Str) (hne : field ≠ [])
    (hal : ∀ c ∈ field, is_alnum c = true) :
    (∀ p e q1 q2, first_whole_word body field p →
      first_char_from body '=' (p + field.length) e → first_char_from body '"' (e + 1) q1 →
      first_char_from body '"' (q1 + 1) q2 →
      find_field_string body field = substr body (q1 + 1) (q2 - (q1 + 1))) ∧
    ((∀ p, ¬ whole_word_at body field p) → find_field_string body field = []) ∧
    (∀ p, first_whole_word body field p → '=' ∉ body.drop (p + field.length) →
      find_field_string body field = []) ∧
    (∀ p e, first_whole_word body field p → first_char_from body '=' (p + field.length) e →
      '"' ∉ body.drop (e + 1) → find_field_string body field = []) ∧
    (∀ p e q1, first_whole_word body field p →
      first_char_from body '=' (p + field.length) e → first_char_from body '"' (e + 1) q1 →
      '"' ∉ body.drop (q1 + 1) → find_field_string body field = []) ∧
    find_field_halts body field (body.length + 1) 0 = true ∧
    (∀ v : Str, '"' ∉ v →
      find_field_string ("SkillName = \"".toList ++ v ++ ['"']) SkillName_field = v) ∧
    find_field_string "XSkillName = \"v\"".toList SkillName_field = [] ∧
    find_field_string "SkillName2 = \"v\"".toList SkillName_field = [] := by
  have hstart : ∀ p, first_whole_word body field p →
      find_field_string body field =
        match find_field_step body field p with
        | .done v => v
        | .again p1 => find_field_loop body field (body.length + 1) p1 := by
    intro p hfw
    unfold find_field_string
    exact (find_field_loop_skip body field hne hal p hfw (p + 1) 0 (by omega)
      (Nat.zero_le _)).trans (find_field_loop_canon body field hne p)
  have hword : ∀ p, first_whole_word body field p →
      find_field_step body field p = _ :=
    fun p hfw => find_field_step_word body field p p (find_str_self body field p hfw.1)
      hfw.1.2.2
  refine ⟨?_, ?_, ?_, ?_, ?_, ?_, find_field_string_skillname, by decide, by decide⟩
  · intro p e q1 q2 hfw he hq1 hq2
    rw [hstart p hfw, hword p hfw]
    simp only [(find_char_eq_some _ _ _ _).2 he, (find_char_eq_some _ _ _ _).2 hq1,
      (find_char_eq_some _ _ _ _).2 hq2]
  · intro hno
    unfold find_field_string
    exact find_field_loop_no_word body field hne (body.length + 1) 0 (by omega)
      (fun q _ => hno q)
  · intro p hfw he
    rw [hstart p hfw, hword p hfw]
    simp only [(find_char_eq_none _ _ _).2 he]
  · intro p e hfw he hq1
    have hb := (find_char_eq_some _ _ _ _).1 ((find_char_eq_some _ _ _ _).2 he)
    rw [hstart p hfw, hword p hfw]
    simp only [(find_char_eq_some _ _ _ _).2 he, (find_char_eq_none _ _ _).2 hq1]
    exact find_field_loop_no_quote body field hne (e + 1) hq1 (body.length + 1) (e + 1)
      (by omega) (le_refl _)
  · intro p e q1 hfw he hq1 hq2
    rw [hstart p hfw, hword p hfw]
    simp only [(find_char_eq_some _ _ _ _).2 he, (find_char_eq_some _ _ _ _).2 hq1,
      (find_char_eq_none _ _ _).2 hq2]
  · exact find_field_halts_of_fuel body field hne _ 0 (Nat.zero_le _) (by omega)

set_option maxRecDepth 100000 in
theorem find_field_string_spec_witness :
    find_field_string "x = 1, SkillName = \"Abc\", y".toList SkillName_field = "Abc".toList := by
  have hfw : first_whole_word "x = 1, SkillName = \"Abc\", y".toList SkillName_field 7 := by
    refine ⟨⟨by decide, by decide, (word_bounds_iff _ _ _).1 (by decide)⟩, ?_⟩
    intro q hq hw
    have h1 := hw.2.1
    interval_cases q <;> exact absurd h1 (by decide)
  exact ((find_field_string_spec "x = 1, SkillName = \"Abc\", y".toList SkillName_field
    (by decide) (by decide)).1 7 17 19 23 hfw ((find_char_eq_some _ _ _ _).1 (by decide))
    ((find_char_eq_some _ _ _ _).1 (by decide))
    ((find_char_eq_some _ _ _ _).1 (by decide))).trans (by decide)

/-! ### The invariant of the name map -/

theorem umap_set_mem {K V : Type} [DecidableEq K] (m : List (K × V)) (k : K) (v : V)
    (p : K × V) (h : p ∈ umap_set m k v) : p = (k, v) ∨ p ∈ m := by
  induction m with
  | nil =>
    simp only [umap_set, List.mem_singleton] at h
    exact Or.inl h
  | cons e r ih =>
    obtain ⟨k1, v1⟩ := e
    rw [umap_set] at h
    by_cases hk : k1 = k
    · rw [if_pos hk] at h
      rcases List.mem_cons.1 h with h | h
      · left; rw [h, hk]
      · right; exact List.mem_cons_of_mem _ h
    · rw [if_neg hk] at h
      rcases List.mem_cons.1 h with h | h
      · right; rw [h]; exact List.mem_cons_self _ _
      · rcases ih h with h | h
        · left; exact h
        · right; exact List.mem_cons_of_mem _ h

theorem find_field_string_quote_free (body field : Str) :
    '"' ∉ find_field_string body field :=
  find_field_loop_quote_free body field _ 0

/-- One iteration keeps the entries of the name map well formed. -/
theorem record_entry_invariant (m : HandleMap) (n : IdMap) (key body : Str)
    (hn : ∀ p ∈ n, 0 ≤ p.1 ∧ p.2 ≠ [] ∧ '"' ∉ p.2) :
    ∀ p ∈ record_entry m n key body, 0 ≤ p.1 ∧ p.2 ≠ [] ∧ '"' ∉ p.2 := by
  intro p hp
  unfold record_entry at hp
  simp only at hp
  split at hp
  · rename_i hc
    rcases umap_set_mem _ _ _ _ hp with h | h
    · rw [h]
      exact ⟨hc.2, hc.1, find_field_string_quote_free body _⟩
    · exact hn p h
  · exact hn p hp

theorem scan_records_invariant (t : Str) (m : HandleMap) (fuel i : Nat) (n : IdMap)
    (hn : ∀ p ∈ n, 0 ≤ p.1 ∧ p.2 ≠ [] ∧ '"' ∉ p.2) :
    ∀ p ∈ scan_records t m fuel i n, 0 ≤ p.1 ∧ p.2 ≠ [] ∧ '"' ∉ p.2 := by
  induction fuel generalizing i n with
  | zero => exact hn
  | succ fuel ih =>
    rw [scan_records]
    cases hs : record_step t i with
    | stop => exact hn
    | skip i1 => exact ih i1 n hn
    | record key body i1 => exact ih i1 _ (record_entry_invariant m n key body hn)

/-! ## The extracted name map -/

/-- C20: for every info-list text and every handle map, also one that sends handles
to negative ids, the map extracted from an empty `id_to_name` has only keys `≥ 0`
and only non-empty values without double quote; an iteration whose key resolves to a
negative id leaves the map as it is. -/
theorem load_names_invariant (raw : Str) (handle_to_id : HandleMap) :
    (∀ p ∈ load_names_from_skillinfolist_lub raw handle_to_id [],
      0 ≤ p.1 ∧ p.2 ≠ [] ∧ '"' ∉ p.2) ∧
    (∀ (n : IdMap) (key body : Str), resolve_key handle_to_id key < 0 →
      record_entry handle_to_id n key body = n) := by
  constructor
  · unfold load_names_from_skillinfolist_lub
    exact scan_records_invariant _ _ _ _ _ (by simp)
  · intro n key body hneg
    unfold record_entry
    simp only
    rw [if_neg]
    intro hc
    omega

set_option maxRecDepth 100000 in
theorem load_names_invariant_witness :
    resolve_key [("A".toList, -4)] "SKID.A".toList < 0 ∧
      record_entry [("A".toList, -4)] [(1, "x".toList)] "SKID.A".toList
        " SkillName = \"Basic\" ".toList = [(1, "x".toList)] ∧
      load_names_from_skillinfolist_lub "[SKID.A] = \x7b SkillName = \"Basic\" \x7d".toList
        [("A".toList, -4)] [] = [] :=
  ⟨by decide, (load_names_invariant [] [("A".toList, -4)]).2 _ _ _ (by decide), by decide⟩

/-! ### Key texts -/

theorem after_last_dot_of_not_mem (s : Str) (h : '.' ∉ s) : after_last_dot s = s := by
  unfold after_last_dot
  rw [takeWhile_eq_self, List.reverse_reverse]
  intro c hc
  simp only [bne_iff_ne, ne_eq]
  intro e
  exact h (by rw [← e]; exact List.mem_reverse.1 hc)

theorem after_last_dot_append (A B : Str) (h : '.' ∉ B) : after_last_dot (A ++ '.' :: B) = B := by
  unfold after_last_dot
  have hrev : (A ++ '.' :: B).reverse = B.reverse ++ '.' :: A.reverse := by simp
  have htake : (B.reverse ++ '.' :: A.reverse).takeWhile (fun c => c != '.') = B.reverse := by
    have := takeWhile_append_sep B.reverse A.reverse '.' (fun c hc e => h (by
      rw [← e]; exact List.mem_reverse.1 hc))
    exact this
  rw [hrev, htake, List.reverse_reverse]

/-- A text with a `.` splits at its last `.`. -/
theorem exists_last_dot (s : Str) (h : '.' ∈ s) : ∃ A B, s = A ++ '.' :: B ∧ '.' ∉ B := by
  induction s with
  | nil => simp at h
  | cons a r ih =>
    by_cases hr : '.' ∈ r
    · obtain ⟨A, B, hAB, hB⟩ := ih hr
      exact ⟨a :: A, B, by rw [hAB]; rfl, hB⟩
    · rcases List.mem_cons.1 h with e | e
      · exact ⟨[], r, by rw [← e]; rfl, hr⟩
      · exact absurd e hr

/-- The handle text that `resolve_key` cuts from a key is the part after the last
`.`. -/
theorem handle_of_key (key : Str) :
    (rfind_char key '.' = none ∧ after_last_dot key = key) ∨
      ∃ dot, rfind_char key '.' = some dot ∧ substr_from key (dot + 1) = after_last_dot key := by
  by_cases h : '.' ∈ key
  · right
    obtain ⟨A, B, hAB, hB⟩ := exists_last_dot key h
    refine ⟨A.length, by rw [hAB]; exact rfind_char_append A B '.' hB, ?_⟩
    rw [hAB, after_last_dot_append A B hB]
    unfold substr_from
    rw [show A ++ '.' :: B = (A ++ ['.']) ++ B by simp]
    exact List.drop_left' (by simp)
  · left
    exact ⟨rfind_char_none key '.' h, after_last_dot_of_not_mem key h⟩

theorem trim_decomp (s : Str) :
    ∃ w1 w2, (∀ c ∈ w1, is_trim_char c = true) ∧ (∀ c ∈ w2, is_trim_char c = true) ∧
      s = w1 ++ trim s ++ w2 := by
  refine ⟨s.takeWhile is_trim_char,
    ((s.dropWhile is_trim_char).reverse.takeWhile is_trim_char).reverse, ?_, ?_, ?_⟩
  · intro c hc
    exact List.mem_takeWhile_imp hc
  · intro c hc
    exact List.mem_takeWhile_imp (List.mem_reverse.1 hc)
  · unfold trim
    rw [List.append_assoc, ← List.reverse_append, List.takeWhile_append_dropWhile,
      List.reverse_reverse, List.takeWhile_append_dropWhile]

theorem is_space_of_is_trim_char (c : Char) (h : is_trim_char c = true) : is_space c = true := by
  simp only [is_trim_char, Bool.or_eq_true, decide_eq_true_eq] at h
  simp only [is_space, Bool.or_eq_true, decide_eq_true_eq]
  tauto

theorem filter_space_ws (w : Str) (h : ∀ c ∈ w, is_trim_char c = true) :
    w.filter (fun c => !is_space c) = [] := by
  rw [List.filter_eq_nil_iff]
  intro c hc
  simp [is_space_of_is_trim_char c (h c hc)]

theorem filter_space_trim (s : Str) :
    (trim s).filter (fun c => !is_space c) = s.filter (fun c => !is_space c) := by
  obtain ⟨w1, w2, h1, h2, hs⟩ := trim_decomp s
  conv_rhs => rw [hs]
  rw [List.filter_append, List.filter_append, filter_space_ws w1 h1, filter_space_ws w2 h2]
  simp

theorem not_dot_of_trim_char (w : Str) (h : ∀ c ∈ w, is_trim_char c = true) : '.' ∉ w := by
  intro hc
  exact absurd (h _ hc) (by decide)

/-- Trimming a key text does not change the handle it stands for. -/
theorem key_handle_trim (k : Str) : key_handle (trim k) = key_handle k := by
  obtain ⟨w1, w2, h1, h2, hs⟩ := trim_decomp k
  unfold key_handle
  by_cases hd : '.' ∈ trim k
  · obtain ⟨A, B, hAB, hB⟩ := exists_last_dot (trim k) hd
    have hk : k = (w1 ++ A) ++ '.' :: (B ++ w2) := by
      conv_lhs => rw [hs, hAB]
      simp
    have hB2 : '.' ∉ B ++ w2 := by
      intro hc
      rcases List.mem_append.1 hc with e | e
      · exact hB e
      · exact not_dot_of_trim_char w2 h2 e
    have e1 : after_last_dot (trim k) = B := by
      rw [hAB]; exact after_last_dot_append A B hB
    have e2 : after_last_dot k = B ++ w2 := by
      rw [hk]; exact after_last_dot_append _ _ hB2
    rw [e1, e2, List.filter_append, filter_space_ws w2 h2, List.append_nil]
  · have hk : '.' ∉ k := by
      intro hc
      rw [hs] at hc
      rcases List.mem_append.1 hc with e | e
      · rcases List.mem_append.1 e with e | e
        · exact not_dot_of_trim_char w1 h1 e
        · exact hd e
      · exact not_dot_of_trim_char w2 h2 e
    rw [after_last_dot_of_not_mem _ hd, after_last_dot_of_not_mem _ hk, filter_space_trim]

theorem strtoll_base_ten (s : Str) : strtoll_base 10 s = (10, s) := by
  unfold strtoll_base
  split <;> simp

/-- The call `strtoll(key, NULL, 10)` on a string of decimal digits: its decimal value,
saturated at `LLONG_MAX`. -/
theorem strtoll_digit_string (s : Str) (h : is_digit_string s = true) :
    strtoll s 10 = some (if LLONG_MAX < (digits_value 10 s : Int) then LLONG_MAX
      else (digits_value 10 s : Int)) := by
  unfold is_digit_string at h
  simp only [Bool.and_eq_true, Bool.not_eq_true', List.all_eq_true] at h
  obtain ⟨hne, hall⟩ := h
  match s, hne, hall with
  | c :: r, _, hall =>
    have hd : is_digit c = true := hall c (by simp)
    have htake : (c :: r).takeWhile (is_digit_in 10) = c :: r :=
      takeWhile_eq_self _ _ (fun x hx => is_digit_in_ten_of_is_digit x (hall x hx))
    unfold strtoll
    simp only [List.dropWhile_cons, not_space_of_is_digit c hd, Bool.false_eq_true, if_false,
      strtoll_sign_of_is_digit c r hd, strtoll_base_ten, htake]
    simp

/-- What `resolve_key` returns for a trimmed key text, in terms of the key text. -/
theorem resolve_key_trim (m : HandleMap) (k : Str) :
    resolve_key m (trim k) =
      if is_digit_string (trim k) = true then
        (if LLONG_MAX < (digits_value 10 (trim k) : Int) then LLONG_MAX
          else (digits_value 10 (trim k) : Int))
      else if key_handle k = [] then -1
      else (umap_find m (key_handle k)).getD (-1) := by
  unfold resolve_key
  by_cases hd : is_digit_string (trim k) = true
  · rw [if_pos hd, if_pos hd, strtoll_digit_string _ hd]
    rfl
  · rw [if_neg hd, if_neg hd]
    have hh : (trim (after_last_dot (trim k))).filter (fun c => !is_space c) = key_handle k := by
      rw [filter_space_trim]
      exact key_handle_trim k
    have hfin : (if key_handle k = [] then (-1 : Int)
        else
          match umap_find m (key_handle k) with
          | some id => id
          | none => -1) =
        if key_handle k = [] then -1 else (umap_find m (key_handle k)).getD (-1) := by
      by_cases he : key_handle k = []
      · rw [if_pos he, if_pos he]
      · rw [if_neg he, if_neg he]
        cases umap_find m (key_handle k) <;> rfl
    rcases handle_of_key (trim k) with ⟨h1, h2⟩ | ⟨dot, h1, h2⟩
    · rw [h1]
      simp only
      rw [h2] at hh
      rw [hh]
      exact hfin
    · rw [h1]
      simp only
      rw [h2, hh]
      exact hfin

/-- The map extracted from a text made of one record `[k] = \x7b SkillName = "X" \x7d`. -/
theorem load_names_single_record (M : HandleMap) (k X : Str) (hk : ']' ∉ k) (hX : X ≠ [])
    (hq : '"' ∉ X) (hb1 : '\x7b' ∉ X) (hb2 : '\x7d' ∉ X) (hdd : ¬ dashes <:+: record_text k X) :
    load_names_from_skillinfolist_lub (record_text k X) M [] =
      if 0 ≤ resolve_key M (trim k) then [(resolve_key M (trim k), X)] else [] := by
  unfold load_names_from_skillinfolist_lub
  simp only
  rw [strip_lua_comments_eq_self _ hdd,
    scan_records_single (record_text k X) M [] k X [] (by simp) (by simp) (by simp) hk hb1 hb2]
  unfold record_entry
  simp only [find_field_string_record_body X hq]
  by_cases hid : 0 ≤ resolve_key M (trim k)
  · rw [if_pos ⟨hX, hid⟩, if_pos hid]
    rfl
  · rw [if_neg (fun h => hid h.2), if_neg hid]

/-! ## Record key resolution -/

set_option maxRecDepth 100000 in
/-- C12 (as stated) fails: a name with a brace is not extracted (the depth scan ends
the block at the brace inside the quotes), and a handle that the map sends to a
negative id yields the empty map, not the entry. -/
theorem record_key_resolution_counterexample :
    (is_digit_string (trim "1".toList) = true ∧
      load_names_from_skillinfolist_lub (record_text "1".toList "a\x7db".toList) [] [] = []) ∧
    (is_digit_string (trim "SKID.A".toList) = false ∧
      key_handle "SKID.A".toList = "A".toList ∧
      umap_find [("A".toList, (-5 : Int))] (key_handle "SKID.A".toList) = some (-5) ∧
      load_names_from_skillinfolist_lub (record_text "SKID.A".toList "Basic".toList)
        [("A".toList, -5)] [] = []) := by
  refine ⟨⟨?_, ?_⟩, ?_, ?_, ?_, ?_⟩ <;> decide

/-- C12 (amended): record key resolution.  For every handle map `M`, key text `k`
without `]` and non-empty name `X` without double quote or brace, scanning the
comment-free text `[k] = \x7b SkillName = "X" \x7d` yields: if `k` trimmed is made of
decimal digits with value below `2^63`, the single entry (decimal value of `k`,
`X`), leading zeros not selecting octal; otherwise, with `h` the part of `k` after
its last `.` with every whitespace character removed, the empty map when `h` is
empty or not a key of `M`, the single entry (`M[h]`, `X`) when `M[h] ≥ 0`, and the
empty map when `M[h]` is negative. -/
theorem record_key_resolution (M : HandleMap) (k X : Str) (hk : ']' ∉ k) (hX : X ≠ [])
    (hq : '"' ∉ X) (hb1 : '\x7b' ∉ X) (hb2 : '\x7d' ∉ X) (hdd : ¬ dashes <:+: record_text k X) :
    (is_digit_string (trim k) = true → digits_value 10 (trim k) < 2 ^ 63 →
      load_names_from_skillinfolist_lub (record_text k X) M [] =
        [(((digits_value 10 (trim k) : Nat) : Int), X)]) ∧
    (is_digit_string (trim k) = false →
      (key_handle k = [] ∨ umap_find M (key_handle k) = none →
        load_names_from_skillinfolist_lub (record_text k X) M [] = []) ∧
      (∀ id, key_handle k ≠ [] → umap_find M (key_handle k) = some id → 0 ≤ id →
        load_names_from_skillinfolist_lub (record_text k X) M [] = [(id, X)]) ∧
      (∀ id, umap_find M (key_handle k) = some id → id < 0 →
        load_names_from_skillinfolist_lub (record_text k X) M [] = [])) := by
  have hload := load_names_single_record M k X hk hX hq hb1 hb2 hdd
  have hres := resolve_key_trim M k
  constructor
  · intro hd hv
    rw [if_pos hd] at hres
    have hmax : ¬ LLONG_MAX < ((digits_value 10 (trim k) : Nat) : Int) := by
      unfold LLONG_MAX
      have : (2 : Nat) ^ 63 = 9223372036854775808 := by norm_num
      omega
    rw [if_neg hmax] at hres
    rw [hload, hres, if_pos (Int.natCast_nonneg _)]
  · intro hd
    rw [if_neg (by rw [hd]; simp)] at hres
    refine ⟨?_, ?_, ?_⟩
    · intro h
      have : resolve_key M (trim k) = -1 := by
        rw [hres]
        rcases h with h | h
        · rw [if_pos h]
        · rw [h]
          split <;> rfl
      rw [hload, this]
      rfl
    · intro id hne hm hid
      rw [if_neg hne, hm] at hres
      rw [hload, hres]
      simp only [Option.getD_some]
      rw [if_pos hid]
    · intro id hm hid
      have : resolve_key M (trim k) < 0 := by
        rw [hres, hm]
        split
        · decide
        · exact hid
      rw [hload, if_neg (by omega)]

set_option maxRecDepth 100000 in
theorem record_key_resolution_witness :
    load_names_from_skillinfolist_lub
        (record_text " SKID . NV_BASIC ".toList "Basic Skill".toList)
        [("NV_BASIC".toList, 1)] [] = [(1, "Basic Skill".toList)] ∧
      load_names_from_skillinfolist_lub (record_text " 010 ".toList "Basic Skill".toList)
        [("NV_BASIC".toList, 1)] [] = [(10, "Basic Skill".toList)] := by
  have h1 := record_key_resolution [("NV_BASIC".toList, 1)] " SKID . NV_BASIC ".toList
    "Basic Skill".toList (by decide) (by decide) (by decide) (by decide) (by decide) (by decide)
  have h2 := record_key_resolution [("NV_BASIC".toList, 1)] " 010 ".toList
    "Basic Skill".toList (by decide) (by decide) (by decide) (by decide) (by decide) (by decide)
  exact ⟨(h1.2 (by decide)).2.1 1 (by decide) (by decide) (by decide),
    (h2.1 (by decide) (by decide)).trans (by decide)⟩

/-! ### Chunks of a table body -/

theorem find_char_zero_takeWhile (e : Str) (c : Char) (h : c ∈ e) :
    find_char e c 0 = some (e.takeWhile (fun x => x != c)).length ∧
      e = e.takeWhile (fun x => x != c) ++ c :: (e.dropWhile (fun x => x != c)).drop 1 := by
  have hsplit : e = e.takeWhile (fun x => x != c) ++ c :: (e.dropWhile (fun x => x != c)).drop 1 := by
    induction e with
    | nil => simp at h
    | cons a r ih =>
      by_cases ha : a = c
      · subst ha
        simp
      · have hr : c ∈ r := by
          rcases List.mem_cons.1 h with e1 | e1
          · exact absurd e1.symm ha
          · exact e1
        have hne : (a != c) = true := by simpa using ha
        rw [List.takeWhile_cons, List.dropWhile_cons, hne]
        simp only [if_true, List.cons_append]
        rw [← ih hr]
  refine ⟨?_, hsplit⟩
  have hnot : c ∉ e.takeWhile (fun x => x != c) := by
    intro hc
    have := List.mem_takeWhile_imp hc
    simp at this
  conv_lhs => rw [hsplit]
  exact find_char_zero_append _ _ c hnot

theorem find_char_zero_none (e : Str) (c : Char) (h : c ∉ e) : find_char e c 0 = none := by
  rw [find_char_eq_none, List.drop_zero]
  exact h

theorem dropWhile_ws_append (p : Char → Bool) (w y : Str) (hw : ∀ c ∈ w, p c = true) :
    (w ++ y).dropWhile p = y.dropWhile p := by
  induction w with
  | nil => rfl
  | cons a r ih =>
    rw [List.cons_append, List.dropWhile_cons, hw a (by simp), if_pos rfl]
    exact ih (fun c hc => hw c (by simp [hc]))

/-- Whitespace before a text does not change its trimmed form. -/
theorem trim_ws_left (w x : Str) (hw : ∀ c ∈ w, is_trim_char c = true) :
    trim (w ++ x) = trim x := by
  unfold trim
  rw [dropWhile_ws_append _ w x hw]

/-- Whitespace after a text does not change its trimmed form. -/
theorem trim_ws_right (x w : Str) (hw : ∀ c ∈ w, is_trim_char c = true) :
    trim (x ++ w) = trim x := by
  unfold trim
  congr 1
  by_cases hx : ∀ c ∈ x, is_trim_char c = true
  · have h1 : x.dropWhile is_trim_char = [] := by
      have := dropWhile_ws_append is_trim_char x [] hx
      simpa using this
    have h2 : (x ++ w).dropWhile is_trim_char = [] := by
      have := dropWhile_ws_append is_trim_char (x ++ w) [] (by
        intro c hc
        rcases List.mem_append.1 hc with e | e
        · exact hx c e
        · exact hw c e)
      simpa using this
    rw [h1, h2]
  · push_neg at hx
    obtain ⟨c0, hc0, hc0n⟩ := hx
    have hd : (x ++ w).dropWhile is_trim_char = x.dropWhile is_trim_char ++ w := by
      clear hw
      induction x with
      | nil => simp at hc0
      | cons a r ih =>
        rw [List.cons_append, List.dropWhile_cons, List.dropWhile_cons]
        split
        · rename_i ha
          rcases List.mem_cons.1 hc0 with e | e
          · rw [e] at hc0n; exact absurd ha hc0n
          · exact ih e
        · rfl
    rw [hd, List.reverse_append]
    exact dropWhile_ws_append is_trim_char w.reverse _
      (fun c hc => hw c (List.mem_reverse.1 hc))

theorem take_takeWhile_length (p : Char → Bool) (l : Str) :
    l.take (l.takeWhile p).length = l.takeWhile p := by
  have h := List.takeWhile_append_dropWhile p l
  have h2 : (l.takeWhile p ++ l.dropWhile p).take (l.takeWhile p).length = l.takeWhile p :=
    List.take_left _ _
  rwa [h] at h2

theorem drop_takeWhile_length (p : Char → Bool) (l : Str) :
    l.drop ((l.takeWhile p).length + 1) = (l.dropWhile p).drop 1 := by
  have h := List.takeWhile_append_dropWhile p l
  have h2 : (l.takeWhile p ++ l.dropWhile p).drop (l.takeWhile p).length = l.dropWhile p :=
    List.drop_left _ _
  rw [h] at h2
  rw [← h2, List.drop_drop]

/-- What `parse_entry` returns for an entry with a `=`, in terms of its name, its
value and its number text. -/
theorem parse_entry_of_eq (e : Str) (h : '=' ∈ e) :
    parse_entry e =
      if chunk_name e = [] ∨ chunk_value e = [] then none
      else (strtoll (chunk_number e) 0).map (fun id => (chunk_name e, id)) := by
  obtain ⟨hfind, -⟩ := find_char_zero_takeWhile e '=' h
  have hname : trim (substr e 0 (e.takeWhile (fun x => x != '=')).length) = chunk_name e := by
    unfold chunk_name substr
    rw [List.drop_zero, take_takeWhile_length]
  have hval : trim (substr_from e ((e.takeWhile (fun x => x != '=')).length + 1)) =
      chunk_value e := by
    unfold chunk_value substr_from
    rw [drop_takeWhile_length]
  unfold parse_entry
  rw [hfind]
  simp only [hname, hval]
  by_cases hc : chunk_name e = [] ∨ chunk_value e = []
  · rw [if_pos hc, if_pos hc]
  · rw [if_neg hc, if_neg hc]
    by_cases hs : ';' ∈ chunk_value e
    · obtain ⟨hf, -⟩ := find_char_zero_takeWhile (chunk_value e) ';' hs
      rw [hf]
      simp only [take_takeWhile_length]
      change _ = (strtoll (chunk_number e) 0).map _
      unfold chunk_number
      cases strtoll (trim ((chunk_value e).takeWhile (fun x => x != ';'))) 0 <;> rfl
    · rw [find_char_zero_none _ _ hs]
      have htw : (chunk_value e).takeWhile (fun x => x != ';') = chunk_value e := by
        apply takeWhile_eq_self
        intro c hc
        simp only [bne_iff_ne, ne_eq]
        intro e1
        exact hs (e1 ▸ hc)
      simp only
      unfold chunk_number
      rw [htw]
      cases strtoll (trim (chunk_value e)) 0 <;> rfl

theorem parse_entry_eq_none (e : Str) :
    parse_entry e = none ↔
      '=' ∉ e ∨ chunk_name e = [] ∨ chunk_value e = [] ∨ strtoll (chunk_number e) 0 = none := by
  by_cases h : '=' ∈ e
  · rw [parse_entry_of_eq e h]
    by_cases hc : chunk_name e = [] ∨ chunk_value e = []
    · rw [if_pos hc]
      simp only [true_iff]
      tauto
    · rw [if_neg hc]
      push_neg at hc
      simp only [Option.map_eq_none', h, not_true_eq_false, hc.1, hc.2, false_or]
  · have : parse_entry e = none := by
      unfold parse_entry
      rw [find_char_zero_none e '=' h]
    simp [this, h]

theorem takeWhile_append_all (p : Char → Bool) (a b : Str) (ha : ∀ c ∈ a, p c = true) :
    (a ++ b).takeWhile p = a ++ b.takeWhile p := by
  induction a with
  | nil => rfl
  | cons x r ih =>
    rw [List.cons_append, List.takeWhile_cons, ha x (by simp), if_pos rfl,
      ih (fun c hc => ha c (by simp [hc]))]
    rfl

theorem takeWhile_append_stop (p : Char → Bool) (a b : Str) (ha : ∃ c ∈ a, p c = false) :
    (a ++ b).takeWhile p = a.takeWhile p := by
  induction a with
  | nil => simp at ha
  | cons x r ih =>
    rw [List.cons_append, List.takeWhile_cons, List.takeWhile_cons]
    split
    · rename_i hx
      obtain ⟨c, hc, hcp⟩ := ha
      rcases List.mem_cons.1 hc with e | e
      · rw [e] at hcp; rw [hcp] at hx; exact absurd hx (by simp)
      · rw [ih ⟨c, e, hcp⟩]
    · rfl

theorem dropWhile_append_stop (p : Char → Bool) (a b : Str) (ha : ∃ c ∈ a, p c = false) :
    (a ++ b).dropWhile p = a.dropWhile p ++ b ∧ a.dropWhile p ≠ [] := by
  induction a with
  | nil => simp at ha
  | cons x r ih =>
    rw [List.cons_append, List.dropWhile_cons, List.dropWhile_cons]
    split
    · rename_i hx
      obtain ⟨c, hc, hcp⟩ := ha
      rcases List.mem_cons.1 hc with e | e
      · rw [e] at hcp; rw [hcp] at hx; exact absurd hx (by simp)
      · exact ih ⟨c, e, hcp⟩
    · exact ⟨rfl, by simp⟩

/-- Trimming a chunk with a `=` keeps the `=`, the name and the value. -/
theorem chunk_parts_trim (c : Str) (h : '=' ∈ c) :
    '=' ∈ trim c ∧ chunk_name (trim c) = chunk_name c ∧ chunk_value (trim c) = chunk_value c ∧
      chunk_number (trim c) = chunk_number c := by
  obtain ⟨w1, w2, h1, h2, hs⟩ := trim_decomp c
  have hw : ∀ w : Str, (∀ x ∈ w, is_trim_char x = true) → ∀ x ∈ w, (x != '=') = true := by
    intro w hw x hx
    simp only [bne_iff_ne, ne_eq]
    intro e
    rw [e] at hx
    exact absurd (hw _ hx) (by decide)
  have he : '=' ∈ trim c := by
    rw [hs] at h
    rcases List.mem_append.1 h with e | e
    · rcases List.mem_append.1 e with e | e
      · exact absurd (hw w1 h1 _ e) (by simp)
      · exact e
    · exact absurd (hw w2 h2 _ e) (by simp)
  have hstop : ∃ x ∈ trim c, (x != '=') = false := ⟨'=', he, by simp⟩
  have hname : chunk_name (trim c) = chunk_name c := by
    unfold chunk_name
    conv_rhs => rw [hs]
    rw [List.append_assoc, takeWhile_append_all _ w1 _ (hw w1 h1),
      takeWhile_append_stop _ (trim c) w2 hstop, trim_ws_left _ _ h1]
  have hvalue : chunk_value (trim c) = chunk_value c := by
    unfold chunk_value
    conv_rhs => rw [hs]
    obtain ⟨hd, hdne⟩ := dropWhile_append_stop (fun x => x != '=') (trim c) w2 hstop
    rw [List.append_assoc, dropWhile_ws_append _ w1 _ (hw w1 h1), hd]
    cases hdd : (trim c).dropWhile (fun x => x != '=') with
    | nil => exact absurd hdd hdne
    | cons y r =>
      simp only [List.cons_append, List.drop_succ_cons, List.drop_zero]
      rw [trim_ws_right _ _ h2]
  refine ⟨he, hname, hvalue, ?_⟩
  unfold chunk_number
  rw [hvalue]

theorem mem_of_mem_trim (c : Str) (x : Char) (h : x ∈ trim c) : x ∈ c := by
  obtain ⟨w1, w2, -, -, hs⟩ := trim_decomp c
  rw [hs]
  simp [h]

/-- A chunk is malformed exactly when the entry loop records nothing for it. -/
theorem is_malformed_iff (c : Str) :
    is_malformed c ↔ trim c = [] ∨ parse_entry (trim c) = none := by
  unfold is_malformed
  rw [parse_entry_eq_none]
  by_cases h : '=' ∈ c
  · obtain ⟨he, hn, hv, hnum⟩ := chunk_parts_trim c h
    rw [hn, hv, hnum]
    simp [h, he]
  · have he : '=' ∉ trim c := fun hc => h (mem_of_mem_trim c _ hc)
    simp [h, he]

theorem is_trim_char_space : ∀ c ∈ [' '], is_trim_char c = true := by
  intro c hc
  rw [List.mem_singleton.1 hc]
  decide

/-- The comma-splitting loop on the padded, comma-separated chunks: the trimmed
chunks that are not blank, in order. -/
theorem split_entries_chunks (cs : List Str) (acc : List Str) (h : ∀ c ∈ cs, ',' ∉ c) :
    split_entries (' ' :: ", ".toList.intercalate cs ++ [' ']) [] acc =
      acc ++ (cs.map trim).filter (fun e => decide (e ≠ [])) := by
  induction cs generalizing acc with
  | nil =>
    have h1 := split_entries_chunk [' ', ' '] [] [] acc (by decide)
    rw [List.append_nil] at h1
    have h2 : (' ' :: ", ".toList.intercalate ([] : List Str) ++ [' ']) = [' ', ' '] := rfl
    rw [h2, h1]
    simp [split_entries, show trim [' ', ' '] = [] by decide]
  | cons c r ih =>
    cases r with
    | nil =>
      have h0 : ',' ∉ ' ' :: c ++ [' '] := by
        have := h c (by simp)
        simp [this]
      have h1 := split_entries_chunk (' ' :: c ++ [' ']) [] [] acc h0
      rw [List.append_nil] at h1
      have h2 : (' ' :: ", ".toList.intercalate [c] ++ [' ']) = ' ' :: c ++ [' '] := by
        simp [List.intercalate, List.intersperse]
      have h3 : trim (' ' :: c ++ [' ']) = trim c := by
        have := trim_ws_left [' '] (c ++ [' ']) is_trim_char_space
        rw [List.singleton_append, ← List.cons_append] at this
        rw [this, trim_ws_right c [' '] is_trim_char_space]
      rw [h2, h1, List.nil_append, split_entries]
      simp only [h3, List.map_cons, List.map_nil]
      by_cases he : trim c = []
      · simp [he]
      · simp [he]
    | cons c2 r2 =>
      have h0 : ',' ∉ ' ' :: c := by
        have := h c (by simp)
        simp [this]
      have h2 : (' ' :: ", ".toList.intercalate (c :: c2 :: r2) ++ [' ']) =
          (' ' :: c) ++ ',' :: (' ' :: ", ".toList.intercalate (c2 :: r2) ++ [' ']) := by
        rw [intercalate_cons_cons]
        simp
      have h3 : trim (' ' :: c) = trim c := trim_ws_left [' '] c is_trim_char_space
      rw [h2, split_entries_chunk _ _ _ _ h0, List.nil_append, split_entries, if_pos rfl]
      simp only [h3]
      rw [ih _ (fun x hx => h x (by simp [hx]))]
      by_cases he : trim c = []
      · simp [he]
      · simp [he]

/-- The entry loop ignores the entries for which `parse_entry` gives nothing. -/
theorem process_entries_filter (es : List Str) (st : SkidState) :
    es.foldl process_entry st =
      (es.filter (fun e => (parse_entry e).isSome)).foldl process_entry st := by
  induction es generalizing st with
  | nil => rfl
  | cons e r ih =>
    rw [List.foldl_cons, List.filter_cons]
    cases hp : parse_entry e with
    | none =>
      have he : process_entry st e = st := by
        unfold process_entry
        rw [hp]
      rw [he, ih]
      simp
    | some v =>
      simp only [Option.isSome_some, if_true, List.foldl_cons]
      exact ih _

theorem intercalate_chunks_chars (cs : List Str) (x : Char) (hx : x ≠ ',' ∧ x ≠ ' ')
    (h : ∀ c ∈ cs, x ∉ c) : x ∉ ", ".toList.intercalate cs := by
  induction cs with
  | nil => simp [List.intercalate]
  | cons c r ih =>
    cases r with
    | nil =>
      have : ", ".toList.intercalate [c] = c := by simp [List.intercalate, List.intersperse]
      rw [this]
      exact h c (by simp)
    | cons c2 r2 =>
      rw [intercalate_cons_cons]
      simp only [List.mem_append, not_or]
      refine ⟨⟨h c (by simp), ?_⟩, ih (fun y hy => h y (by simp [hy]))⟩
      intro hm
      have : x = ',' ∨ x = ' ' := by simpa using hm
      rcases this with e | e
      · exact hx.1 e
      · exact hx.2 e

/-- What `parse_skid_block` computes on a block of chunks: the entry loop over the
trimmed chunks that are not blank and that `parse_entry` accepts. -/
theorem parse_skid_block_chunks (cs : List Str)
    (hcs : ∀ c ∈ cs, ',' ∉ c ∧ '\x7b' ∉ c ∧ '\x7d' ∉ c) (B : Str) (h : HandleMap) (i : IdMap) :
    parse_skid_block (chunk_block cs ++ B) h i =
      ((cs.map trim).filter (fun e => decide (e ≠ []) && (parse_entry e).isSome)).foldl
        process_entry (0, h, i) := by
  have hform : chunk_block cs ++ B =
      '\x7b' :: (' ' :: ", ".toList.intercalate cs ++ [' ']) ++ '\x7d' :: B := by
    unfold chunk_block
    simp
  have hb1 : '\x7b' ∉ (' ' :: ", ".toList.intercalate cs ++ [' ']) := by
    have := intercalate_chunks_chars cs '\x7b' (by decide) (fun c hc => (hcs c hc).2.1)
    simp only [List.mem_cons, List.mem_append, List.mem_singleton, not_or, List.not_mem_nil,
      or_false]
    exact ⟨⟨by decide, this⟩, by decide⟩
  have hb2 : '\x7d' ∉ (' ' :: ", ".toList.intercalate cs ++ [' ']) := by
    have := intercalate_chunks_chars cs '\x7d' (by decide) (fun c hc => (hcs c hc).2.2)
    simp only [List.mem_cons, List.mem_append, List.mem_singleton, not_or, List.not_mem_nil,
      or_false]
    exact ⟨⟨by decide, this⟩, by decide⟩
  unfold parse_skid_block
  rw [hform, locate_block_simple _ B hb1 hb2]
  simp only
  rw [split_entries_chunks cs [] (fun c hc => (hcs c hc).1), List.nil_append,
    process_entries_filter, List.filter_filter]
  congr 1
  apply List.filter_congr
  intro e _
  exact Bool.and_comm _ _

/-! ## Malformed table entries -/

/-- C14: malformed table entries are dropped without affecting the others.
For every block text `\x7b c_1, ..., c_k \x7d` (followed by any text `B`) whose
chunks contain no comma and no brace, `parse_skid_block` gives the same return
count and the same two maps as on the block obtained by deleting every malformed
chunk: one that is blank, has no `=`, has an empty name or an empty value after
trimming, or whose value, cut at the first `;` and trimmed again, has no numeric
prefix accepted by `strtoll` with base 0. -/
theorem malformed_entries_dropped (cs : List Str)
    (hcs : ∀ c ∈ cs, ',' ∉ c ∧ '\x7b' ∉ c ∧ '\x7d' ∉ c) (B : Str) (h : HandleMap) (i : IdMap) :
    parse_skid_block (chunk_block cs ++ B) h i =
      parse_skid_block (chunk_block (cs.filter (fun c => decide (¬ is_malformed c))) ++ B) h i := by
  have hcs2 : ∀ c ∈ cs.filter (fun c => decide (¬ is_malformed c)),
      ',' ∉ c ∧ '\x7b' ∉ c ∧ '\x7d' ∉ c := fun c hc => hcs c (List.mem_of_mem_filter hc)
  have hgood : ∀ c : Str, decide (¬ is_malformed c) =
      (decide (trim c ≠ []) && (parse_entry (trim c)).isSome) := by
    intro c
    rw [Bool.eq_iff_iff]
    simp only [decide_eq_true_eq, Bool.and_eq_true, is_malformed_iff, not_or, ne_eq,
      Option.isSome_iff_ne_none]
  rw [parse_skid_block_chunks cs hcs, parse_skid_block_chunks _ hcs2]
  congr 1
  rw [List.filter_map, List.filter_map, List.filter_filter]
  congr 1
  apply List.filter_congr
  intro c _
  simp only [Function.comp, hgood, Bool.and_self]

set_option maxRecDepth 100000 in
/-- Witness for `malformed_entries_dropped`: of the six chunks `A = 1`, `junk`,
`= 5`, `B =`, `C = x;` and `D = 0x10; tail`, only the first and the last are well
formed, and the block records the same as the block of those two. -/
theorem malformed_entries_dropped_witness :
    [" A = 1".toList, "junk".toList, "= 5".toList, "B = ".toList, "  ".toList, "C = x;".toList,
        "D = 0x10; tail".toList].filter (fun c => decide (¬ is_malformed c)) =
      [" A = 1".toList, "D = 0x10; tail".toList] ∧
    parse_skid_block (chunk_block [" A = 1".toList, "junk".toList, "= 5".toList, "B = ".toList,
        "  ".toList, "C = x;".toList, "D = 0x10; tail".toList] ++ []) [] [] =
      (2, [("A".toList, 1), ("D".toList, 16)], [(1, "A".toList), (16, "D".toList)]) ∧
    parse_skid_block (chunk_block [" A = 1".toList, "junk".toList, "= 5".toList, "B = ".toList,
        "  ".toList, "C = x;".toList, "D = 0x10; tail".toList] ++ []) [] [] =
      parse_skid_block (chunk_block ([" A = 1".toList, "junk".toList, "= 5".toList,
        "B = ".toList, "  ".toList, "C = x;".toList, "D = 0x10; tail".toList].filter
          (fun c => decide (¬ is_malformed c))) ++ []) [] [] :=
  ⟨by decide, by decide,
    malformed_entries_dropped _ (by decide) [] [] []⟩

/-! ### Sequences of records and an unbalanced tail -/

/-- The depth scan runs through a text that keeps the depth positive. -/
theorem scan_depth_append (body tail : Str) (d : Int) (i : Nat)
    (h : ∀ n, n ≤ body.length → 0 < d + brace_depth (body.take n)) :
    scan_depth (body ++ tail) d i = scan_depth tail (d + brace_depth body) (i + body.length) := by
  induction body generalizing d i with
  | nil => simp [brace_depth_nil]
  | cons c r ih =>
    have h1 := h 1 (by simp)
    simp only [List.take_succ_cons, List.take_zero, brace_depth_cons, brace_depth_nil] at h1
    have hr : ∀ e : Int, (∀ n, n ≤ (c :: r).length →
        0 < d + ((if c = '\x7b' then 1 else if c = '\x7d' then -1 else 0) +
          brace_depth (r.take (n - 1)))) →
        e = d + (if c = '\x7b' then 1 else if c = '\x7d' then -1 else 0) →
        ∀ n, n ≤ r.length → 0 < e + brace_depth (r.take n) := by
      intro e hh he n hn
      have := hh (n + 1) (by simp; omega)
      rw [Nat.add_sub_cancel] at this
      omega
    have hh : ∀ n, n ≤ (c :: r).length →
        0 < d + ((if c = '\x7b' then 1 else if c = '\x7d' then -1 else 0) +
          brace_depth (r.take (n - 1))) := by
      intro n hn
      cases n with
      | zero =>
        simp only [Nat.zero_sub, List.take_zero, brace_depth_nil]
        omega
      | succ n =>
        have := h (n + 1) hn
        rw [List.take_succ_cons, brace_depth_cons] at this
        simpa using this
    rw [List.cons_append, scan_depth, brace_depth_cons]
    by_cases c1 : c = '\x7b'
    · rw [if_pos c1, if_pos c1, ih (d + 1) (i + 1) (hr _ hh (by rw [if_pos c1]))]
      congr 1
      · ring
      · simp; omega
    · rw [if_neg c1, if_neg c1]
      by_cases c2 : c = '\x7d'
      · rw [if_neg c1, if_pos c2] at h1
        rw [if_pos c2, if_pos c2, if_neg (by omega),
          ih (d - 1) (i + 1) (hr _ hh (by rw [if_neg c1, if_pos c2]; ring))]
        congr 1
        · ring
        · simp; omega
      · rw [if_neg c2, if_neg c2, ih d (i + 1) (hr _ hh (by rw [if_neg c1, if_neg c2]; ring))]
        congr 1
        · ring
        · simp; omega

theorem brace_balanced_depth (body : Str) (h : brace_balanced body) :
    brace_depth body = 0 ∧ ∀ n, n ≤ body.length → 0 < 1 + brace_depth (body.take n) := by
  constructor
  · unfold brace_depth
    rw [h.1]
    ring
  · intro n _
    have := h.2 _ (List.take_prefix n body)
    unfold brace_depth
    omega

/-- The brace scan closes a block with a brace-balanced body at the brace that
follows the body. -/
theorem match_brace_balanced (s : Str) (ob : Nat) (body R : Str)
    (h : s.drop ob = '\x7b' :: body ++ '\x7d' :: R) (hb : brace_balanced body) :
    match_brace s ob = some (ob + 1 + body.length) := by
  obtain ⟨h0, hpos⟩ := brace_balanced_depth body hb
  unfold match_brace
  rw [h, List.cons_append, scan_depth]
  simp only [if_true, zero_add]
  rw [scan_depth_append body ('\x7d' :: R) 1 (ob + 1) hpos, h0, scan_depth]
  simp

/-- The brace scan finds no closing brace when the depth never returns to zero. -/
theorem match_brace_never (s : Str) (ob : Nat) (R : Str)
    (h : s.drop ob = '\x7b' :: R) (hR : depth_never_zero R) : match_brace s ob = none := by
  unfold match_brace
  rw [h, scan_depth]
  simp only [if_true, zero_add]
  cases hm : scan_depth R 1 (ob + 1) with
  | none => rfl
  | some r =>
    obtain ⟨k, -, hk, hz, -⟩ := (scan_depth_eq_some R 1 (ob + 1) r (by norm_num)).1 hm
    have := hR (k + 1) (by omega)
    rw [brace_depth_cons, if_pos rfl] at this
    exact absurd hz this

/-- The searches of one iteration of the record loop on a text that continues with
a separator without `[` and the header `[K] = \x7b` of a record. -/
theorem record_header (t : Str) (i : Nat) (P K rest : Str)
    (h : t.drop i = P ++ '[' :: (K ++ ']' :: (' ' :: '=' :: ' ' :: '\x7b' :: rest)))
    (hP : '[' ∉ P) (hK : ']' ∉ K) :
    find_char t '[' i = some (i + P.length) ∧
    find_char t ']' (i + P.length + 1) = some (i + P.length + 1 + K.length) ∧
    trim (substr t (i + P.length + 1) (i + P.length + 1 + K.length - (i + P.length) - 1)) =
      trim K ∧
    find_char t '=' (i + P.length + 1 + K.length + 1) =
      some (i + P.length + 1 + K.length + 1 + 1) ∧
    find_char t '\x7b' (i + P.length + 1 + K.length + 1 + 1 + 1) =
      some (i + P.length + 1 + K.length + 1 + 1 + 1 + 1) ∧
    t.drop (i + P.length + 1 + K.length + 1 + 1 + 1 + 1) = '\x7b' :: rest := by
  have hlb : find_char t '[' i = some (i + P.length) := find_char_of_drop t '[' i P _ h hP
  have d1 : t.drop (i + P.length + 1) =
      K ++ ']' :: (' ' :: '=' :: ' ' :: '\x7b' :: rest) :=
    drop_of_drop_eq t i _ (P ++ ['[']) _ (by rw [h]; simp) (by simp; omega)
  have hrb : find_char t ']' (i + P.length + 1) = some (i + P.length + 1 + K.length) :=
    find_char_of_drop t ']' _ K _ d1 hK
  have hkey : substr t (i + P.length + 1) (i + P.length + 1 + K.length - (i + P.length) - 1) = K := by
    rw [show i + P.length + 1 + K.length - (i + P.length) - 1 = K.length by omega]
    exact substr_of_drop _ _ _ _ d1
  have d2 : t.drop (i + P.length + 1 + K.length + 1) =
      [' '] ++ '=' :: (' ' :: '\x7b' :: rest) :=
    drop_of_drop_eq t (i + P.length + 1) _ (K ++ [']']) _ (by rw [d1]; simp) (by simp; omega)
  have heq : find_char t '=' (i + P.length + 1 + K.length + 1) =
      some (i + P.length + 1 + K.length + 1 + 1) :=
    find_char_of_drop t '=' _ [' '] _ d2 (by decide)
  have d3 : t.drop (i + P.length + 1 + K.length + 1 + 1 + 1) =
      [' '] ++ '\x7b' :: rest :=
    drop_of_drop_eq t (i + P.length + 1 + K.length + 1) _ [' ', '='] _ (d2.trans rfl) rfl
  have hob : find_char t '\x7b' (i + P.length + 1 + K.length + 1 + 1 + 1) =
      some (i + P.length + 1 + K.length + 1 + 1 + 1 + 1) :=
    find_char_of_drop t '\x7b' _ [' '] _ d3 (by decide)
  have d4 : t.drop (i + P.length + 1 + K.length + 1 + 1 + 1 + 1) = '\x7b' :: rest :=
    drop_of_drop_eq t (i + P.length + 1 + K.length + 1 + 1 + 1) _ [' '] _ (d3.trans rfl)
      (by simp)
  rw [hkey]
  exact ⟨hlb, hrb, rfl, heq, hob, d4⟩

/-- One iteration of the record loop on a complete record `[K] = \x7b body \x7d` with a
brace-balanced body, after a separator `P` without `[`. -/
theorem record_step_complete (t : Str) (i : Nat) (P K body S : Str)
    (h : t.drop i = P ++ info_record K body ++ S)
    (hP : '[' ∉ P) (hK : ']' ∉ K) (hb : brace_balanced body) :
    record_step t i = .record (trim K) body (i + (P ++ info_record K body).length) ∧
      t.drop (i + (P ++ info_record K body).length) = S := by
  have h1 : t.drop i = P ++ '[' :: (K ++ ']' :: (' ' :: '=' :: ' ' :: '\x7b' ::
      (body ++ '\x7d' :: S))) := by
    rw [h]
    simp [info_record]
  obtain ⟨hlb, hrb, hkey, heq, hob, d4⟩ := record_header t i P K _ h1 hP hK
  have d4b : t.drop (i + P.length + 1 + K.length + 1 + 1 + 1 + 1) =
      '\x7b' :: body ++ '\x7d' :: S := by
    rw [d4]; rfl
  have hcb := match_brace_balanced t _ body S d4b hb
  have d5 : t.drop (i + P.length + 1 + K.length + 1 + 1 + 1 + 1 + 1) = body ++ '\x7d' :: S :=
    drop_of_drop_eq t (i + P.length + 1 + K.length + 1 + 1 + 1 + 1) _ ['\x7b'] _
      (by rw [d4]; simp) (by simp)
  have hbody : substr t (i + P.length + 1 + K.length + 1 + 1 + 1 + 1 + 1)
      (i + P.length + 1 + K.length + 1 + 1 + 1 + 1 + 1 + body.length -
        (i + P.length + 1 + K.length + 1 + 1 + 1 + 1) - 1) = body := by
    rw [show i + P.length + 1 + K.length + 1 + 1 + 1 + 1 + 1 + body.length -
        (i + P.length + 1 + K.length + 1 + 1 + 1 + 1) - 1 = body.length by omega]
    exact substr_of_drop _ _ _ _ d5
  have hlen : i + (P ++ info_record K body).length =
      i + P.length + 1 + K.length + 1 + 1 + 1 + 1 + 1 + body.length + 1 := by
    simp [info_record]
    omega
  have d6 : t.drop (i + (P ++ info_record K body).length) = S := by
    exact drop_of_drop_eq t i _ (P ++ info_record K body) S h rfl
  refine ⟨?_, d6⟩
  unfold record_step
  rw [hlb]
  simp only [hrb, hkey, heq, hob, hcb, hbody]
  rw [hlen]

/-- One iteration of the record loop on a record that is opened and never closed:
the loop stops. -/
theorem record_step_unbalanced (t : Str) (i : Nat) (P k R : Str)
    (h : t.drop i = P ++ unbalanced_tail k R)
    (hP : '[' ∉ P) (hk : ']' ∉ k) (hR : depth_never_zero R) :
    record_step t i = .stop := by
  have h1 : t.drop i = P ++ '[' :: (k ++ ']' :: (' ' :: '=' :: ' ' :: '\x7b' :: R)) := by
    rw [h]
    simp [unbalanced_tail]
  obtain ⟨hlb, hrb, hkey, heq, hob, d4⟩ := record_header t i P k _ h1 hP hk
  have hcb := match_brace_never t _ R d4 hR
  unfold record_step
  rw [hlb]
  simp only [hrb, hkey, heq, hob, hcb]

theorem info_records_cons (r : Str × Str × Str) (rs : List (Str × Str × Str)) :
    info_records (r :: rs) = r.1 ++ info_record r.2.1 r.2.2 ++ info_records rs := by
  simp [info_records]

/-- The record loop on a sequence of complete records: after one iteration per
record the scan offset is past the sequence and every record has been through the
second half of the loop body. -/
theorem scan_records_complete (M : HandleMap) (rs : List (Str × Str × Str))
    (hrs : ∀ r ∈ rs, complete_record r) (t T : Str) (f i : Nat) (N : IdMap)
    (h : t.drop i = info_records rs ++ T) :
    scan_records t M (rs.length + f) i N =
      scan_records t M f (i + (info_records rs).length) (record_entries M rs N) := by
  induction rs generalizing i N with
  | nil => simp [info_records, record_entries]
  | cons r rs ih =>
    obtain ⟨hsep, hkey, hbody⟩ := hrs r (by simp)
    have h1 : t.drop i = r.1 ++ info_record r.2.1 r.2.2 ++ (info_records rs ++ T) := by
      rw [h, info_records_cons]
      simp
    obtain ⟨hstep, hdrop⟩ := record_step_complete t i r.1 r.2.1 r.2.2 _ h1 hsep hkey hbody
    rw [show (r :: rs).length + f = (rs.length + f) + 1 by simp; omega, scan_records, hstep]
    simp only
    rw [ih (fun x hx => hrs x (by simp [hx])) _ _ hdrop, info_records_cons]
    have hl : i + (r.1 ++ info_record r.2.1 r.2.2).length + (info_records rs).length =
        i + (r.1 ++ info_record r.2.1 r.2.2 ++ info_records rs).length := by
      simp only [List.length_append]
      omega
    rw [hl]
    rfl

/-- The record loop of the function on a sequence of complete records followed by
a text at which the loop stops: every record of the sequence is processed. -/
theorem scan_records_then_stop (M : HandleMap) (rs : List (Str × Str × Str))
    (hrs : ∀ r ∈ rs, complete_record r) (T : Str) (N : IdMap)
    (hstop : record_step (info_records rs ++ T) (info_records rs).length = .stop) :
    scan_records (info_records rs ++ T) M ((info_records rs ++ T).length + 1) 0 N =
      record_entries M rs N := by
  have hfuel := scan_records_fuel (info_records rs ++ T) M ((info_records rs ++ T).length + 1) 0
    rs.length N (Nat.zero_le _) (by omega)
  rw [← hfuel, Nat.add_comm,
    scan_records_complete M rs hrs (info_records rs ++ T) T _ 0 N (by simp), Nat.zero_add,
    scan_records, hstop]

theorem load_names_of_no_dashes (t : Str) (M : HandleMap) (N : IdMap) (h : ¬ dashes <:+: t) :
    load_names_from_skillinfolist_lub t M N = scan_records t M (t.length + 1) 0 N := by
  unfold load_names_from_skillinfolist_lub
  simp only
  rw [strip_lua_comments_eq_self _ h]

/-! ## Partial results before an unbalanced record -/

set_option maxRecDepth 100000 in
/-- C15 (as stated) fails when the tail has a comment with braces: with `P` the
one record `[1] = \x7b SkillName = "a" \x7d` and the tail `[2] = \x7b` followed by
`R` = a line comment with two opening braces, a line with a closing brace, and the
complete record `[3] = \x7b SkillName = "c" \x7d`, the depth counted in `R` from the
brace of the tail is never zero, yet after comment stripping the record `[2]` is
closed and the record `[3]` is found: the map extracted from `P ++ S` has the entry
for 3, the map extracted from `P` has not. -/
theorem unbalanced_tail_counterexample :
    complete_record ([], "1".toList, " SkillName = \"a\" ".toList) ∧
    ¬ dashes <:+: info_records [([], "1".toList, " SkillName = \"a\" ".toList)] ∧
    depth_never_zero " \x2d\x2d \x7b\x7b\n\x7d [3] = \x7b SkillName = \"c\" \x7d".toList ∧
    load_names_from_skillinfolist_lub
      (info_records [([], "1".toList, " SkillName = \"a\" ".toList)]) [] [] =
        [(1, "a".toList)] ∧
    load_names_from_skillinfolist_lub
      (info_records [([], "1".toList, " SkillName = \"a\" ".toList)] ++
        unbalanced_tail "2".toList
          " \x2d\x2d \x7b\x7b\n\x7d [3] = \x7b SkillName = \"c\" \x7d".toList) [] [] =
        [(1, "a".toList), (3, "c".toList)] := by
  refine ⟨?_, ?_, ?_, ?_, ?_⟩ <;> decide

/-- C15 (amended): partial results survive an unbalanced tail.  Let `P` be a sequence
of complete records `[key] = \x7b body \x7d`, each with a key without `]` and a
brace-balanced body, each preceded by text without `[`, and the last followed by a
text `post` without `[`; let `S` be `[k] = \x7b` followed by `R`, where `k` has no `]`
and the brace depth counted from that brace never returns to zero.  The record loop
on `P ++ S` stops at the unbalanced record and gives the map that it gives on `P`
alone: every record of `P` recorded in order.  When `P ++ S` has no `--`, so that both
texts are comment-free, this is the map that `load_names_from_skillinfolist_lub`
extracts from `P ++ S` and from `P`. -/
theorem partial_results_survive (M : HandleMap) (N : IdMap) (rs : List (Str × Str × Str))
    (post k R : Str) (hrs : ∀ r ∈ rs, complete_record r) (hpost : '[' ∉ post) (hk : ']' ∉ k)
    (hR : depth_never_zero R) :
    scan_records (info_records rs ++ post ++ unbalanced_tail k R) M
        ((info_records rs ++ post ++ unbalanced_tail k R).length + 1) 0 N =
      record_entries M rs N ∧
    scan_records (info_records rs ++ post) M ((info_records rs ++ post).length + 1) 0 N =
      record_entries M rs N ∧
    (¬ dashes <:+: info_records rs ++ post ++ unbalanced_tail k R →
      load_names_from_skillinfolist_lub (info_records rs ++ post ++ unbalanced_tail k R) M N =
        load_names_from_skillinfolist_lub (info_records rs ++ post) M N ∧
      load_names_from_skillinfolist_lub (info_records rs ++ post) M N =
        record_entries M rs N) := by
  have h1 : scan_records (info_records rs ++ post ++ unbalanced_tail k R) M
      ((info_records rs ++ post ++ unbalanced_tail k R).length + 1) 0 N =
      record_entries M rs N := by
    rw [List.append_assoc]
    apply scan_records_then_stop M rs hrs
    exact record_step_unbalanced _ _ post k R (by simp) hpost hk hR
  have h2 : scan_records (info_records rs ++ post) M ((info_records rs ++ post).length + 1) 0 N =
      record_entries M rs N := by
    apply scan_records_then_stop M rs hrs
    apply record_step_stop
    simpa using hpost
  refine ⟨h1, h2, ?_⟩
  intro hd
  have hdP : ¬ dashes <:+: info_records rs ++ post :=
    fun hc => hd (hc.trans (List.prefix_append _ _).isInfix)
  rw [load_names_of_no_dashes _ M N hd, load_names_of_no_dashes _ M N hdP, h1, h2]
  exact ⟨rfl, rfl⟩

set_option maxRecDepth 100000 in
/-- Witness for `partial_results_survive`: two complete records, the second with a
nested block, followed by a record that is opened and never closed. -/
theorem partial_results_survive_witness :
    load_names_from_skillinfolist_lub
      (info_records [([], "1".toList, " SkillName = \"a\" ".toList),
          (",\n".toList, "SKID.B".toList, " SkillName = \"b\", Need = \x7b 1, 2 \x7d ".toList)] ++
        ",\n".toList ++
        unbalanced_tail "3".toList " SkillName = \"c\", Need = \x7b 1 \x7d\n".toList)
      [("B".toList, 2)] [] = [(1, "a".toList), (2, "b".toList)] ∧
    load_names_from_skillinfolist_lub
      (info_records [([], "1".toList, " SkillName = \"a\" ".toList),
          (",\n".toList, "SKID.B".toList, " SkillName = \"b\", Need = \x7b 1, 2 \x7d ".toList)] ++
        ",\n".toList) [("B".toList, 2)] [] = [(1, "a".toList), (2, "b".toList)] := by
  have h := (partial_results_survive [("B".toList, 2)] []
    [([], "1".toList, " SkillName = \"a\" ".toList),
      (",\n".toList, "SKID.B".toList, " SkillName = \"b\", Need = \x7b 1, 2 \x7d ".toList)]
    ",\n".toList "3".toList " SkillName = \"c\", Need = \x7b 1 \x7d\n".toList
    (by decide) (by decide) (by decide) (by decide)).2.2 (by decide)
  exact ⟨h.1.trans (h.2.trans (by decide)), h.2.trans (by decide)⟩

/-! ### The record of a handle among other records -/

theorem bracketed_keys_mem (pre key rest : Str) (h : ']' ∉ key) :
    key ∈ bracketed_keys (pre ++ '[' :: (key ++ ']' :: rest)) := by
  induction pre with
  | nil =>
    rw [List.nil_append, bracketed_keys, if_pos ⟨rfl, by simp⟩,
      takeWhile_append_sep key rest ']' (fun c hc e => h (e ▸ hc))]
    exact List.mem_cons_self _ _
  | cons a r ih =>
    rw [List.cons_append, bracketed_keys]
    split
    · exact List.mem_cons_of_mem _ ih
    · exact ih

/-- The key of a matched record is the trimmed text between a `[` at or after the
scan offset and the first `]` after it. -/
theorem record_step_key (t : Str) (i i1 : Nat) (key body : Str)
    (h : record_step t i = .record key body i1) :
    ∃ lb rb, find_char t '[' i = some lb ∧ find_char t ']' (lb + 1) = some rb ∧
      key = trim (substr t (lb + 1) (rb - lb - 1)) := by
  unfold record_step at h
  cases h1 : find_char t '[' i with
  | none => rw [h1] at h; simp at h
  | some lb =>
    rw [h1] at h
    simp only at h
    cases h2 : find_char t ']' (lb + 1) with
    | none => rw [h2] at h; simp at h
    | some rb =>
      rw [h2] at h
      simp only at h
      cases h3 : find_char t '=' (rb + 1) with
      | none => rw [h3] at h; simp at h
      | some eq =>
        rw [h3] at h
        simp only at h
        cases h4 : find_char t '\x7b' (eq + 1) with
        | none => rw [h4] at h; simp at h
        | some ob =>
          rw [h4] at h
          simp only at h
          cases h5 : match_brace t ob with
          | none => rw [h5] at h; simp at h
          | some cb =>
            rw [h5] at h
            simp only [RecordStep.record.injEq] at h
            exact ⟨lb, rb, rfl, h2, h.1.symm⟩

/-- The text between a `[` and the first `]` after it is one of the bracketed keys
of every suffix that starts at or before the `[`. -/
theorem bracketed_keys_of_find (t : Str) (i0 i lb rb : Nat) (hi : i0 ≤ i)
    (h1 : find_char t '[' i = some lb) (h2 : find_char t ']' (lb + 1) = some rb) :
    substr t (lb + 1) (rb - lb - 1) ∈ bracketed_keys (t.drop i0) := by
  obtain ⟨b1, b2, b3⟩ := find_char_lt_length _ _ _ _ h1
  obtain ⟨c1, c2, c3⟩ := find_char_lt_length _ _ _ _ h2
  have hno := substr_no_char t ']' (lb + 1) rb h2
  rw [show rb - (lb + 1) = rb - lb - 1 by omega] at hno
  have d1 : t.drop lb = '[' :: t.drop (lb + 1) := by
    rw [List.drop_eq_getElem_cons b2]
    congr 1
    have := List.getElem?_eq_getElem b2
    rw [b3] at this
    exact (Option.some.inj this).symm
  have d2 : t.drop rb = ']' :: t.drop (rb + 1) := by
    rw [List.drop_eq_getElem_cons c2]
    congr 1
    have := List.getElem?_eq_getElem c2
    rw [c3] at this
    exact (Option.some.inj this).symm
  have d3 : t.drop (lb + 1) = substr t (lb + 1) (rb - lb - 1) ++ t.drop rb := by
    unfold substr
    have := List.take_append_drop (rb - lb - 1) (t.drop (lb + 1))
    rw [List.drop_drop, show lb + 1 + (rb - lb - 1) = rb by omega] at this
    exact this.symm
  have d4 : t.drop i0 = (t.drop i0).take (lb - i0) ++
      '[' :: (substr t (lb + 1) (rb - lb - 1) ++ ']' :: t.drop (rb + 1)) := by
    rw [← d2, ← d3, ← d1]
    have := List.take_append_drop (lb - i0) (t.drop i0)
    rw [List.drop_drop, show i0 + (lb - i0) = lb by omega] at this
    exact this.symm
  rw [d4]
  exact bracketed_keys_mem _ _ _ hno

/-- An entry of the map is kept by the record loop when no bracketed key of the text
still to be scanned resolves to its id. -/
theorem scan_records_keeps (t : Str) (M : HandleMap) (N : Int) (X : Str) (i0 : Nat)
    (hS : ∀ key ∈ bracketed_keys (t.drop i0), resolve_key M (trim key) ≠ N)
    (fuel i : Nat) (n : IdMap) (hi : i0 ≤ i) (hn : umap_find n N = some X) :
    umap_find (scan_records t M fuel i n) N = some X := by
  induction fuel generalizing i n with
  | zero => exact hn
  | succ fuel ih =>
    rw [scan_records]
    rcases record_step_progress t i with h | ⟨i1, h, h1, -⟩ | ⟨key, body, i1, h, h1, -⟩
    · rw [h]; exact hn
    · rw [h]; exact ih i1 n (by omega) hn
    · rw [h]
      simp only
      apply ih i1 _ (by omega)
      obtain ⟨lb, rb, f1, f2, hkey⟩ := record_step_key t i i1 key body h
      have hne := hS _ (bracketed_keys_of_find t i0 i lb rb hi f1 f2)
      rw [← hkey] at hne
      unfold record_entry
      simp only
      split
      · rw [umap_find_umap_set, if_neg hne]
        exact hn
      · exact hn

theorem brace_balanced_append (A B : Str) (hA : brace_balanced A) (hB : brace_balanced B) :
    brace_balanced (A ++ B) := by
  constructor
  · rw [List.count_append, List.count_append, hA.1, hB.1]
  · intro p hp
    rw [List.prefix_iff_eq_take.1 hp, List.take_append_eq_append_take, List.count_append,
      List.count_append]
    exact Nat.add_le_add (hA.2 _ (List.take_prefix _ _)) (hB.2 _ (List.take_prefix _ _))

theorem record_body_balanced (X : Str) (hX : brace_balanced X) :
    brace_balanced (record_body X) := by
  unfold record_body
  exact brace_balanced_append _ _ (brace_balanced_append _ _ (by decide) hX) (by decide)

theorem record_text_eq (K X : Str) : record_text K X = info_record K (record_body X) := by
  simp [record_text, info_record, record_body]

theorem trim_plain_handle (H : Str) (h : plain_handle H) : trim H = H := by
  apply trim_self H h.1
  · cases hc : is_trim_char (H.head h.1) with
    | false => rfl
    | true =>
      have := is_space_of_is_trim_char _ hc
      rw [(h.2 _ (List.head_mem h.1)).1] at this
      exact absurd this (by simp)
  · cases hc : is_trim_char (H.getLast h.1) with
    | false => rfl
    | true =>
      have := is_space_of_is_trim_char _ hc
      rw [(h.2 _ (List.getLast_mem h.1)).1] at this
      exact absurd this (by simp)

theorem filter_space_plain_handle (H : Str) (h : plain_handle H) :
    H.filter (fun c => !is_space c) = H := by
  rw [List.filter_eq_self]
  intro c hc
  simp [(h.2 c hc).1]

/-- The key `H` and the key `PREFIX.H` resolve to the id of the plain handle `H`. -/
theorem resolve_key_plain (M : HandleMap) (K H : Str) (N : Int) (hH : plain_handle H)
    (hK : (K = H ∧ is_digit_string H = false) ∨ ∃ A, ']' ∉ A ∧ K = A ++ '.' :: H)
    (hm : umap_find M H = some N) : resolve_key M (trim K) = N := by
  have hdot : '.' ∉ H := fun hc => (hH.2 _ hc).2.1 rfl
  have hhandle : key_handle K = H := by
    unfold key_handle
    rcases hK with ⟨rfl, -⟩ | ⟨A, -, rfl⟩
    · rw [after_last_dot_of_not_mem _ hdot, filter_space_plain_handle _ hH]
    · rw [after_last_dot_append A H hdot, filter_space_plain_handle _ hH]
  have hdig : ¬ is_digit_string (trim K) = true := by
    rcases hK with ⟨rfl, hnd⟩ | ⟨A, -, rfl⟩
    · rw [trim_plain_handle _ hH, hnd]
      simp
    · have hne : '.' :: H ≠ [] := by simp
      have hlast : ('.' :: H).getLast hne = H.getLast hH.1 := List.getLast_cons hH.1
      have hl2 : is_trim_char (H.getLast hH.1) = false := by
        cases hc : is_trim_char (H.getLast hH.1) with
        | false => rfl
        | true =>
          have := is_space_of_is_trim_char _ hc
          rw [(hH.2 _ (List.getLast_mem hH.1)).1] at this
          exact absurd this (by simp)
      rw [trim_append A ('.' :: H) hne (by show is_trim_char '.' = false; decide)
        (by rw [hlast]; exact hl2)]
      unfold is_digit_string
      simp [is_digit]
  rw [resolve_key_trim, if_neg hdig, hhandle, if_neg hH.1, hm]
  rfl

/-- The record loop on a text with complete records, then the record of a key that
resolves to `N`, then a text none of whose bracketed keys resolves to `N`: the
resulting map sends `N` to the name of that record. -/
theorem scan_records_round_trip (M : HandleMap) (rs : List (Str × Str × Str))
    (sep K X S t : Str) (N : Int)
    (ht : t = info_records rs ++ sep ++ record_text K X ++ S)
    (hrs : ∀ r ∈ rs, complete_record r) (hsep : '[' ∉ sep) (hK : ']' ∉ K)
    (hres : resolve_key M (trim K) = N) (hN : 0 ≤ N)
    (hX : X ≠ [] ∧ '"' ∉ X ∧ brace_balanced X)
    (hS : ∀ key ∈ bracketed_keys S, resolve_key M (trim key) ≠ N) :
    umap_find (scan_records t M (t.length + 1) 0 []) N = some X := by
  have hdrop0 : t.drop 0 = info_records rs ++ (sep ++ info_record K (record_body X) ++ S) := by
    rw [ht, record_text_eq]
    simp
  have hfuel := scan_records_fuel t M (t.length + 1) 0 rs.length [] (Nat.zero_le _) (by omega)
  rw [← hfuel, Nat.add_comm, scan_records_complete M rs hrs t _ (t.length + 1) 0 [] hdrop0,
    Nat.zero_add]
  have hdrop1 : t.drop (info_records rs).length = sep ++ info_record K (record_body X) ++ S := by
    have := drop_of_drop t 0 _ _ hdrop0
    rwa [Nat.zero_add] at this
  obtain ⟨hstep, hrest⟩ := record_step_complete t _ sep K (record_body X) S hdrop1 hsep hK
    (record_body_balanced X hX.2.2)
  rw [scan_records, hstep]
  simp only
  apply scan_records_keeps t M N X _ (by rw [hrest]; exact hS) _ _ _ (le_refl _)
  unfold record_entry
  simp only [hres, find_field_string_record_body X hX.2.1]
  rw [if_pos ⟨hX.1, hN⟩, umap_find_umap_set, if_pos rfl]

/-! ## Round trip from the enumeration to the name table -/

set_option maxRecDepth 100000 in
/-- C3 (as stated) fails: each enumeration text below maps the handle to the id, the
info-list text contains the record, and the name table lacks the line `H#X#`:
a negative id; an id shared with a later handle; an empty name; a name with a
closing brace; a record after a stray `[`; a later record for the same id; a handle
made of digits; a handle with a blank inside; a handle with a dot inside; a prefix
with a `]`; a record inside a line comment. -/
theorem round_trip_counterexample :
    (umap_find (load_ids_from_lub "SKID = \x7b A = -1 \x7d".toList [] []).2.1 "A".toList = some (-1) ∧
      main "SKID = \x7b A = -1 \x7d".toList "[A] = \x7b SkillName = \"X\" \x7d".toList =
        some (["-1 A".toList], [])) ∧
    (umap_find (load_ids_from_lub "SKID = \x7b A = 1, B = 1 \x7d".toList [] []).2.1 "A".toList = some 1 ∧
      main "SKID = \x7b A = 1, B = 1 \x7d".toList "[A] = \x7b SkillName = \"X\" \x7d".toList =
        some (["1 B".toList], ["B#X#".toList])) ∧
    (umap_find (load_ids_from_lub "SKID = \x7b A = 1 \x7d".toList [] []).2.1 "A".toList = some 1 ∧
      main "SKID = \x7b A = 1 \x7d".toList "[A] = \x7b SkillName = \"\" \x7d".toList =
        some (["1 A".toList], []) ∧
      main "SKID = \x7b A = 1 \x7d".toList "[A] = \x7b SkillName = \"\x7d\" \x7d".toList =
        some (["1 A".toList], []) ∧
      main "SKID = \x7b A = 1 \x7d".toList "[ [A] = \x7b SkillName = \"X\" \x7d".toList =
        some (["1 A".toList], []) ∧
      main "SKID = \x7b A = 1 \x7d".toList
          "[A] = \x7b SkillName = \"X\" \x7d [1] = \x7b SkillName = \"Y\" \x7d".toList =
        some (["1 A".toList], ["A#Y#".toList])) ∧
    (umap_find (load_ids_from_lub "SKID = \x7b 7 = 1 \x7d".toList [] []).2.1 "7".toList = some 1 ∧
      main "SKID = \x7b 7 = 1 \x7d".toList "[7] = \x7b SkillName = \"X\" \x7d".toList =
        some (["1 7".toList], [])) ∧
    (umap_find (load_ids_from_lub "SKID = \x7b A B = 1 \x7d".toList [] []).2.1 "A B".toList = some 1 ∧
      main "SKID = \x7b A B = 1 \x7d".toList "[A B] = \x7b SkillName = \"X\" \x7d".toList =
        some (["1 A B".toList], [])) ∧
    (umap_find (load_ids_from_lub "SKID = \x7b A.B = 1 \x7d".toList [] []).2.1 "A.B".toList = some 1 ∧
      main "SKID = \x7b A.B = 1 \x7d".toList "[A.B] = \x7b SkillName = \"X\" \x7d".toList =
        some (["1 A.B".toList], [])) ∧
    (main "SKID = \x7b A = 1 \x7d".toList "[P]Q.A] = \x7b SkillName = \"X\" \x7d".toList =
        some (["1 A".toList], []) ∧
      main "SKID = \x7b A = 1 \x7d".toList
          "\x2d\x2d [A] = \x7b SkillName = \"X\" \x7d".toList =
        some (["1 A".toList], [])) := by
  refine ⟨⟨?_, ?_⟩, ⟨?_, ?_⟩, ⟨?_, ?_, ?_, ?_, ?_⟩, ⟨?_, ?_⟩, ⟨?_, ?_⟩, ⟨?_, ?_⟩, ?_, ?_⟩ <;> decide

/-- C3 (amended): round trip from the enumeration to the name table.  Let the maps
loaded from the enumeration text send the plain handle `H` (non-empty, without
whitespace, `.` and `]`) to `N` and `N` back to `H`, with `0 ≤ N`, and let `X` be a
non-empty display name without double quote and with balanced braces.  Let the
info-list text, once its comments are stripped, consist of complete records
`[key] = \x7b body \x7d` (keys without `]`, brace-balanced bodies, each preceded by
text without `[`), then a text without `[`, then the record
`[H] = \x7b SkillName = "X" \x7d` (`H` not all digits) or
`[PREFIX.H] = \x7b SkillName = "X" \x7d` (`PREFIX` without `]`), then any text in which no
bracketed key resolves to `N`.  Then `main` writes a name table that contains the
line made of `H`, a `#`, `X` and a `#`. -/
theorem round_trip_name_table (skillid skillinfolist : Str) (rs : List (Str × Str × Str))
    (sep K H X S : Str) (N : Int) (handle_to_id : HandleMap) (id_to_handle : IdMap)
    (hload : load_ids_from_lub skillid [] [] = (true, handle_to_id, id_to_handle))
    (hH : umap_find handle_to_id H = some N) (hback : umap_find id_to_handle N = some H)
    (hN : 0 ≤ N) (hplain : plain_handle H)
    (hX : X ≠ [] ∧ '"' ∉ X ∧ brace_balanced X)
    (hK : (K = H ∧ is_digit_string H = false) ∨ ∃ A, ']' ∉ A ∧ K = A ++ '.' :: H)
    (hrs : ∀ r ∈ rs, complete_record r) (hsep : '[' ∉ sep)
    (hS : ∀ key ∈ bracketed_keys S, resolve_key handle_to_id (trim key) ≠ N)
    (hinfo : strip_lua_comments skillinfolist =
      info_records rs ++ sep ++ record_text K X ++ S) :
    ∃ listings, main skillid skillinfolist = some listings ∧
      H ++ '#' :: X ++ ['#'] ∈ listings.2 := by
  have hbr : ']' ∉ H := fun hc => (hplain.2 _ hc).2.2 rfl
  have hKb : ']' ∉ K := by
    rcases hK with ⟨rfl, -⟩ | ⟨A, hA, rfl⟩
    · exact hbr
    · simp only [List.mem_append, List.mem_cons, not_or]
      exact ⟨hA, by decide, hbr⟩
  have hres := resolve_key_plain handle_to_id K H N hplain hK hH
  have hnames : umap_find (load_names_from_skillinfolist_lub skillinfolist handle_to_id []) N =
      some X := by
    unfold load_names_from_skillinfolist_lub
    exact scan_records_round_trip handle_to_id rs sep K X S _ N hinfo hrs hsep hKb hres hN hX hS
  refine ⟨(id_handle_listing id_to_handle, name_table_listing id_to_handle
    (load_names_from_skillinfolist_lub skillinfolist handle_to_id [])), ?_, ?_⟩
  · unfold main
    rw [hload]
  · have hline := name_table_lines_mem
      (load_names_from_skillinfolist_lub skillinfolist handle_to_id [])
      (id_handle_vec id_to_handle) N H X
      ((sort_by_id_perm _).mem_iff.2 (umap_find_mem _ _ _ hback)) hnames
    exact hline

set_option maxRecDepth 100000 in
/-- Witness for the amended C3.  First the example laid out as a data file: the
record `[SKID.NV_FIRSTAID]` follows the record `[1]` and a block comment, and the
name table has the line `NV_FIRSTAID#First Aid#`.  Then a text in which the record
`[NV_BASIC]` comes first, before a line comment and the record of another handle,
and the name table has the line `NV_BASIC#Basic Skill#`. -/
theorem round_trip_name_table_witness :
    (∃ listings, main example_skillid_file example_skillinfolist_file = some listings ∧
      "NV_FIRSTAID#First Aid#".toList ∈ listings.2) ∧
    (∃ listings, main example_skillid
        "[NV_BASIC] = \x7b SkillName = \"Basic Skill\" \x7d \x2d\x2d first\n[SKID.NV_FIRSTAID] = \x7b SkillName = \"First Aid\" \x7d".toList =
          some listings ∧
      "NV_BASIC#Basic Skill#".toList ∈ listings.2) :=
  ⟨round_trip_name_table example_skillid_file example_skillinfolist_file
      [("SKILL_INFO_LIST = \x7b\n\t".toList, "1".toList, " SkillName = \"Basic Skill\" ".toList)]
      ",\n\t             \n\t".toList "SKID.NV_FIRSTAID".toList "NV_FIRSTAID".toList
      "First Aid".toList "\n\x7d\n".toList 2
      [("NV_BASIC".toList, 1), ("NV_FIRSTAID".toList, 2)]
      [(1, "NV_BASIC".toList), (2, "NV_FIRSTAID".toList)]
      (by decide) (by decide) (by decide) (by decide) (by decide) (by decide)
      (Or.inr ⟨"SKID".toList, by decide, by decide⟩) (by decide) (by decide) (by decide)
      (by decide),
    round_trip_name_table example_skillid
      "[NV_BASIC] = \x7b SkillName = \"Basic Skill\" \x7d \x2d\x2d first\n[SKID.NV_FIRSTAID] = \x7b SkillName = \"First Aid\" \x7d".toList
      [] [] "NV_BASIC".toList "NV_BASIC".toList "Basic Skill".toList
      " \n[SKID.NV_FIRSTAID] = \x7b SkillName = \"First Aid\" \x7d".toList 1
      [("NV_BASIC".toList, 1), ("NV_FIRSTAID".toList, 2)]
      [(1, "NV_BASIC".toList), (2, "NV_FIRSTAID".toList)]
      (by decide) (by decide) (by decide) (by decide) (by decide) (by decide)
      (Or.inl ⟨rfl, by decide⟩) (by decide) (by decide) (by decide) (by decide)⟩

end SKIDExtractor
